import Mathlib

/-!
A shallow embedding of the algorithmic core of the route-analyzer repository
(priority-based capacitated assignment, grid A* step costs, the road-distance
cache, the undirected weighted graph, the binary-heap priority queue and
Dijkstra shortest paths), together with theorems settling the specification
claims against it.

JavaScript `Map`s keyed by integers are modelled as total functions with the
initialisation value as default; JavaScript numbers are modelled as `ℚ` (exact
rationals) except for the A* cost formulas, which use `ℝ` because the source
multiplies by `Math.sqrt` values.
-/

namespace RouteAnalyzer

/-- Priority category of a person (`Point.category` in the source:
`'pwd' | 'female' | 'male'`). -/
inductive Category
  | pwd
  | female
  | male
deriving DecidableEq, Repr

/-- A person entity. Only the fields the assignment algorithm inspects are
kept: the priority `category`, plus an identifier `pid` standing for the
person's object identity (distinct input objects compare unequal under
JavaScript `===`, which `indexOf` uses). -/
structure Person where
  pid : ℕ
  category : Category
deriving DecidableEq, Repr

/-- The priority ranks of `AssignmentAlgorithm.sortPeopleByPriority`:
`{ 'pwd': 1, 'female': 2, 'male': 3 }`. -/
def priorityOrder : Category → ℕ
  | .pwd => 1
  | .female => 2
  | .male => 3

/-- The ordering induced by the source comparator
`(a, b) => priorityOrder[a.category] - priorityOrder[b.category]`:
`a` may stay before `b` iff its rank is not larger. -/
def priorityLE (a b : Person) : Prop :=
  priorityOrder a.category ≤ priorityOrder b.category

instance : DecidableRel priorityLE := fun a b => by
  unfold priorityLE; infer_instance

instance : IsTotal Person priorityLE :=
  ⟨fun a b => Nat.le_total (priorityOrder a.category) (priorityOrder b.category)⟩

instance : IsTrans Person priorityLE :=
  ⟨fun _ _ _ hab hbc => Nat.le_trans hab hbc⟩

/-- `AssignmentAlgorithm.sortPeopleByPriority`: a stable sort of the people by
priority rank. (JavaScript `Array.prototype.sort` is required to be stable;
`List.insertionSort`, a stable sort, models it.) -/
def sortPeopleByPriority (people : List Person) : List Person :=
  people.insertionSort priorityLE

/-- One assignment record as pushed onto `results` in
`AssignmentAlgorithm.performPriorityAssignment` (the `center` field, a copy of
`testCenters[centerIndex]`, is omitted as redundant with `centerIndex`). -/
structure AssignRecord where
  personIndex : ℕ
  centerIndex : ℕ
  person : Person
  distance : ℚ
  category : Category
deriving DecidableEq, Repr

/-- Loop body of `AssignmentAlgorithm.findBestAvailableCenter`: keep the
strictly closest center among those with remaining capacity `> 0`
(`bestCenter = null / bestDistance = Infinity` is the `none` accumulator). -/
def findBestLoop (personIndex : ℕ) (caps : ℕ → ℤ) (matrix : ℕ → ℕ → ℚ)
    (acc : Option (ℕ × ℚ)) (centerIndex : ℕ) : Option (ℕ × ℚ) :=
  if 0 < caps centerIndex then
    match acc with
    | none => some (centerIndex, matrix personIndex centerIndex)
    | some (bestCenter, bestDistance) =>
      if matrix personIndex centerIndex < bestDistance then
        some (centerIndex, matrix personIndex centerIndex)
      else
        some (bestCenter, bestDistance)
  else acc

/-- `AssignmentAlgorithm.findBestAvailableCenter`: scan centers
`0, …, numCenters-1` in index order and return the closest one that still has
capacity, or `none` when every center is full. -/
def findBestAvailableCenter (personIndex : ℕ) (numCenters : ℕ) (caps : ℕ → ℤ)
    (matrix : ℕ → ℕ → ℚ) : Option (ℕ × ℚ) :=
  (List.range numCenters).foldl (findBestLoop personIndex caps matrix) none

/-- The mutable state threaded through
`AssignmentAlgorithm.performPriorityAssignment`: the `assignments` map (as its
insertion-ordered entry list), the per-center remaining-capacity map
`testCenterCapacity`, and the `results` array. -/
structure AssignState where
  assignments : List (ℕ × ℕ)
  testCenterCapacity : ℕ → ℤ
  results : List AssignRecord

/-- One iteration of the loop in
`AssignmentAlgorithm.performPriorityAssignment`. Note `originalPersonIndex` is
computed, as in the source, by `sortedPeople.indexOf(person)` - an index into
the already-sorted array, not into the original input order. -/
def assignStep (sortedPeople : List Person) (numCenters : ℕ) (matrix : ℕ → ℕ → ℚ)
    (st : AssignState) (person : Person) : AssignState :=
  let originalPersonIndex := sortedPeople.indexOf person
  match findBestAvailableCenter originalPersonIndex numCenters st.testCenterCapacity matrix with
  | some (centerIndex, distance) =>
    { assignments := st.assignments ++ [(originalPersonIndex, centerIndex)]
      testCenterCapacity := fun j =>
        if j = centerIndex then st.testCenterCapacity j - 1 else st.testCenterCapacity j
      results := st.results ++ [{ personIndex := originalPersonIndex
                                  centerIndex := centerIndex
                                  person := person
                                  distance := distance
                                  category := person.category }] }
  | none => st

/-- Initial `testCenterCapacity` map: every center index below the number of
centers holds `capacityPerCenter`; the default `0` models a key that was never
set (`undefined > 0` is false in the availability check). -/
def initCaps (numCenters : ℕ) (capacityPerCenter : ℕ) : ℕ → ℤ :=
  fun j => if j < numCenters then (capacityPerCenter : ℤ) else 0

/-- `AssignmentAlgorithm.performPriorityAssignment`, folded over the sorted
people. -/
def performPriorityAssignment (sortedPeople : List Person) (numCenters : ℕ)
    (matrix : ℕ → ℕ → ℚ) (capacityPerCenter : ℕ) : AssignState :=
  sortedPeople.foldl (assignStep sortedPeople numCenters matrix)
    ⟨[], initCaps numCenters capacityPerCenter, []⟩

/-- The intermediate loop state of `performPriorityAssignment` after the first
`k` sorted people have been processed (`k = sortedPeople.length` gives the
final state). -/
def assignPrefixState (sortedPeople : List Person) (numCenters : ℕ)
    (matrix : ℕ → ℕ → ℚ) (capacityPerCenter : ℕ) (k : ℕ) : AssignState :=
  (sortedPeople.take k).foldl (assignStep sortedPeople numCenters matrix)
    ⟨[], initCaps numCenters capacityPerCenter, []⟩

/-- `AssignmentAlgorithm.assignPeopleToTestCenters` restricted to its
algorithmic core: capacities are initialised, people are sorted by priority and
then greedily assigned. The distance matrix (computed by an awaited external
service in the source) is taken as an input, and the test-center list enters
only through its length. -/
def assignPeopleToTestCenters (people : List Person) (numCenters capacityPerCenter : ℕ)
    (matrix : ℕ → ℕ → ℚ) : AssignState :=
  performPriorityAssignment (sortPeopleByPriority people) numCenters matrix capacityPerCenter

/-- The capacity bookkeeping invariant of `performPriorityAssignment`: at a
center index below `numCenters`, the remaining capacity is the initial capacity
minus the number of records assigned to that center, and is non-negative. -/
def CapInv (capacityPerCenter : ℕ) (j : ℕ) (st : AssignState) : Prop :=
  st.testCenterCapacity j =
      (capacityPerCenter : ℤ) - st.results.countP (fun r => r.centerIndex == j) ∧
  0 ≤ st.testCenterCapacity j

/-! ### Grid A* step costs (`AStarAlgorithm` in the source) -/

/-- `AStarAlgorithm.gridSize`: grid resolution in degrees (about 100 m). -/
noncomputable def gridSize : ℝ := 0.001

/-- `AStarAlgorithm.distance`: cost charged for a step between two grid cells
during the A* search. `baseDistance` is the Euclidean cell distance
`Math.sqrt(dx*dx + dy*dy)`; a diagonal step (`|dx| === 1 && |dy| === 1`) is
additionally multiplied by `1.414`. -/
noncomputable def cellDistance (a b : ℤ × ℤ) : ℝ :=
  let dx : ℤ := a.1 - b.1
  let dy : ℤ := a.2 - b.2
  let isDiagonal := |dx| = 1 ∧ |dy| = 1
  let baseDistance := Real.sqrt ((dx : ℝ) ^ 2 + (dy : ℝ) ^ 2)
  baseDistance * gridSize * 111 * (if isDiagonal then 1.414 else 1)

/-- `AStarAlgorithm.calculatePathDistance`: total distance of a path, summing
for every consecutive cell pair the same step formula that `distance` uses
(the source inlines the formula rather than calling `this.distance`). -/
noncomputable def calculatePathDistance (path : List (ℤ × ℤ)) : ℝ :=
  if path.length < 2 then 0
  else
    (path.zip path.tail).foldl
      (fun totalDistance pair =>
        let dx : ℤ := pair.2.1 - pair.1.1
        let dy : ℤ := pair.2.2 - pair.1.2
        let isDiagonal := |dx| = 1 ∧ |dy| = 1
        let baseDistance := Real.sqrt ((dx : ℝ) ^ 2 + (dy : ℝ) ^ 2)
        totalDistance + baseDistance * gridSize * 111 * (if isDiagonal then 1.414 else 1))
      0

/-- `AStarAlgorithm.maxDistance`: ceiling (km) on the straight-line distance up
to which the grid search is attempted by `findPath`. -/
def maxDistance : ℚ := 100

/-- Which route `AStarAlgorithm.findPath` computes an uncached distance by. -/
inductive PathMethod
  | grid
  | osrmFallback
deriving DecidableEq, Repr

/-- The method-selection logic of `AStarAlgorithm.findPath` for an uncached
pair: fall back to OSRM when the straight-line distance (`start.distanceTo
(goal)`, supplied here as an oracle input) exceeds `maxDistance`, or when the
grid search returns an empty path; otherwise the grid result is used.
(`findPath`'s internal memo cache is elided: this models the uncached call.) -/
def findPathMethod (straightDistance : ℚ) (gridPathFound : Bool) : PathMethod :=
  if straightDistance > maxDistance then .osrmFallback
  else if gridPathFound then .grid
  else .osrmFallback

/-! ### Road distance service (`RoadDistanceService` in the source) -/

/-- A geographic point as consumed by `RoadDistanceService` (JavaScript float
coordinates modelled as rationals). -/
structure Pt where
  latitude : ℚ
  longitude : ℚ
deriving DecidableEq, Repr

/-- `x.toFixed(6)`: a coordinate rounded to six decimal digits
(half-integers round up, matching `toFixed` for the common case). -/
def roundTo6 (x : ℚ) : ℚ := (⌊x * 1000000 + 1 / 2⌋ : ℤ) / 1000000

/-- The coordinate pair rendered by `getCacheKey` for one point:
`lat.toFixed(6) + "," + lng.toFixed(6)`, kept as the pair of rounded numbers
rather than the decimal string. -/
def coordsOf (p : Pt) : ℚ × ℚ := (roundTo6 p.latitude, roundTo6 p.longitude)

/-- The strict comparison `coords1 < coords2` of `getCacheKey`. The source
compares the two decimal strings; any strict total order produces the same
canonical unordered pair, and lexicographic numeric order is used here. -/
def coordsLt (c1 c2 : ℚ × ℚ) : Prop :=
  c1.1 < c2.1 ∨ (c1.1 = c2.1 ∧ c1.2 < c2.2)

instance : DecidableRel coordsLt := fun c1 c2 => by
  unfold coordsLt; infer_instance

/-- `RoadDistanceService.getCacheKey`: the order-independent canonical pair of
the two points' rounded coordinates. -/
def getCacheKey (point1 point2 : Pt) : (ℚ × ℚ) × (ℚ × ℚ) :=
  let coords1 := coordsOf point1
  let coords2 := coordsOf point2
  if coordsLt coords1 coords2 then (coords1, coords2) else (coords2, coords1)

/-- One entry of `RoadDistanceService.cache` (route geometry elided). -/
structure CacheEntry where
  distance : ℚ
  timestamp : ℕ
deriving DecidableEq, Repr

/-- Which backend a `RoadDistanceService.calculateRoadDistance` call resolves
through: a fresh cache hit, the external OSRM routing service, or the
Haversine fallback when the OSRM call throws. -/
inductive Backend
  | cache
  | osrm
  | haversine
deriving DecidableEq, Repr

/-- `RoadDistanceService.calculateRoadDistance`, as a pure decision function.
`cache` maps keys to entries (`none` = absent), `now` is `Date.now()`, `osrm`
is an oracle for the awaited `calculateOSRMDistance(point1, point2)` call
(`none` = the call threw and the catch-branch runs), `haversine` an oracle for
`point1.distanceTo(point2)`. Returns the backend used, the distance returned,
and the cache after the call. Despite the `useAStar` flag, the source always
calls OSRM for a non-fresh cache state ("For now, always use OSRM to avoid A*
issues" / "TODO: Fix A* algorithm and re-enable"); the grid pathfinder is
never consulted. -/
def calculateRoadDistance (cache : (ℚ × ℚ) × (ℚ × ℚ) → Option CacheEntry)
    (cacheTimeout : ℕ) (now : ℕ) (osrm : Pt → Pt → Option ℚ)
    (haversine : Pt → Pt → ℚ) (point1 point2 : Pt) :
    Backend × ℚ × ((ℚ × ℚ) × (ℚ × ℚ) → Option CacheEntry) :=
  let cacheKey := getCacheKey point1 point2
  match cache cacheKey with
  | some cached =>
    if now - cached.timestamp < cacheTimeout then
      (.cache, cached.distance, cache)
    else
      match osrm point1 point2 with
      | some d => (.osrm, d, fun k => if k = cacheKey then some ⟨d, now⟩ else cache k)
      | none => (.haversine, haversine point1 point2, cache)
  | none =>
    match osrm point1 point2 with
    | some d => (.osrm, d, fun k => if k = cacheKey then some ⟨d, now⟩ else cache k)
    | none => (.haversine, haversine point1 point2, cache)

/-! ### The weighted undirected graph (`Graph` in `Graph.js`) -/

/-- One adjacency entry `{ vertex, weight }`. Weights are the non-negative
integers of the spec's data model. -/
structure Edge where
  vertex : String
  weight : ℕ
deriving DecidableEq, Repr

/-- `Map.get` on an insertion-ordered association list. -/
def mapGet (m : List (String × List Edge)) (k : String) : Option (List Edge) :=
  match m with
  | [] => none
  | (k', v) :: rest => if k' = k then some v else mapGet rest k

/-- `Map.set` on an insertion-ordered association list: overwrite in place, or
append a new key at the end. -/
def mapSet (m : List (String × List Edge)) (k : String) (v : List Edge) :
    List (String × List Edge) :=
  match m with
  | [] => [(k, v)]
  | (k', v') :: rest => if k' = k then (k, v) :: rest else (k', v') :: mapSet rest k v

/-- In-place mutation of the array stored under an existing key (the JS code
retrieves the array with `get` and mutates it); absent keys are left untouched
(the JS code would throw there, and no reachable call does). -/
def mapUpdate (m : List (String × List Edge)) (k : String)
    (f : List Edge → List Edge) : List (String × List Edge) :=
  match m with
  | [] => []
  | (k', v') :: rest => if k' = k then (k', f v') :: rest else (k', v') :: mapUpdate rest k f

/-- `Map.delete` on an insertion-ordered association list. -/
def mapDelete (m : List (String × List Edge)) (k : String) : List (String × List Edge) :=
  match m with
  | [] => []
  | (k', v') :: rest => if k' = k then rest else (k', v') :: mapDelete rest k

/-- `array.splice(i, 1)`: drop the element at index `i` (no-op out of range). -/
def removeAt (l : List Edge) (i : ℕ) : List Edge :=
  l.take i ++ l.drop (i + 1)

/-- Remove the first entry satisfying `p` (`findIndex` + guarded `splice`). -/
def eraseFirstP (l : List Edge) (p : Edge → Bool) : List Edge :=
  match l.findIdx? p with
  | some i => removeAt l i
  | none => l

/-- The `Graph` class of `Graph.js`: an insertion-ordered adjacency `Map` and
vertex `Set`. -/
structure Graph where
  adjacencyList : List (String × List Edge)
  vertices : List String
deriving DecidableEq, Repr

/-- `new Graph()`. -/
def emptyGraph : Graph := ⟨[], []⟩

/-- `Graph.hasVertex`. -/
def hasVertex (g : Graph) (vertex : String) : Bool :=
  g.vertices.contains vertex

/-- The adjacency array stored for a vertex (`adjacencyList.get(v)`), with `[]`
for an absent key. -/
def adjOf (g : Graph) (vertex : String) : List Edge :=
  (mapGet g.adjacencyList vertex).getD []

/-- `Graph.addVertex`: insert the vertex with an empty adjacency array unless
already present. -/
def addVertex (g : Graph) (vertex : String) : Graph :=
  if g.vertices.contains vertex then g
  else ⟨mapSet g.adjacencyList vertex [], g.vertices ++ [vertex]⟩

/-- `Graph.addEdge from to weight` (`from`/`to` renamed `src`/`dst`; `from` is
reserved in Lean): ensure both vertices exist, then, unless `src`'s list
already holds an edge to `dst`, push the edge onto both lists (two pushes onto
the same array when `src = dst`). -/
def addEdge (g : Graph) (src dst : String) (weight : ℕ) : Graph :=
  let g1 := addVertex (addVertex g src) dst
  match (adjOf g1 src).find? (fun edge => edge.vertex == dst) with
  | some _ => g1
  | none =>
    let g2 : Graph := ⟨mapUpdate g1.adjacencyList src (fun l => l ++ [⟨dst, weight⟩]),
      g1.vertices⟩
    ⟨mapUpdate g2.adjacencyList dst (fun l => l ++ [⟨src, weight⟩]), g2.vertices⟩

/-- `Graph.hasEdge`. -/
def hasEdge (g : Graph) (src dst : String) : Bool :=
  hasVertex g src && hasVertex g dst && (adjOf g src).any (fun edge => edge.vertex == dst)

/-- `Graph.getEdgeWeight`: the stored weight, or `-1` when the edge is absent. -/
def getEdgeWeight (g : Graph) (src dst : String) : ℤ :=
  if hasEdge g src dst then
    match (adjOf g src).find? (fun edge => edge.vertex == dst) with
    | some edge => (edge.weight : ℤ)
    | none => -1
  else -1

/-- `Graph.getNeighbors`. -/
def getNeighbors (g : Graph) (vertex : String) : List String :=
  if hasVertex g vertex then (adjOf g vertex).map (·.vertex) else []

/-- `Graph.getVertices` (`Array.from` of the insertion-ordered set). -/
def getVertices (g : Graph) : List String :=
  g.vertices

/-- `Graph.removeEdge`: when `src → dst` exists, compute both indices first,
then splice each out (for a self-loop both splices hit the same array, the
second index acting on the once-spliced list, exactly as in JS). -/
def removeEdge (g : Graph) (src dst : String) : Graph :=
  if hasEdge g src dst then
    let fromIndex? := (adjOf g src).findIdx? (fun edge => edge.vertex == dst)
    let toIndex? := (adjOf g dst).findIdx? (fun edge => edge.vertex == src)
    let g1 : Graph :=
      match fromIndex? with
      | some i => ⟨mapUpdate g.adjacencyList src (fun l => removeAt l i), g.vertices⟩
      | none => g
    match toIndex? with
    | some i => ⟨mapUpdate g1.adjacencyList dst (fun l => removeAt l i), g1.vertices⟩
    | none => g1
  else g

/-- The `neighbors.forEach` loop of `Graph.removeVertex`, iterating index `k`
from `0` to the initially-captured length minus one over the *live* adjacency
array of `v` (a splice of that same array - which happens when a self-loop
entry is processed - shifts the not-yet-visited elements, exactly as JS
`forEach` over a mutated array does; an index at or beyond the current length
is skipped). Each visited entry removes the first edge back to `v` from that
neighbor's list. -/
def removeVertexLoop (v : String) : ℕ → ℕ → List (String × List Edge) →
    List (String × List Edge)
  | 0, _, adj => adj
  | fuel + 1, k, adj =>
    let cur := (mapGet adj v).getD []
    if k < cur.length then
      let neighbor := cur.getD k ⟨v, 0⟩
      let adj' := mapUpdate adj neighbor.vertex (fun l => eraseFirstP l (·.vertex == v))
      removeVertexLoop v fuel (k + 1) adj'
    else
      removeVertexLoop v fuel (k + 1) adj

/-- `Graph.removeVertex`: remove every edge referencing the vertex via the
`forEach` loop, then delete its adjacency entry and the vertex itself. -/
def removeVertex (g : Graph) (vertex : String) : Graph :=
  if g.vertices.contains vertex then
    let neighbors := adjOf g vertex
    let adj' := removeVertexLoop vertex neighbors.length 0 g.adjacencyList
    ⟨mapDelete adj' vertex, g.vertices.erase vertex⟩
  else g

/-- Total length of all adjacency arrays. -/
def totalAdjSize (g : Graph) : ℕ :=
  (g.adjacencyList.map (fun e => e.2.length)).sum

/-- `Graph.getEdgeCount`: half the summed adjacency lengths (JS number
division; the undirected representation stores each edge twice). -/
def getEdgeCount (g : Graph) : ℚ :=
  (totalAdjSize g : ℚ) / 2

/-- One `Graph` mutation, for stating invariants over operation sequences. -/
inductive GOp
  | addVertexOp (vertex : String)
  | addEdgeOp (src dst : String) (weight : ℕ)
  | removeVertexOp (vertex : String)
  | removeEdgeOp (src dst : String)
deriving DecidableEq, Repr

/-- Apply one operation. -/
def applyOp (g : Graph) : GOp → Graph
  | .addVertexOp v => addVertex g v
  | .addEdgeOp a b w => addEdge g a b w
  | .removeVertexOp v => removeVertex g v
  | .removeEdgeOp a b => removeEdge g a b

/-- The graph built by a sequence of operations from an empty graph. -/
def applyOps (ops : List GOp) : Graph :=
  ops.foldl applyOp emptyGraph

/-- Whether an operation is `addVertex` or `addEdge` (the constructors allowed
by the shortest-path claims' "graph built by addVertex/addEdge"). -/
def GOp.isAdd : GOp → Bool
  | .addVertexOp _ => true
  | .addEdgeOp _ _ _ => true
  | .removeVertexOp _ => false
  | .removeEdgeOp _ _ => false

/-! ### The binary-heap priority queue (`PriorityQueue` in `Dijkstra.js`) -/

/-- One heap node `{ element, priority }`; priorities are the JS numbers fed by
Dijkstra (tentative distances, possibly `Infinity`). -/
abbrev HeapNode := String × WithTop ℤ

/-- Swap two heap slots (out-of-range indices leave the array unchanged). -/
def heapSwap (heap : List HeapNode) (i j : ℕ) : List HeapNode :=
  let a := heap.getD i default
  let b := heap.getD j default
  (heap.set i b).set j a

/-- `PriorityQueue.bubbleUp`, with explicit recursion fuel (the recursion
ascends `index → (index-1)/2`, so `index` steps of fuel always suffice). -/
def bubbleUpFuel : ℕ → List HeapNode → ℕ → List HeapNode
  | 0, heap, _ => heap
  | fuel + 1, heap, index =>
    if index = 0 then heap
    else
      let parentIndex := (index - 1) / 2
      if (heap.getD index default).2 < (heap.getD parentIndex default).2 then
        bubbleUpFuel fuel (heapSwap heap index parentIndex) parentIndex
      else heap

/-- `PriorityQueue.bubbleUp`. -/
def bubbleUp (heap : List HeapNode) (index : ℕ) : List HeapNode :=
  bubbleUpFuel index heap index

/-- `PriorityQueue.bubbleDown`, with explicit recursion fuel (the recursion
descends to a child index `> index` bounded by the length, so `heap.length`
steps of fuel always suffice). -/
def bubbleDownFuel : ℕ → List HeapNode → ℕ → List HeapNode
  | 0, heap, _ => heap
  | fuel + 1, heap, index =>
    let leftChild := 2 * index + 1
    let rightChild := 2 * index + 2
    let s1 := if leftChild < heap.length ∧
        (heap.getD leftChild default).2 < (heap.getD index default).2 then leftChild
      else index
    let smallest := if rightChild < heap.length ∧
        (heap.getD rightChild default).2 < (heap.getD s1 default).2 then rightChild
      else s1
    if smallest ≠ index then bubbleDownFuel fuel (heapSwap heap index smallest) smallest
    else heap

/-- `PriorityQueue.bubbleDown`. -/
def bubbleDown (heap : List HeapNode) (index : ℕ) : List HeapNode :=
  bubbleDownFuel heap.length heap index

/-- `PriorityQueue.enqueue`: push the node and sift it up from the last slot. -/
def enqueue (heap : List HeapNode) (element : String) (priority : WithTop ℤ) :
    List HeapNode :=
  bubbleUp (heap ++ [(element, priority)]) heap.length

/-- `PriorityQueue.dequeue`: return the root element; move the last node to the
root and sift it down (`none` on an empty heap, where JS returns `null`).
Returns the dequeued element together with the remaining heap. -/
def dequeue (heap : List HeapNode) : Option String × List HeapNode :=
  match heap with
  | [] => (none, [])
  | first :: _ =>
    let last := heap.getLastD default
    let popped := heap.dropLast
    if popped.isEmpty then (some first.1, popped)
    else (some first.1, bubbleDown (popped.set 0 last) 0)

/-! ### Dijkstra (`DijkstraAlgorithm.findShortestPath` in `Dijkstra.js`) -/

/-- The mutable state of the `findShortestPath` loop: the `distances` map
(total function defaulting to the `Infinity` every graph vertex is initialised
to), the `previous` parent map, the insertion-ordered `visited` set and the
priority queue. -/
structure DState where
  distances : String → WithTop ℤ
  previous : String → Option String
  visited : List String
  pq : List HeapNode

/-- The body of the neighbor loop: skip visited neighbors, otherwise relax the
edge and enqueue the improved tentative distance. -/
def relaxNeighbor (g : Graph) (current : String) (st : DState) (neighbor : String) :
    DState :=
  if st.visited.contains neighbor then st
  else
    let edgeWeight := getEdgeWeight g current neighbor
    let newDistance := st.distances current + (edgeWeight : WithTop ℤ)
    if newDistance < st.distances neighbor then
      { distances := fun v => if v = neighbor then newDistance else st.distances v
        previous := fun v => if v = neighbor then some current else st.previous v
        visited := st.visited
        pq := enqueue st.pq neighbor newDistance }
    else st

/-- Relax all neighbors of the vertex just visited. -/
def relaxAll (g : Graph) (current : String) (st : DState) : DState :=
  (getNeighbors g current).foldl (relaxNeighbor g current) st

/-- The `while (!pq.isEmpty())` loop of `findShortestPath` (`end` renamed
`endV`; reserved in Lean), with explicit fuel: dequeue, skip already-visited
elements, mark visited, break once the end vertex is visited, else relax the
neighbors. `dijkstraFuel` below always suffices for the loop to run to
completion. -/
def dijkstraLoop (g : Graph) (endV : String) : ℕ → DState → DState
  | 0, st => st
  | fuel + 1, st =>
    if st.pq.isEmpty then st
    else
      match dequeue st.pq with
      | (none, _) => st
      | (some current, pq') =>
        if st.visited.contains current then
          dijkstraLoop g endV fuel { st with pq := pq' }
        else
          let st1 : DState := { st with visited := st.visited ++ [current], pq := pq' }
          if current = endV then st1
          else dijkstraLoop g endV fuel (relaxAll g current st1)

/-- Fuel on which `dijkstraLoop` always terminates: one more than the bound
`|V| * (A + 2) + pq₀` on the number of loop iterations, where every iteration
strictly decreases the measure `|unvisited vertices| * (A + 2) + |pq|`
(a visit pushes at most `A = totalAdjSize` nodes, a skip pops one). -/
def dijkstraFuel (g : Graph) : ℕ :=
  (g.vertices.length + 1) * (totalAdjSize g + 2) + 1

/-- `DijkstraAlgorithm.reconstructPath`'s `while (current !== undefined)` loop,
with explicit fuel (`|V| + 1` suffices: the parent chain strictly ascends the
visit order). -/
def reconGo (previous : String → Option String) : ℕ → Option String → List String →
    List String
  | 0, _, path => path
  | _ + 1, none, path => path
  | fuel + 1, some current, path => reconGo previous fuel (previous current) (current :: path)

/-- `DijkstraAlgorithm.reconstructPath` (the `start` parameter is unused in the
source as well). -/
def reconstructPath (previous : String → Option String) (start endV : String)
    (fuel : ℕ) : List String :=
  reconGo previous fuel (some endV) []

/-- `DijkstraAlgorithm.findShortestPath`: sentinel `([], -1)` when either
vertex is absent; run the loop from `distances[start] = 0`, `pq = [(start,0)]`;
sentinel when the end distance is still `Infinity`; otherwise the
reconstructed path and its distance. -/
def findShortestPath (g : Graph) (start endV : String) : List String × ℤ :=
  if hasVertex g start && hasVertex g endV then
    let st0 : DState :=
      { distances := fun v => if v = start then (0 : WithTop ℤ) else ⊤
        previous := fun _ => none
        visited := []
        pq := enqueue [] start 0 }
    let stF := dijkstraLoop g endV (dijkstraFuel g) st0
    if stF.distances endV = ⊤ then ([], -1)
    else (reconstructPath stF.previous start endV (g.vertices.length + 1),
      (stF.distances endV).untop' (-1))
  else ([], -1)

/-- The five-vertex sample graph of `RouteAnalyzerApp.createSampleGraph`. -/
def createSampleGraph : Graph :=
  let g := addVertex (addVertex (addVertex (addVertex (addVertex emptyGraph "A") "B") "C")
    "D") "E"
  let g := addEdge g "A" "B" 4
  let g := addEdge g "A" "C" 2
  let g := addEdge g "B" "C" 1
  let g := addEdge g "B" "D" 5
  let g := addEdge g "C" "D" 8
  let g := addEdge g "C" "E" 10
  addEdge g "D" "E" 2

/-! ### Walks, reachability, and the Dijkstra loop invariant -/

/-- A walk in the graph: a nonempty vertex sequence each consecutive pair of
which is an edge. -/
def IsWalk (g : Graph) (p : List String) : Prop :=
  p ≠ [] ∧ List.Chain' (fun a b => hasEdge g a b = true) p

/-- The summed edge weights along a vertex sequence, read through
`getEdgeWeight` exactly as the algorithm reads them. -/
def walkWeight (g : Graph) (p : List String) : ℤ :=
  ((p.zip p.tail).map (fun pr => getEdgeWeight g pr.1 pr.2)).sum

/-- A walk from `s` to `v`. -/
def WalkFrom (g : Graph) (s v : String) (p : List String) : Prop :=
  IsWalk g p ∧ p.head? = some s ∧ p.getLast? = some v

/-- `v` is reachable from `s`: some walk joins them (the one-vertex walk makes
every vertex reachable from itself). -/
def Reachable (g : Graph) (s v : String) : Prop :=
  ∃ p, WalkFrom g s v p

/-- A simple path from `s` to `v`: a walk without repeated vertices. -/
def SimplePathFrom (g : Graph) (s v : String) (p : List String) : Prop :=
  WalkFrom g s v p ∧ p.Nodup

/-- Well-formedness of a graph for the shortest-path analysis: every adjacency
entry points at a vertex of the graph. Holds for every graph built by
`addVertex`/`addEdge`. -/
def WFg (g : Graph) : Prop :=
  ∀ a, ∀ e ∈ adjOf g a, e.vertex ∈ g.vertices

/-- The priority stored in a heap slot (the default is never read in-range). -/
def prioAt (heap : List HeapNode) (j : ℕ) : WithTop ℤ :=
  (heap.getD j default).2

/-- The min-heap shape invariant of the `PriorityQueue` array: every non-root
slot has priority at least its parent's. -/
def HeapInv (heap : List HeapNode) : Prop :=
  ∀ j, 0 < j → j < heap.length → prioAt heap ((j - 1) / 2) ≤ prioAt heap j

/-- Intermediate invariant of `bubbleUp`: the heap shape may be broken only on
the link into slot `i`, and `i`'s prospective children are bounded below by
`i`'s parent (the grandparent bridge). -/
def UpInvExcept (heap : List HeapNode) (i : ℕ) : Prop :=
  (∀ j, 0 < j → j < heap.length → j ≠ i → prioAt heap ((j - 1) / 2) ≤ prioAt heap j) ∧
  (0 < i → ∀ c, c < heap.length → (c - 1) / 2 = i →
    prioAt heap ((i - 1) / 2) ≤ prioAt heap c)

/-- Intermediate invariant of `bubbleDown`: the heap shape may be broken only
on the links out of slot `i`, and `i`'s children are bounded below by `i`'s
parent (the grandparent bridge). -/
def DownInvExcept (heap : List HeapNode) (i : ℕ) : Prop :=
  (∀ j, 0 < j → j < heap.length → (j - 1) / 2 ≠ i →
    prioAt heap ((j - 1) / 2) ≤ prioAt heap j) ∧
  (0 < i → ∀ c, c < heap.length → (c - 1) / 2 = i →
    prioAt heap ((i - 1) / 2) ≤ prioAt heap c)

/-- Number of graph vertices not yet visited (first component of the loop's
termination measure). -/
def unvisitedCount (g : Graph) (st : DState) : ℕ :=
  (g.vertices.filter (fun v => !(st.visited.contains v))).length

/-- The strictly decreasing termination measure of the Dijkstra loop. -/
def dijkstraMeasure (g : Graph) (st : DState) : ℕ :=
  unvisitedCount g st * (totalAdjSize g + 2) + st.pq.length

/-- The edge-relaxation clause of the loop invariant: every edge out of a
visited vertex other than `endV` (whose neighbor loop is skipped by the early
break) has been relaxed. -/
def RelaxedAll (g : Graph) (endV : String) (vis : List String)
    (dist : String → WithTop ℤ) : Prop :=
  ∀ u ∈ vis, u ≠ endV → ∀ e ∈ adjOf g u,
    dist e.vertex ≤ dist u + (getEdgeWeight g u e.vertex : WithTop ℤ)

/-- The core invariant of the Dijkstra loop, for source `s` and early-exit
vertex `endV` - everything except the edge-relaxation clause. The fields
assert, in order: the source distance stays `0`; distances are non-negative;
every finite distance is realised by a walk from `s`; visited vertices are
graph vertices, without repetition; priority-queue elements are graph
vertices, their priorities finite upper bounds of their current distances;
every unvisited vertex with a finite distance has a fresh queue entry; a
visited vertex's distance lower-bounds every walk to it and is finite; the
parent map is set exactly on non-source vertices with finite distance and
points along an edge to an earlier-visited vertex; and the queue array is a
min-heap. -/
structure DCore (g : Graph) (s : String) (st : DState) : Prop where
  distS : st.distances s = 0
  distNonneg : ∀ v, 0 ≤ st.distances v
  reach : ∀ v, st.distances v ≠ ⊤ →
    ∃ p, WalkFrom g s v p ∧ (walkWeight g p : WithTop ℤ) = st.distances v
  visitedSub : ∀ v ∈ st.visited, v ∈ g.vertices
  visitedNodup : st.visited.Nodup
  pqElems : ∀ nd ∈ st.pq, nd.1 ∈ g.vertices
  pqBound : ∀ nd ∈ st.pq, st.distances nd.1 ≤ nd.2
  pqFinite : ∀ nd ∈ st.pq, nd.2 ≠ ⊤
  fresh : ∀ v, v ∉ st.visited → st.distances v ≠ ⊤ → (v, st.distances v) ∈ st.pq
  visMin : ∀ u ∈ st.visited, ∀ p, WalkFrom g s u p →
    st.distances u ≤ (walkWeight g p : WithTop ℤ)
  visFin : ∀ u ∈ st.visited, st.distances u ≠ ⊤
  prevSet : ∀ v, st.distances v ≠ ⊤ → v ≠ s → st.previous v ≠ none
  prevS : st.previous s = none
  prevSpec : ∀ v u, st.previous v = some u → hasEdge g u v = true ∧ u ∈ st.visited ∧
    (v ∈ st.visited → st.visited.indexOf u < st.visited.indexOf v)
  heapInv : HeapInv st.pq

/-- The full invariant of the Dijkstra loop. -/
def DInv (g : Graph) (s endV : String) (st : DState) : Prop :=
  DCore g s st ∧ RelaxedAll g endV st.visited st.distances

/-- Invariant carried across the neighbor-relaxation fold of `relaxAll`, for a
freshly visited vertex `current` (visited set `visOld ++ [current]`, distance
`d0`): the core invariant; the visited set and `current`'s distance are
untouched; edges out of earlier-visited vertices stay relaxed; and the
already-processed neighbors of `current` are relaxed. -/
structure RelaxInv (g : Graph) (s endV current : String) (visOld : List String)
    (d0 : WithTop ℤ) (processed : List String) (st : DState) : Prop where
  core : DCore g s st
  visEq : st.visited = visOld ++ [current]
  distCur : st.distances current = d0
  d0fin : d0 ≠ ⊤
  oldRelaxed : RelaxedAll g endV visOld st.distances
  newRelaxed : ∀ b ∈ processed,
    st.distances b ≤ d0 + (getEdgeWeight g current b : WithTop ℤ)

/-- The operation sequence that builds the five-vertex sample graph (the
`addVertex`/`addEdge` calls of `createSampleGraph`, as `GOp`s). -/
def sampleOps : List GOp :=
  [.addVertexOp "A", .addVertexOp "B", .addVertexOp "C", .addVertexOp "D",
   .addVertexOp "E",
   .addEdgeOp "A" "B" 4, .addEdgeOp "A" "C" 2, .addEdgeOp "B" "C" 1,
   .addEdgeOp "B" "D" 5, .addEdgeOp "C" "D" 8, .addEdgeOp "C" "E" 10,
   .addEdgeOp "D" "E" 2]

/-- Number of adjacency entries of `l` pointing at vertex `b`. -/
def countV (l : List Edge) (b : String) : ℕ :=
  (l.filter (fun e => e.vertex == b)).length

/-- Number of adjacency entries of `l` equal to the edge `b`/`w`. -/
def countE (l : List Edge) (b : String) (w : ℕ) : ℕ :=
  (l.filter (fun e => e.vertex == b && e.weight == w)).length

/-- Shape of the self-loop entries in a vertex own adjacency array: either none
(no self loop), or exactly one adjacent equal-weight pair (the two pushes of a
single `addEdge(a, a, w)`). -/
def SelfOK (l : List Edge) (a : String) : Prop :=
  (∀ e ∈ l, e.vertex ≠ a) ∨
  ∃ p1 w p2, l = p1 ++ ⟨a, w⟩ :: ⟨a, w⟩ :: p2 ∧
    (∀ e ∈ p1, e.vertex ≠ a) ∧ (∀ e ∈ p2, e.vertex ≠ a)

/-- The structural invariant of `Graph` maintained by the four mutators:
adjacency keys and the vertex set coincide and carry no duplicates, every edge
target is a vertex, the two directions of an edge between distinct vertices
occur equally often (with equal weight) and at most once, self loops form one
adjacent pair, and the summed adjacency lengths are even. -/
structure GInv (g : Graph) : Prop where
  keysIff : ∀ k, k ∈ g.adjacencyList.map (fun p => p.1) ↔ k ∈ g.vertices
  keysNodup : (g.adjacencyList.map (fun p => p.1)).Nodup
  vertsNodup : g.vertices.Nodup
  targets : ∀ a, ∀ e ∈ adjOf g a, e.vertex ∈ g.vertices
  symCount : ∀ a b, a ≠ b → ∀ w, countE (adjOf g a) b w = countE (adjOf g b) a w
  simple : ∀ a b, a ≠ b → countV (adjOf g a) b ≤ 1
  selfOK : ∀ a, SelfOK (adjOf g a) a
  evenTotal : Even (totalAdjSize g)

end RouteAnalyzer

namespace RouteAnalyzer

/-! ### Assignment engine: helper lemmas -/

theorem findBestLoop_spec (personIndex : ℕ) (caps : ℕ → ℤ) (matrix : ℕ → ℕ → ℚ)
    (S : Set ℕ) :
    ∀ (L : List ℕ) (acc : Option (ℕ × ℚ)),
      (∀ c d, acc = some (c, d) → 0 < caps c ∧ c ∈ S) →
      (∀ x ∈ L, x ∈ S) →
      ∀ c d, L.foldl (findBestLoop personIndex caps matrix) acc = some (c, d) →
        0 < caps c ∧ c ∈ S := by
  intro L
  induction L with
  | nil => intro acc hacc _ c d h; exact hacc c d h
  | cons x xs ih =>
    intro acc hacc hL c d h
    rw [List.foldl_cons] at h
    refine ih _ ?_ (fun y hy => hL y (List.mem_cons_of_mem _ hy)) c d h
    intro c' d' hstep
    have hxS : x ∈ S := hL x (List.mem_cons_self _ _)
    rcases acc with _ | ⟨b, bd⟩
    · by_cases hpos : 0 < caps x
      · simp [findBestLoop, hpos] at hstep
        exact ⟨hstep.1 ▸ hpos, hstep.1 ▸ hxS⟩
      · simp [findBestLoop, hpos] at hstep
    · by_cases hpos : 0 < caps x
      · by_cases hlt : matrix personIndex x < bd
        · simp [findBestLoop, hpos, hlt] at hstep
          exact ⟨hstep.1 ▸ hpos, hstep.1 ▸ hxS⟩
        · simp [findBestLoop, hpos, hlt] at hstep
          exact hstep.1 ▸ hacc b bd rfl
      · simp [findBestLoop, hpos] at hstep
        exact hstep.1 ▸ hacc b bd rfl

theorem findBestAvailableCenter_spec {personIndex numCenters : ℕ} {caps : ℕ → ℤ}
    {matrix : ℕ → ℕ → ℚ} {c : ℕ} {d : ℚ}
    (h : findBestAvailableCenter personIndex numCenters caps matrix = some (c, d)) :
    0 < caps c ∧ c < numCenters :=
  findBestLoop_spec personIndex caps matrix {x | x < numCenters} (List.range numCenters) none
    (by intro c d h; cases h) (by intro x hx; simpa using List.mem_range.mp hx) c d h

theorem assignStep_capInv (sortedPeople : List Person) (numCenters capacityPerCenter : ℕ)
    (matrix : ℕ → ℕ → ℚ) (j : ℕ) (st : AssignState)
    (h : CapInv capacityPerCenter j st) (person : Person) :
    CapInv capacityPerCenter j (assignStep sortedPeople numCenters matrix st person) := by
  obtain ⟨heq, hge⟩ := h
  rcases hfb : findBestAvailableCenter (sortedPeople.indexOf person) numCenters
      st.testCenterCapacity matrix with _ | ⟨c, d⟩
  · dsimp only [assignStep]
    rw [hfb]
    exact ⟨heq, hge⟩
  · obtain ⟨hpos, hc⟩ := findBestAvailableCenter_spec hfb
    dsimp only [assignStep]
    rw [hfb]
    dsimp only
    constructor
    · simp only [List.countP_append, List.countP_cons, List.countP_nil]
      by_cases hjc : j = c
      · subst hjc
        simp only [if_pos rfl, heq, beq_self_eq_true, if_pos]
        push_cast
        omega
      · have : (c == j) = false := by simpa using Ne.symm hjc
        simp [hjc, this, heq]
    · by_cases hjc : j = c
      · subst hjc
        simp only [if_pos rfl]
        omega
      · simp only [if_neg hjc]
        exact hge

theorem foldl_assign_capInv (sortedPeople : List Person) (numCenters capacityPerCenter : ℕ)
    (matrix : ℕ → ℕ → ℚ) (j : ℕ) :
    ∀ (L : List Person) (st : AssignState),
      CapInv capacityPerCenter j st →
      CapInv capacityPerCenter j
        (L.foldl (assignStep sortedPeople numCenters matrix) st) := by
  intro L
  induction L with
  | nil => intro st h; exact h
  | cons p ps ih =>
    intro st h
    exact ih _ (assignStep_capInv sortedPeople numCenters capacityPerCenter matrix j st h p)

theorem capInv_init (numCenters capacityPerCenter j : ℕ) (hj : j < numCenters) :
    CapInv capacityPerCenter j
      (⟨[], initCaps numCenters capacityPerCenter, []⟩ : AssignState) := by
  constructor
  · simp [initCaps, hj]
  · simp [initCaps, hj]

/-! ### C1 -/

/-- C1: after `assign(...)`, every center below `numCenters` holds at most
`capacityPerCenter` assignment records, and at every intermediate point of the
run (after processing the first `k` sorted people) the remaining-capacity
counter of that center equals `capacityPerCenter` minus the number of records
naming it so far - so it starts at `capacityPerCenter` and is decremented by
exactly one per successful assignment to it - and is never negative. -/
theorem C1_capacity_invariant (sortedPeople : List Person)
    (numCenters capacityPerCenter : ℕ) (matrix : ℕ → ℕ → ℚ) (j k : ℕ)
    (hj : j < numCenters) :
    ((assignPrefixState sortedPeople numCenters matrix capacityPerCenter k).testCenterCapacity j =
        (capacityPerCenter : ℤ) -
          (assignPrefixState sortedPeople numCenters matrix capacityPerCenter k).results.countP
            (fun r => r.centerIndex == j) ∧
      0 ≤ (assignPrefixState sortedPeople numCenters matrix
            capacityPerCenter k).testCenterCapacity j) ∧
    (performPriorityAssignment sortedPeople numCenters matrix
        capacityPerCenter).results.countP (fun r => r.centerIndex == j) ≤
      capacityPerCenter := by
  have hk := foldl_assign_capInv sortedPeople numCenters capacityPerCenter matrix j
    (sortedPeople.take k) _ (capInv_init numCenters capacityPerCenter j hj)
  have hfull := foldl_assign_capInv sortedPeople numCenters capacityPerCenter matrix j
    sortedPeople _ (capInv_init numCenters capacityPerCenter j hj)
  refine ⟨⟨hk.1, hk.2⟩, ?_⟩
  obtain ⟨heq, hge⟩ := hfull
  rw [performPriorityAssignment]
  omega

/-- Witness for `C1_capacity_invariant` at a concrete instance (scenario B:
one center of capacity 2, three sorted people). -/
theorem C1_capacity_invariant_witness :
    (0 : ℕ) < 1 ∧
    ((assignPrefixState [⟨2, .pwd⟩, ⟨1, .female⟩, ⟨0, .male⟩] 1 (fun _ _ => 1) 2
          3).testCenterCapacity 0 =
        (2 : ℤ) -
          (assignPrefixState [⟨2, .pwd⟩, ⟨1, .female⟩, ⟨0, .male⟩] 1 (fun _ _ => 1) 2
              3).results.countP (fun r => r.centerIndex == 0) ∧
      0 ≤ (assignPrefixState [⟨2, .pwd⟩, ⟨1, .female⟩, ⟨0, .male⟩] 1 (fun _ _ => 1) 2
            3).testCenterCapacity 0) ∧
    (performPriorityAssignment [⟨2, .pwd⟩, ⟨1, .female⟩, ⟨0, .male⟩] 1 (fun _ _ => 1)
        2).results.countP (fun r => r.centerIndex == 0) ≤ 2 :=
  ⟨Nat.one_pos,
    C1_capacity_invariant [⟨2, .pwd⟩, ⟨1, .female⟩, ⟨0, .male⟩] 1 2 (fun _ _ => 1) 0 3
      Nat.one_pos⟩

/-! ### C2 -/

/-- C2: `sortPeopleByPriority` is a stable sort by the priority order
PWD(1) < Female(2) < Male(3): it permutes the input, its output is sorted by
rank, and within each category the original relative order is preserved
(filtering by any category commutes with the sort). Consequently, in scenario
B (one center of capacity 2; input order Male at 0.1 km, Female at 0.5 km,
PWD at 1 km), the PWD and the Female are assigned and the Male is left
unassigned despite being nearest. -/
theorem C2_stable_priority_sort :
    (∀ people : List Person,
        List.Perm (sortPeopleByPriority people) people ∧
        List.Pairwise priorityLE (sortPeopleByPriority people) ∧
        ∀ c : Category,
          (sortPeopleByPriority people).filter (fun p => p.category == c) =
            people.filter (fun p => p.category == c)) ∧
    (assignPeopleToTestCenters [⟨0, .male⟩, ⟨1, .female⟩, ⟨2, .pwd⟩] 1 2
        (fun i _ => if i = 0 then 1/10 else if i = 1 then 1/2 else 1)).results.map
      (fun r => (r.person.pid, r.category)) = [(2, Category.pwd), (1, Category.female)] := by
  constructor
  · intro people
    refine ⟨List.perm_insertionSort _ _, List.sorted_insertionSort _ _, ?_⟩
    intro c
    have hpw : (people.filter (fun p => p.category == c)).Pairwise priorityLE := by
      refine List.pairwise_of_forall_mem_list ?_
      intro a ha b hb
      have ha' : a.category = c := by simpa using (List.mem_filter.mp ha).2
      have hb' : b.category = c := by simpa using (List.mem_filter.mp hb).2
      unfold priorityLE
      rw [ha', hb']
    have hsub : (people.filter (fun p => p.category == c)).Sublist
        (sortPeopleByPriority people) :=
      List.sublist_insertionSort hpw (List.filter_sublist people)
    have hperm : ((sortPeopleByPriority people).filter (fun p => p.category == c)).Perm
        (people.filter (fun p => p.category == c)) :=
      (List.perm_insertionSort priorityLE people).filter _
    have hsub' : (people.filter (fun p => p.category == c)).Sublist
        ((sortPeopleByPriority people).filter (fun p => p.category == c)) := by
      have := hsub.filter (fun p => p.category == c)
      simpa [List.filter_filter] using this
    exact (hsub'.eq_of_length (by rw [hperm.length_eq])).symm
  · decide

/-! ### C5 -/

/-- C5 (code-bug evidence): on the input `[Male (pid 0), PWD (pid 1)]` with one
center of capacity 2, the produced records carry `personIndex` values `0` for
the PWD and `1` for the Male - the positions in the *sorted* array (the source
computes `sortedPeople.indexOf(person)`), even though the PWD sits at index 1
and the Male at index 0 of the original input (second and third conjuncts).
The recorded `personIndex` therefore does not round-trip to the original input
order, and the distance-matrix row read for each person is the row of whichever
person occupies that sorted position. -/
theorem C5_personIndex_is_sorted_position :
    (assignPeopleToTestCenters [⟨0, .male⟩, ⟨1, .pwd⟩] 1 2
        (fun i _ => if i = 0 then 1/10 else 1)).results.map
      (fun r => (r.person.pid, r.personIndex)) = [(1, 0), (0, 1)] ∧
    ([⟨0, .male⟩, ⟨1, .pwd⟩] : List Person).indexOf ⟨1, .pwd⟩ = 1 ∧
    ([⟨0, .male⟩, ⟨1, .pwd⟩] : List Person).indexOf ⟨0, .male⟩ = 0 := by
  decide

/-! ### C7 -/

/-- C7 counterexample: at the concrete diagonal step `(0,0) → (1,1)` the edge
cost is not `√2` times the axis-aligned step cost `(0,0) → (1,0)`: it is
`√2 · 1.414` times it, because `baseDistance` is already `√2` for a diagonal
step and the source multiplies by `1.414` on top of it. -/
theorem C7_diagonal_cost_counterexample :
    cellDistance (1, 1) (0, 0) ≠ Real.sqrt 2 * cellDistance (1, 0) (0, 0) := by
  have h2 : (0 : ℝ) < Real.sqrt 2 := Real.sqrt_pos.mpr (by norm_num)
  have h11 : Real.sqrt (((1 : ℤ) : ℝ) ^ 2 + ((1 : ℤ) : ℝ) ^ 2) = Real.sqrt 2 := by
    norm_num
  have h10 : Real.sqrt (((1 : ℤ) : ℝ) ^ 2 + ((0 : ℤ) : ℝ) ^ 2) = 1 := by
    norm_num
  simp only [cellDistance, gridSize]
  norm_num [h11, h10]
  intro h
  nlinarith [h2, h]

/-- C7 amended: a diagonal step between 8-adjacent cells costs
`1.414 · (√2 · gridSize · 111)` - i.e. `1.414 · √2` times an axis-aligned step
such as `(0,0) → (1,0)` - not `√2` times it; and `calculatePathDistance`
charges exactly this same per-step cost (its inlined formula agrees with
`distance` on every consecutive pair). -/
theorem C7_diagonal_cost_amended (a b : ℤ × ℤ)
    (h : |a.1 - b.1| = 1 ∧ |a.2 - b.2| = 1) :
    cellDistance a b = 1.414 * (Real.sqrt 2 * (gridSize * 111)) ∧
    cellDistance a b = 1.414 * Real.sqrt 2 * cellDistance (1, 0) (0, 0) ∧
    ∀ path : List (ℤ × ℤ),
      calculatePathDistance path =
        if path.length < 2 then 0
        else (path.zip path.tail).foldl (fun t pr => t + cellDistance pr.2 pr.1) 0 := by
  obtain ⟨hx, hy⟩ := h
  have hx2 : ((a.1 - b.1 : ℤ) : ℝ) ^ 2 = 1 := by
    have : (a.1 - b.1) ^ 2 = 1 := by
      rcases abs_eq (by norm_num : (0:ℤ) ≤ 1) |>.mp hx with h1 | h1 <;> rw [h1] <;> ring
    have := congrArg (fun z : ℤ => (z : ℝ)) this
    push_cast at this
    simpa using this
  have hy2 : ((a.2 - b.2 : ℤ) : ℝ) ^ 2 = 1 := by
    have : (a.2 - b.2) ^ 2 = 1 := by
      rcases abs_eq (by norm_num : (0:ℤ) ≤ 1) |>.mp hy with h1 | h1 <;> rw [h1] <;> ring
    have := congrArg (fun z : ℤ => (z : ℝ)) this
    push_cast at this
    simpa using this
  have h10 : Real.sqrt (((1 : ℤ) : ℝ) ^ 2 + ((0 : ℤ) : ℝ) ^ 2) = 1 := by norm_num
  refine ⟨?_, ?_, ?_⟩
  · simp only [cellDistance]
    rw [if_pos ⟨hx, hy⟩, hx2, hy2]
    norm_num
    ring
  · simp only [cellDistance]
    rw [if_pos ⟨hx, hy⟩, hx2, hy2]
    norm_num [h10]
    ring
  · intro path
    rfl

/-- Witness for `C7_diagonal_cost_amended` at the concrete diagonal pair
`(1,1), (0,0)`. -/
theorem C7_diagonal_cost_amended_witness :
    (|(1 : ℤ) - 0| = 1 ∧ |(1 : ℤ) - 0| = 1) ∧
    (cellDistance (1, 1) (0, 0) = 1.414 * (Real.sqrt 2 * (gridSize * 111)) ∧
      cellDistance (1, 1) (0, 0) = 1.414 * Real.sqrt 2 * cellDistance (1, 0) (0, 0) ∧
      ∀ path : List (ℤ × ℤ),
        calculatePathDistance path =
          if path.length < 2 then 0
          else (path.zip path.tail).foldl (fun t pr => t + cellDistance pr.2 pr.1) 0) :=
  ⟨by decide, C7_diagonal_cost_amended (1, 1) (0, 0) (by decide)⟩

/-! ### C6 -/

/-- C6 counterexample: an uncached pair whose straight-line distance (2 km,
the value of the `distanceTo` oracle) is far below the 100 km ceiling is
nevertheless resolved by calling the external OSRM routing service - the grid
pathfinder is not consulted (`calculateRoadDistance` has no grid path at
all; the A* call is commented out behind a TODO). -/
theorem C6_grid_not_used_counterexample :
    (2 : ℚ) ≤ maxDistance ∧
    (calculateRoadDistance (fun _ => none) 300000 1000 (fun _ _ => some (5 / 2))
        (fun _ _ => 2) ⟨0, 0⟩ ⟨1 / 100, 0⟩).1 = Backend.osrm := by
  constructor
  · norm_num [maxDistance]
  · rfl

/-- C6 amended: for an uncached pair `RoadDistanceService.calculateRoadDistance`
always calls the external OSRM routing service, whatever the distance (falling
back to Haversine exactly when that call throws); the claimed
ceiling-and-grid-failure rule exists only inside `AStarAlgorithm.findPath`
(which the service never invokes): there the grid result is used iff the
straight-line distance is within `maxDistance` and the grid search found a
path. -/
theorem C6_fallback_amended (cache : (ℚ × ℚ) × (ℚ × ℚ) → Option CacheEntry)
    (cacheTimeout now : ℕ) (osrm : Pt → Pt → Option ℚ) (haversine : Pt → Pt → ℚ)
    (point1 point2 : Pt)
    (huncached : cache (getCacheKey point1 point2) = none) :
    ((calculateRoadDistance cache cacheTimeout now osrm haversine point1 point2).1 =
        Backend.osrm ↔ (osrm point1 point2).isSome) ∧
    ((calculateRoadDistance cache cacheTimeout now osrm haversine point1 point2).1 =
        Backend.haversine ↔ osrm point1 point2 = none) ∧
    (∀ (d : ℚ) (found : Bool),
      findPathMethod d found = PathMethod.grid ↔ d ≤ maxDistance ∧ found = true) := by
  refine ⟨?_, ?_, ?_⟩
  · simp only [calculateRoadDistance]
    rw [huncached]
    rcases hosrm : osrm point1 point2 with _ | d <;> simp [hosrm]
  · simp only [calculateRoadDistance]
    rw [huncached]
    rcases hosrm : osrm point1 point2 with _ | d <;> simp [hosrm]
  · intro d found
    unfold findPathMethod
    by_cases hd : d > maxDistance
    · rw [if_pos hd]
      constructor
      · intro h; cases h
      · rintro ⟨hle, _⟩; exact absurd hd (not_lt.mpr hle)
    · rw [if_neg hd]
      cases found <;> simp [not_lt.mp hd]

/-- Witness for `C6_fallback_amended` on an empty cache and a concrete pair. -/
theorem C6_fallback_amended_witness :
    ((fun _ => none) ((getCacheKey ⟨0, 0⟩ ⟨1, 1⟩)) = (none : Option CacheEntry)) ∧
    (((calculateRoadDistance (fun _ => none) 300000 0 (fun _ _ => some 3)
          (fun _ _ => 1) ⟨0, 0⟩ ⟨1, 1⟩).1 = Backend.osrm ↔
        ((fun (_ _ : Pt) => some (3 : ℚ)) ⟨0, 0⟩ ⟨1, 1⟩).isSome) ∧
      (((calculateRoadDistance (fun _ => none) 300000 0 (fun _ _ => some 3)
          (fun _ _ => 1) ⟨0, 0⟩ ⟨1, 1⟩).1 = Backend.haversine ↔
        (fun (_ _ : Pt) => some (3 : ℚ)) ⟨0, 0⟩ ⟨1, 1⟩ = none)) ∧
      (∀ (d : ℚ) (found : Bool),
        findPathMethod d found = PathMethod.grid ↔ d ≤ maxDistance ∧ found = true)) :=
  ⟨rfl, C6_fallback_amended (fun _ => none) 300000 0 (fun _ _ => some 3)
    (fun _ _ => 1) ⟨0, 0⟩ ⟨1, 1⟩ rfl⟩

/-! ### C9 -/

theorem coordsLt_asymm (a b : ℚ × ℚ) : coordsLt a b → ¬ coordsLt b a := by
  rintro (h | ⟨he, h⟩) (h' | ⟨he', h'⟩)
  · exact absurd (h.trans h') (lt_irrefl _)
  · exact absurd he' (ne_of_gt h)
  · exact absurd he (ne_of_gt h')
  · exact absurd (h.trans h') (lt_irrefl _)

theorem coordsLt_eq_of_not (a b : ℚ × ℚ) (hab : ¬ coordsLt a b) (hba : ¬ coordsLt b a) :
    a = b := by
  unfold coordsLt at hab hba
  push_neg at hab hba
  have h1 : a.1 = b.1 := le_antisymm hba.1 hab.1
  have h2 : a.2 = b.2 := le_antisymm (hba.2 h1.symm) (hab.2 h1)
  exact Prod.ext h1 h2

theorem getCacheKey_symm (p q : Pt) : getCacheKey p q = getCacheKey q p := by
  unfold getCacheKey
  by_cases h12 : coordsLt (coordsOf p) (coordsOf q)
  · rw [if_pos h12, if_neg (coordsLt_asymm _ _ h12)]
  · by_cases h21 : coordsLt (coordsOf q) (coordsOf p)
    · rw [if_neg h12, if_pos h21]
    · rw [if_neg h12, if_neg h21, coordsLt_eq_of_not _ _ h12 h21]

/-- C9: the cache key is symmetric in its two points (for all points, not just
cached ones), and therefore two `calculateRoadDistance` calls with swapped
arguments read the same cache entry: while that entry is unexpired both calls
resolve from the cache and return its (equal) distance. -/
theorem C9_cache_key_symmetry (cache : (ℚ × ℚ) × (ℚ × ℚ) → Option CacheEntry)
    (cacheTimeout now : ℕ) (osrm : Pt → Pt → Option ℚ) (haversine : Pt → Pt → ℚ)
    (p q : Pt) (e : CacheEntry)
    (hhit : cache (getCacheKey p q) = some e)
    (hfresh : now - e.timestamp < cacheTimeout) :
    (∀ p' q' : Pt, getCacheKey p' q' = getCacheKey q' p') ∧
    (calculateRoadDistance cache cacheTimeout now osrm haversine p q).1 = Backend.cache ∧
    (calculateRoadDistance cache cacheTimeout now osrm haversine q p).1 = Backend.cache ∧
    (calculateRoadDistance cache cacheTimeout now osrm haversine p q).2.1 = e.distance ∧
    (calculateRoadDistance cache cacheTimeout now osrm haversine q p).2.1 = e.distance := by
  have hkey : getCacheKey q p = getCacheKey p q := getCacheKey_symm q p
  have hhit' : cache (getCacheKey q p) = some e := by rw [hkey]; exact hhit
  refine ⟨getCacheKey_symm, ?_, ?_, ?_, ?_⟩
  · simp only [calculateRoadDistance]
    rw [hhit]
    dsimp only
    rw [if_pos hfresh]
  · simp only [calculateRoadDistance]
    rw [hhit']
    dsimp only
    rw [if_pos hfresh]
  · simp only [calculateRoadDistance]
    rw [hhit]
    dsimp only
    rw [if_pos hfresh]
  · simp only [calculateRoadDistance]
    rw [hhit']
    dsimp only
    rw [if_pos hfresh]

/-- Witness for `C9_cache_key_symmetry` on a one-entry cache. -/
theorem C9_cache_key_symmetry_witness :
    ((fun k => if k = getCacheKey ⟨1, 2⟩ ⟨3, 4⟩ then some (⟨7, 0⟩ : CacheEntry) else none)
        (getCacheKey ⟨1, 2⟩ ⟨3, 4⟩) = some (⟨7, 0⟩ : CacheEntry)) ∧
    (0 - (0 : ℕ) < 300000) ∧
    ((∀ p' q' : Pt, getCacheKey p' q' = getCacheKey q' p') ∧
      (calculateRoadDistance
          (fun k => if k = getCacheKey ⟨1, 2⟩ ⟨3, 4⟩ then some ⟨7, 0⟩ else none)
          300000 0 (fun _ _ => none) (fun _ _ => 0) ⟨1, 2⟩ ⟨3, 4⟩).1 = Backend.cache ∧
      (calculateRoadDistance
          (fun k => if k = getCacheKey ⟨1, 2⟩ ⟨3, 4⟩ then some ⟨7, 0⟩ else none)
          300000 0 (fun _ _ => none) (fun _ _ => 0) ⟨3, 4⟩ ⟨1, 2⟩).1 = Backend.cache ∧
      (calculateRoadDistance
          (fun k => if k = getCacheKey ⟨1, 2⟩ ⟨3, 4⟩ then some ⟨7, 0⟩ else none)
          300000 0 (fun _ _ => none) (fun _ _ => 0) ⟨1, 2⟩ ⟨3, 4⟩).2.1 = (7 : ℚ) ∧
      (calculateRoadDistance
          (fun k => if k = getCacheKey ⟨1, 2⟩ ⟨3, 4⟩ then some ⟨7, 0⟩ else none)
          300000 0 (fun _ _ => none) (fun _ _ => 0) ⟨3, 4⟩ ⟨1, 2⟩).2.1 = (7 : ℚ)) :=
  ⟨by simp, by decide,
    C9_cache_key_symmetry
      (fun k => if k = getCacheKey ⟨1, 2⟩ ⟨3, 4⟩ then some ⟨7, 0⟩ else none)
      300000 0 (fun _ _ => none) (fun _ _ => 0) ⟨1, 2⟩ ⟨3, 4⟩ ⟨7, 0⟩ (by simp)
      (by decide)⟩

/-! ### C4 -/

/-- C4 counterexample: on the sample graph, `findShortestPath("A", "E")` does
not return `([A, B, D, E], 11)`: the route A-C(2), C-B(1), B-D(5), D-E(2) has
total weight 10 < 11, and the algorithm finds it. -/
theorem C4_sample_route_counterexample :
    findShortestPath createSampleGraph "A" "E" ≠ (["A", "B", "D", "E"], 11) := by
  decide

/-- C4 amended: on the sample graph, `findShortestPath("A", "E")` returns the
path `[A, C, B, D, E]` with distance `10` (2 + 1 + 5 + 2). -/
theorem C4_sample_route :
    findShortestPath createSampleGraph "A" "E" = (["A", "C", "B", "D", "E"], 10) := by
  decide

/-! ### Binary heap: permutation and length lemmas -/

theorem heapSwap_length (heap : List HeapNode) (i j : ℕ) :
    (heapSwap heap i j).length = heap.length := by
  simp [heapSwap]

theorem cons_set_perm {α : Type} : ∀ (t : List α) (k : ℕ) (x : α) (hk : k < t.length),
    (t.get ⟨k, hk⟩ :: t.set k x).Perm (x :: t) := by
  intro t
  induction t with
  | nil => intro k x hk; cases hk
  | cons y t' ih =>
    intro k x hk
    cases k with
    | zero => simpa using List.Perm.swap x y t'
    | succ m =>
      have hm : m < t'.length := by simpa using hk
      have h1 : ((y :: t').set (m + 1) x) = y :: t'.set m x := rfl
      have h2 : (y :: t').get ⟨m + 1, hk⟩ = t'.get ⟨m, hm⟩ := rfl
      rw [h1, h2]
      exact (List.Perm.swap y (t'.get ⟨m, hm⟩) (t'.set m x)).trans
        (((ih m x hm).cons y).trans (List.Perm.swap x y t'))

theorem set_set_perm {α : Type} : ∀ (l : List α) (i j : ℕ) (hi : i < l.length)
    (hj : j < l.length), ((l.set i (l.get ⟨j, hj⟩)).set j (l.get ⟨i, hi⟩)).Perm l := by
  intro l
  induction l with
  | nil => intro i j hi _; cases hi
  | cons x t ih =>
    intro i j hi hj
    cases i with
    | zero =>
      cases j with
      | zero => simpa using List.Perm.refl (x :: t)
      | succ m =>
        have hm : m < t.length := by simpa using hj
        simpa using cons_set_perm t m x hm
    | succ k =>
      have hk : k < t.length := by simpa using hi
      cases j with
      | zero => simpa using cons_set_perm t k x hk
      | succ m =>
        have hm : m < t.length := by simpa using hj
        simpa using ((ih k m hk hm).cons x)

theorem heapSwap_perm (heap : List HeapNode) (i j : ℕ) (hi : i < heap.length)
    (hj : j < heap.length) : (heapSwap heap i j).Perm heap := by
  unfold heapSwap
  rw [List.getD_eq_getElem heap default hi, List.getD_eq_getElem heap default hj]
  have h1 : heap[j] = heap.get ⟨j, hj⟩ := rfl
  have h2 : heap[i] = heap.get ⟨i, hi⟩ := rfl
  rw [h1, h2]
  exact set_set_perm heap i j hi hj

theorem bubbleUpFuel_perm : ∀ (fuel : ℕ) (heap : List HeapNode) (index : ℕ),
    index < heap.length → (bubbleUpFuel fuel heap index).Perm heap := by
  intro fuel
  induction fuel with
  | zero => intro heap index _; exact List.Perm.refl _
  | succ f ih =>
    intro heap index hidx
    simp only [bubbleUpFuel]
    by_cases h0 : index = 0
    · rw [if_pos h0]
    · rw [if_neg h0]
      have hplt : (index - 1) / 2 < index :=
        Nat.lt_of_le_of_lt (Nat.div_le_self _ _) (Nat.sub_lt (Nat.pos_of_ne_zero h0) one_pos)
      by_cases hcmp : (heap.getD index default).2 < (heap.getD ((index - 1) / 2) default).2
      · rw [if_pos hcmp]
        have hp2 : (index - 1) / 2 < (heapSwap heap index ((index - 1) / 2)).length := by
          rw [heapSwap_length]; exact hplt.trans hidx
        exact (ih _ _ hp2).trans (heapSwap_perm heap index _ hidx (hplt.trans hidx))
      · rw [if_neg hcmp]

theorem bubbleUp_perm (heap : List HeapNode) (index : ℕ) (hidx : index < heap.length) :
    (bubbleUp heap index).Perm heap :=
  bubbleUpFuel_perm index heap index hidx

theorem bubbleDownFuel_perm : ∀ (fuel : ℕ) (heap : List HeapNode) (index : ℕ),
    index < heap.length → (bubbleDownFuel fuel heap index).Perm heap := by
  intro fuel
  induction fuel with
  | zero => intro heap index _; exact List.Perm.refl _
  | succ f ih =>
    intro heap index hidx
    simp only [bubbleDownFuel]
    have hch : ∀ sm : ℕ, sm < heap.length →
        (bubbleDownFuel f (heapSwap heap index sm) sm).Perm heap := fun sm hsm =>
      (ih (heapSwap heap index sm) sm (by rw [heapSwap_length]; exact hsm)).trans
        (heapSwap_perm heap index sm hidx hsm)
    split_ifs with h1 h2 h3 h4 h5 h6 <;>
      first
        | exact List.Perm.refl _
        | (apply hch; omega)

theorem bubbleDown_perm (heap : List HeapNode) (index : ℕ) (hidx : index < heap.length) :
    (bubbleDown heap index).Perm heap :=
  bubbleDownFuel_perm heap.length heap index hidx

theorem enqueue_perm (heap : List HeapNode) (element : String) (priority : WithTop ℤ) :
    (enqueue heap element priority).Perm ((element, priority) :: heap) := by
  unfold enqueue bubbleUp
  have h : heap.length < (heap ++ [(element, priority)]).length := by simp
  exact (bubbleUpFuel_perm heap.length (heap ++ [(element, priority)]) heap.length h).trans
    (List.perm_append_singleton _ _)

theorem dequeue_spec (heap : List HeapNode) (h : heap ≠ []) :
    ∃ pq', dequeue heap = (some (heap.getD 0 default).1, pq') ∧ pq'.Perm heap.tail := by
  match heap, h with
  | first :: rest, _ =>
    cases rest with
    | nil =>
      refine ⟨[], rfl, List.Perm.refl _⟩
    | cons second rest' =>
      have hne : (second :: rest') ≠ [] := List.cons_ne_nil _ _
      have hlast : (first :: second :: rest').getLastD default =
          (second :: rest').getLast hne := by
        rw [List.getLastD_eq_getLast?, List.getLast?_eq_getLast _ (List.cons_ne_nil _ _)]
        simp [List.getLast_cons hne]
      have hdrop : (first :: second :: rest').dropLast =
          first :: (second :: rest').dropLast := List.dropLast_cons₂
      refine ⟨_, rfl, ?_⟩
      show (bubbleDown (((first :: second :: rest').dropLast).set 0
          ((first :: second :: rest').getLastD default)) 0).Perm (second :: rest')
      rw [hdrop, hlast]
      have hset : ((first :: (second :: rest').dropLast).set 0
          ((second :: rest').getLast hne)) =
          (second :: rest').getLast hne :: (second :: rest').dropLast := rfl
      rw [hset]
      have hlen : 0 < ((second :: rest').getLast hne :: (second :: rest').dropLast).length := by
        simp
      refine (bubbleDown_perm _ 0 hlen).trans ?_
      have hperm := (List.perm_append_singleton ((second :: rest').getLast hne)
        ((second :: rest').dropLast)).symm
      rw [List.dropLast_append_getLast hne] at hperm
      exact hperm

/-! ### Binary heap: the min-heap invariant -/

theorem getD_set_self (l : List HeapNode) (n : ℕ) (a : HeapNode) (h : n < l.length) :
    (l.set n a).getD n default = a := by
  have h' : n < (l.set n a).length := by simpa using h
  rw [List.getD_eq_getElem _ _ h', List.getElem_set, if_pos rfl]

theorem getD_set_ne (l : List HeapNode) (n m : ℕ) (a : HeapNode) (h : m ≠ n) :
    (l.set n a).getD m default = l.getD m default := by
  by_cases hm : m < l.length
  · have h' : m < (l.set n a).length := by simpa using hm
    rw [List.getD_eq_getElem _ _ h', List.getElem_set, if_neg (Ne.symm h),
      List.getD_eq_getElem _ _ hm]
  · rw [List.getD_eq_default _ _ (by simpa using not_lt.mp hm),
      List.getD_eq_default _ _ (not_lt.mp hm)]

theorem prioAt_heapSwap_fst (h : List HeapNode) (i j : ℕ) (hi : i < h.length)
    (hj : j < h.length) : prioAt (heapSwap h i j) i = prioAt h j := by
  unfold prioAt heapSwap
  dsimp only
  by_cases hij : i = j
  · subst hij
    rw [getD_set_self _ _ _ (by simpa using hi)]
  · rw [getD_set_ne _ _ _ _ hij, getD_set_self _ _ _ hi]

theorem prioAt_heapSwap_snd (h : List HeapNode) (i j : ℕ) (hi : i < h.length)
    (hj : j < h.length) : prioAt (heapSwap h i j) j = prioAt h i := by
  unfold prioAt heapSwap
  dsimp only
  rw [getD_set_self _ _ _ (by simpa using hj)]

theorem prioAt_heapSwap_other (h : List HeapNode) (i j k : ℕ) (hki : k ≠ i) (hkj : k ≠ j) :
    prioAt (heapSwap h i j) k = prioAt h k := by
  unfold prioAt heapSwap
  dsimp only
  rw [getD_set_ne _ _ _ _ hkj, getD_set_ne _ _ _ _ hki]

theorem prioAt_append_lt (h : List HeapNode) (nd : HeapNode) (k : ℕ) (hk : k < h.length) :
    prioAt (h ++ [nd]) k = prioAt h k := by
  unfold prioAt
  rw [List.getD_append _ _ _ _ hk]

theorem bubbleUpFuel_heapInv : ∀ (fuel : ℕ) (heap : List HeapNode) (i : ℕ),
    i ≤ fuel → i < heap.length → UpInvExcept heap i →
    HeapInv (bubbleUpFuel fuel heap i) := by
  intro fuel
  induction fuel with
  | zero =>
    intro heap i hif _ hinv
    have h0 : i = 0 := Nat.le_zero.mp hif
    subst h0
    intro j hj0 hjlen
    exact hinv.1 j hj0 hjlen (by omega)
  | succ f ih =>
    intro heap i hif hlen hinv
    simp only [bubbleUpFuel]
    by_cases h0 : i = 0
    · rw [if_pos h0]
      subst h0
      intro j hj0 hjlen
      exact hinv.1 j hj0 hjlen (by omega)
    · rw [if_neg h0]
      have hplt : (i - 1) / 2 < i := by omega
      have hplen : (i - 1) / 2 < heap.length := hplt.trans hlen
      by_cases hcmp : (heap.getD i default).2 < (heap.getD ((i - 1) / 2) default).2
      · rw [if_pos hcmp]
        have hcmp' : prioAt heap i < prioAt heap ((i - 1) / 2) := hcmp
        have hswlen : (i - 1) / 2 < (heapSwap heap i ((i - 1) / 2)).length := by
          rw [heapSwap_length]; exact hplen
        apply ih _ _ (by omega) hswlen
        constructor
        · intro j hj0 hjlen hjp
          rw [heapSwap_length] at hjlen
          by_cases hji : j = i
          · subst hji
            rw [prioAt_heapSwap_snd _ _ _ hlen hplen, prioAt_heapSwap_fst _ _ _ hlen hplen]
            exact le_of_lt hcmp'
          · by_cases hpji : (j - 1) / 2 = i
            · rw [hpji, prioAt_heapSwap_fst _ _ _ hlen hplen,
                prioAt_heapSwap_other _ _ _ _ hji hjp]
              exact hinv.2 (by omega) j hjlen hpji
            · by_cases hpjp : (j - 1) / 2 = (i - 1) / 2
              · rw [hpjp, prioAt_heapSwap_snd _ _ _ hlen hplen,
                  prioAt_heapSwap_other _ _ _ _ hji hjp]
                exact le_of_lt (lt_of_lt_of_le hcmp' (hpjp ▸ hinv.1 j hj0 hjlen hji))
              · rw [prioAt_heapSwap_other _ _ _ _ hpji hpjp,
                  prioAt_heapSwap_other _ _ _ _ hji hjp]
                exact hinv.1 j hj0 hjlen hji
        · intro hppos c hclen hcp
          rw [heapSwap_length] at hclen
          have hgpi : ((i - 1) / 2 - 1) / 2 ≠ i := by omega
          have hgpp : ((i - 1) / 2 - 1) / 2 ≠ (i - 1) / 2 := by omega
          rw [prioAt_heapSwap_other _ _ _ _ hgpi hgpp]
          by_cases hci : c = i
          · subst hci
            rw [prioAt_heapSwap_fst _ _ _ hlen hplen]
            exact hinv.1 ((c - 1) / 2) (by omega) (hcp ▸ hplen) (by omega)
          · have hcpne : c ≠ (i - 1) / 2 := by omega
            rw [prioAt_heapSwap_other _ _ _ _ hci hcpne]
            have h1 : prioAt heap (((i - 1) / 2 - 1) / 2) ≤ prioAt heap ((i - 1) / 2) :=
              hinv.1 ((i - 1) / 2) (by omega) hplen (by omega)
            have h2 : prioAt heap ((i - 1) / 2) ≤ prioAt heap c := by
              have := hinv.1 c (by omega) hclen hci
              rwa [hcp] at this
            exact h1.trans h2
      · rw [if_neg hcmp]
        intro j hj0 hjlen
        by_cases hji : j = i
        · subst hji
          exact not_lt.mp hcmp
        · exact hinv.1 j hj0 hjlen hji

theorem enqueue_heapInv (heap : List HeapNode) (x : String) (pr : WithTop ℤ)
    (hinv : HeapInv heap) : HeapInv (enqueue heap x pr) := by
  unfold enqueue bubbleUp
  apply bubbleUpFuel_heapInv heap.length _ heap.length le_rfl (by simp)
  constructor
  · intro j hj0 hjlen hji
    rw [List.length_append, List.length_singleton] at hjlen
    have hj : j < heap.length := by omega
    rw [prioAt_append_lt _ _ _ hj, prioAt_append_lt _ _ _ (by omega)]
    exact hinv j hj0 hj
  · intro hpos c hclen hcp
    rw [List.length_append, List.length_singleton] at hclen
    omega

theorem downSwap_except (heap : List HeapNode) (i s : ℕ) (hleni : i < heap.length)
    (hs : s < heap.length) (hchild : (s - 1) / 2 = i)
    (hlt : prioAt heap s < prioAt heap i)
    (hother : ∀ c, c < heap.length → (c - 1) / 2 = i → prioAt heap s ≤ prioAt heap c)
    (hinv : DownInvExcept heap i) : DownInvExcept (heapSwap heap i s) s := by
  have hne : s ≠ i := fun e => absurd (e ▸ hlt) (lt_irrefl _)
  have hsi : i < s := by omega
  constructor
  · intro j hj0 hjlen hjp
    rw [heapSwap_length] at hjlen
    by_cases hjs : j = s
    · subst hjs
      rw [hchild, prioAt_heapSwap_fst _ _ _ hleni hs, prioAt_heapSwap_snd _ _ _ hleni hs]
      exact le_of_lt hlt
    · by_cases hji : j = i
      · subst hji
        have hi0 : 0 < j := hj0
        have hgps : (j - 1) / 2 ≠ s := by omega
        have hgpi : (j - 1) / 2 ≠ j := by omega
        rw [prioAt_heapSwap_other _ _ _ _ hgpi hgps, prioAt_heapSwap_fst _ _ _ hleni hs]
        exact hinv.2 hi0 s hs hchild
      · by_cases hpji : (j - 1) / 2 = i
        · rw [hpji, prioAt_heapSwap_fst _ _ _ hleni hs,
            prioAt_heapSwap_other _ _ _ _ hji hjs]
          exact hother j hjlen hpji
        · rw [prioAt_heapSwap_other _ _ _ _ hpji hjp,
            prioAt_heapSwap_other _ _ _ _ hji hjs]
          exact hinv.1 j hj0 hjlen hpji
  · intro hs0 c hclen hcp
    rw [heapSwap_length] at hclen
    have hcs : c ≠ s := by omega
    have hci : c ≠ i := by omega
    rw [hchild, prioAt_heapSwap_fst _ _ _ hleni hs,
      prioAt_heapSwap_other _ _ _ _ hci hcs]
    have := hinv.1 c (by omega) hclen (by omega)
    rwa [hcp] at this

theorem bubbleDownFuel_heapInv : ∀ (fuel : ℕ) (heap : List HeapNode) (i : ℕ),
    heap.length ≤ fuel + i → DownInvExcept heap i →
    HeapInv (bubbleDownFuel fuel heap i) := by
  intro fuel
  induction fuel with
  | zero =>
    intro heap i hif hinv
    show HeapInv heap
    intro j hj0 hjlen
    exact hinv.1 j hj0 hjlen (by omega)
  | succ f ih =>
    intro heap i hif hinv
    simp only [bubbleDownFuel]
    by_cases hg1 : 2 * i + 1 < heap.length ∧
        (heap.getD (2 * i + 1) default).2 < (heap.getD i default).2
    · rw [if_pos hg1]
      by_cases hg2 : 2 * i + 2 < heap.length ∧
          (heap.getD (2 * i + 2) default).2 < (heap.getD (2 * i + 1) default).2
      · rw [if_pos hg2, if_pos (by omega : 2 * i + 2 ≠ i)]
        refine ih (heapSwap heap i (2 * i + 2)) (2 * i + 2) ?_ ?_
        · rw [heapSwap_length]; omega
        refine downSwap_except heap i (2 * i + 2) (by omega) hg2.1 (by omega)
          (lt_trans hg2.2 hg1.2) ?_ hinv
        intro c hclen hcp
        have hcc : c = i ∨ c = 2 * i + 1 ∨ c = 2 * i + 2 := by omega
        rcases hcc with h | h | h
        · subst h; exact le_of_lt (lt_trans hg2.2 hg1.2)
        · subst h; exact le_of_lt hg2.2
        · subst h; exact le_rfl
      · rw [if_neg hg2, if_pos (by omega : 2 * i + 1 ≠ i)]
        refine ih (heapSwap heap i (2 * i + 1)) (2 * i + 1) ?_ ?_
        · rw [heapSwap_length]; omega
        refine downSwap_except heap i (2 * i + 1) (by omega) hg1.1 (by omega) hg1.2 ?_ hinv
        intro c hclen hcp
        have hcc : c = i ∨ c = 2 * i + 1 ∨ c = 2 * i + 2 := by omega
        rcases hcc with h | h | h
        · subst h; exact le_of_lt hg1.2
        · subst h; exact le_rfl
        · subst h
          exact not_lt.mp (fun hcon => hg2 ⟨by omega, hcon⟩)
    · rw [if_neg hg1]
      by_cases hg2 : 2 * i + 2 < heap.length ∧
          (heap.getD (2 * i + 2) default).2 < (heap.getD i default).2
      · rw [if_pos hg2, if_pos (by omega : 2 * i + 2 ≠ i)]
        refine ih (heapSwap heap i (2 * i + 2)) (2 * i + 2) ?_ ?_
        · rw [heapSwap_length]; omega
        refine downSwap_except heap i (2 * i + 2) (by omega) hg2.1 (by omega) hg2.2 ?_ hinv
        intro c hclen hcp
        have hcc : c = i ∨ c = 2 * i + 1 ∨ c = 2 * i + 2 := by omega
        rcases hcc with h | h | h
        · subst h; exact le_of_lt hg2.2
        · subst h
          exact le_of_lt (lt_of_lt_of_le hg2.2 (not_lt.mp (fun hcon => hg1 ⟨by omega, hcon⟩)))
        · subst h; exact le_rfl
      · rw [if_neg hg2, if_neg (by omega : ¬ (i ≠ i))]
        intro j hj0 hjlen
        by_cases hpj : (j - 1) / 2 = i
        · have : j = 2 * i + 1 ∨ j = 2 * i + 2 := by omega
          rcases this with h | h
          · subst h
            rw [hpj]
            exact not_lt.mp (fun hcon => hg1 ⟨hjlen, hcon⟩)
          · subst h
            rw [hpj]
            exact not_lt.mp (fun hcon => hg2 ⟨hjlen, hcon⟩)
        · exact hinv.1 j hj0 hjlen hpj

theorem dequeue_heapInv (heap : List HeapNode) (hinv : HeapInv heap) :
    HeapInv (dequeue heap).2 := by
  match heap with
  | [] => intro j hj0 hjlen; simp [dequeue] at hjlen
  | [first] => intro j hj0 hjlen; simp [dequeue] at hjlen
  | first :: second :: rest' =>
    show HeapInv (dequeue (first :: second :: rest')).2
    have hres : (dequeue (first :: second :: rest')).2 =
        bubbleDown (((first :: second :: rest').dropLast).set 0
          ((first :: second :: rest').getLastD default)) 0 := by
      simp [dequeue]
    rw [hres]
    unfold bubbleDown
    apply bubbleDownFuel_heapInv _ _ 0 (by omega)
    constructor
    · intro j hj0 hjlen hpj
      rw [List.length_set, List.length_dropLast] at hjlen
      have hj' : j < (first :: second :: rest').length - 1 := hjlen
      have hval : ∀ k, k ≠ 0 → k < (first :: second :: rest').length - 1 →
          prioAt (((first :: second :: rest').dropLast).set 0
            ((first :: second :: rest').getLastD default)) k =
          prioAt (first :: second :: rest') k := by
        intro k hk0 hk
        unfold prioAt
        rw [getD_set_ne _ _ _ _ hk0]
        have hkd : k < (first :: second :: rest').dropLast.length := by
          rw [List.length_dropLast]; exact hk
        rw [List.getD_eq_getElem _ _ hkd, List.getElem_dropLast,
          List.getD_eq_getElem _ _ (by omega)]
      have hlen3 : (first :: second :: rest').length = rest'.length + 2 := by simp
      rw [hval j (by omega) hj', hval ((j - 1) / 2) hpj (by omega)]
      exact hinv j hj0 (by omega)
    · intro h0; omega

theorem heapInv_le (heap : List HeapNode) (hinv : HeapInv heap) :
    ∀ j, j < heap.length → prioAt heap 0 ≤ prioAt heap j := by
  intro j
  induction j using Nat.strong_induction_on with
  | _ j ih =>
    intro hj
    rcases Nat.eq_zero_or_pos j with h0 | h0
    · subst h0; exact le_rfl
    · exact (ih ((j - 1) / 2) (by omega) (by omega)).trans (hinv j h0 hj)

theorem heapInv_root_min (heap : List HeapNode) (hinv : HeapInv heap) (nd : HeapNode)
    (hmem : nd ∈ heap) : prioAt heap 0 ≤ nd.2 := by
  obtain ⟨k, hk, hnd⟩ := List.mem_iff_getElem.mp hmem
  have := heapInv_le heap hinv k hk
  rw [show prioAt heap k = (heap[k]).2 from by
    unfold prioAt; rw [List.getD_eq_getElem _ _ hk]] at this
  rw [← hnd]
  exact this


/-! ### Walks: basic graph-level facts -/

theorem hasVertex_iff (g : Graph) (v : String) : hasVertex g v = true ↔ v ∈ g.vertices := by
  unfold hasVertex
  exact List.elem_iff

theorem hasEdge_exists (g : Graph) (a b : String) (h : hasEdge g a b = true) :
    ∃ e ∈ adjOf g a, e.vertex = b := by
  unfold hasEdge at h
  simp only [Bool.and_eq_true, List.any_eq_true, beq_iff_eq] at h
  exact h.2

theorem hasEdge_hasVertex_left (g : Graph) (a b : String) (h : hasEdge g a b = true) :
    hasVertex g a = true := by
  unfold hasEdge at h
  simp only [Bool.and_eq_true] at h
  exact h.1.1

theorem hasEdge_hasVertex_right (g : Graph) (a b : String) (h : hasEdge g a b = true) :
    hasVertex g b = true := by
  unfold hasEdge at h
  simp only [Bool.and_eq_true] at h
  exact h.1.2

theorem hasEdge_of_exists (g : Graph) (a b : String) (hva : hasVertex g a = true)
    (hvb : hasVertex g b = true) (e : Edge) (he : e ∈ adjOf g a) (hb : e.vertex = b) :
    hasEdge g a b = true := by
  unfold hasEdge
  simp only [Bool.and_eq_true, List.any_eq_true, beq_iff_eq]
  exact ⟨⟨hva, hvb⟩, e, he, hb⟩

theorem getEdgeWeight_nonneg (g : Graph) (a b : String) (h : hasEdge g a b = true) :
    0 ≤ getEdgeWeight g a b := by
  unfold getEdgeWeight
  rw [if_pos h]
  obtain ⟨e, he, hb⟩ := hasEdge_exists g a b h
  rcases hf : (adjOf g a).find? (fun e => e.vertex == b) with _ | e'
  · exfalso
    have := List.find?_eq_none.mp hf e he
    simp [hb] at this
  · rw [hf]
    exact Int.natCast_nonneg _

theorem mem_getNeighbors_iff (g : Graph) (a b : String) :
    b ∈ getNeighbors g a ↔ hasVertex g a = true ∧ ∃ e ∈ adjOf g a, e.vertex = b := by
  unfold getNeighbors
  by_cases hv : hasVertex g a = true
  · rw [if_pos hv]
    simp [List.mem_map, hv]
  · rw [if_neg hv]
    simp [hv]

theorem hasEdge_of_mem_getNeighbors (g : Graph) (hWF : WFg g) (a b : String)
    (h : b ∈ getNeighbors g a) : hasEdge g a b = true := by
  obtain ⟨hva, e, he, hb⟩ := (mem_getNeighbors_iff g a b).mp h
  have hvb : hasVertex g b = true := (hasVertex_iff g b).mpr (hb ▸ hWF a e he)
  exact hasEdge_of_exists g a b hva hvb e he hb

/-! ### Walks: weight arithmetic -/

theorem walkWeight_single (g : Graph) (x : String) : walkWeight g [x] = 0 := rfl

theorem walkWeight_cons_cons (g : Graph) (x y : String) (t : List String) :
    walkWeight g (x :: y :: t) = getEdgeWeight g x y + walkWeight g (y :: t) := by
  unfold walkWeight
  simp [List.zip_cons_cons]

theorem walkWeight_nonneg (g : Graph) :
    ∀ p : List String, List.Chain' (fun a b => hasEdge g a b = true) p →
      0 ≤ walkWeight g p := by
  intro p
  induction p with
  | nil => intro _; simp [walkWeight]
  | cons x t ih =>
    cases t with
    | nil => intro _; simp [walkWeight]
    | cons y t' =>
      intro h
      rw [walkWeight_cons_cons]
      rcases List.chain'_cons.mp h with ⟨hxy, ht⟩
      exact add_nonneg (getEdgeWeight_nonneg g x y hxy) (ih ht)

theorem walkWeight_split (g : Graph) :
    ∀ (l : List String) (a : String) (r : List String),
      walkWeight g (l ++ a :: r) = walkWeight g (l ++ [a]) + walkWeight g (a :: r) := by
  intro l
  induction l with
  | nil =>
    intro a r
    show walkWeight g (a :: r) = walkWeight g [a] + walkWeight g (a :: r)
    rw [walkWeight_single]
    ring
  | cons x l' ih =>
    intro a r
    cases l' with
    | nil =>
      show walkWeight g (x :: a :: r) = walkWeight g (x :: [a]) + walkWeight g (a :: r)
      rw [walkWeight_cons_cons, walkWeight_cons_cons g x a [], walkWeight_single]
      ring
    | cons y l'' =>
      show walkWeight g (x :: y :: (l'' ++ a :: r)) =
        walkWeight g (x :: y :: (l'' ++ [a])) + walkWeight g (a :: r)
      have ih' := ih a r
      simp only [List.cons_append] at ih'
      rw [walkWeight_cons_cons, ih', walkWeight_cons_cons g x y (l'' ++ [a])]
      ring

theorem walkWeight_concat (g : Graph) :
    ∀ (p : List String) (u v : String), p.getLast? = some u →
      walkWeight g (p ++ [v]) = walkWeight g p + getEdgeWeight g u v := by
  intro p
  induction p with
  | nil => intro u v h; cases h
  | cons x t ih =>
    intro u v h
    cases t with
    | nil =>
      have hx : x = u := by simpa using h
      subst hx
      show walkWeight g (x :: [v]) = walkWeight g [x] + getEdgeWeight g x v
      rw [walkWeight_cons_cons, walkWeight_single, walkWeight_single]
      ring
    | cons y t' =>
      rw [List.getLast?_cons_cons] at h
      show walkWeight g (x :: y :: (t' ++ [v])) = walkWeight g (x :: y :: t') + _
      have ih' := ih u v h
      simp only [List.cons_append] at ih'
      rw [walkWeight_cons_cons, ih', walkWeight_cons_cons g x y t']
      ring

/-! ### Walks: construction and decomposition -/

theorem walkFrom_single (g : Graph) (s : String) : WalkFrom g s s [s] :=
  ⟨⟨List.cons_ne_nil _ _, List.chain'_singleton s⟩, rfl, rfl⟩

theorem walkFrom_cons (g : Graph) (s b u : String) (p : List String)
    (hedge : hasEdge g s b = true) (hw : WalkFrom g b u p) :
    WalkFrom g s u (s :: p) ∧
      walkWeight g (s :: p) = getEdgeWeight g s b + walkWeight g p := by
  obtain ⟨⟨hne, hchain⟩, hhead, hlast⟩ := hw
  match p, hne with
  | c :: t, _ =>
    have hc : c = b := by simpa using hhead
    subst hc
    refine ⟨⟨⟨List.cons_ne_nil _ _, List.chain'_cons.mpr ⟨hedge, hchain⟩⟩, rfl, ?_⟩, ?_⟩
    · rw [List.getLast?_cons_cons]
      exact hlast
    · rw [walkWeight_cons_cons]

theorem walkFrom_concat (g : Graph) (s u v : String) (p : List String)
    (hw : WalkFrom g s u p) (hedge : hasEdge g u v = true) :
    WalkFrom g s v (p ++ [v]) ∧
      walkWeight g (p ++ [v]) = walkWeight g p + getEdgeWeight g u v := by
  obtain ⟨⟨hne, hchain⟩, hhead, hlast⟩ := hw
  refine ⟨⟨⟨by simp, ?_⟩, ?_, ?_⟩, walkWeight_concat g p u v hlast⟩
  · refine List.chain'_append.mpr ⟨hchain, List.chain'_singleton v, ?_⟩
    intro x hx y hy
    simp only [List.head?_cons, Option.mem_some_iff] at hy
    rw [hlast] at hx
    simp only [Option.mem_some_iff] at hx
    subst hx; subst hy
    exact hedge
  · rw [List.head?_append, hhead]
    rfl
  · rw [List.getLast?_append]
    rfl

theorem walk_cut (g : Graph) (S : List String) :
    ∀ (p : List String) (s u : String), WalkFrom g s u p → u ∉ S → s ∈ S →
      ∃ x y pre, x ∈ S ∧ y ∉ S ∧ hasEdge g x y = true ∧ WalkFrom g s x pre ∧
        walkWeight g pre + getEdgeWeight g x y ≤ walkWeight g p := by
  intro p
  induction p with
  | nil => intro s u hw _ _; exact (hw.1.1 rfl).elim
  | cons a t ih =>
    intro s u hw hu hs
    obtain ⟨⟨hne, hchain⟩, hhead, hlast⟩ := hw
    have has : a = s := by simpa using hhead
    subst has
    cases t with
    | nil =>
      have hau : a = u := by simpa using hlast
      exact absurd hs (hau ▸ hu)
    | cons b t' =>
      rcases List.chain'_cons.mp hchain with ⟨hab, hbt⟩
      have hwb : WalkFrom g b u (b :: t') := ⟨⟨List.cons_ne_nil _ _, hbt⟩, rfl,
        by rw [List.getLast?_cons_cons] at hlast; exact hlast⟩
      by_cases hbS : b ∈ S
      · obtain ⟨x, y, pre, hx, hy, he, hwpre, hle⟩ := ih b u hwb hu hbS
        obtain ⟨hwpre', hweq⟩ := walkFrom_cons g a b x pre hab hwpre
        refine ⟨x, y, a :: pre, hx, hy, he, hwpre', ?_⟩
        rw [hweq, walkWeight_cons_cons]
        have h0 : 0 ≤ getEdgeWeight g a b := getEdgeWeight_nonneg g a b hab
        omega
      · refine ⟨a, b, [a], hs, hbS, hab, walkFrom_single g a, ?_⟩
        rw [walkWeight_single, walkWeight_cons_cons]
        have h0 : 0 ≤ walkWeight g (b :: t') := walkWeight_nonneg g _ hbt
        omega

theorem getLast?_append_cons {α : Type} (l : List α) (x : α) (r : List α) :
    (l ++ x :: r).getLast? = (x :: r).getLast? := by
  rw [List.getLast?_append]
  rcases h : (x :: r).getLast? with _ | y
  · simp at h
  · rfl

theorem pair_sublist_decomp {α : Type} (a : α) :
    ∀ p : List α, [a, a].Sublist p → ∃ l1 l2 l3, p = l1 ++ a :: (l2 ++ a :: l3) := by
  intro p
  induction p with
  | nil => intro h; simp at h
  | cons x t ih =>
    intro h
    cases h with
    | cons b h' =>
      obtain ⟨l1, l2, l3, heq⟩ := ih h'
      exact ⟨x :: l1, l2, l3, by simp [heq]⟩
    | cons₂ b h' =>
      obtain ⟨s', t', heq⟩ := List.append_of_mem (List.singleton_sublist.mp h')
      exact ⟨[], s', t', by simp [heq]⟩

theorem walk_to_simple (g : Graph) :
    ∀ (n : ℕ) (p : List String) (s v : String), p.length ≤ n → WalkFrom g s v p →
      ∃ q, SimplePathFrom g s v q ∧ walkWeight g q ≤ walkWeight g p := by
  intro n
  induction n with
  | zero =>
    intro p s v hlen hw
    have hp : p = [] := List.length_eq_zero.mp (Nat.le_zero.mp hlen)
    exact absurd hp hw.1.1
  | succ n ih =>
    intro p s v hlen hw
    by_cases hnd : p.Nodup
    · exact ⟨p, ⟨hw, hnd⟩, le_refl _⟩
    · obtain ⟨a, ha⟩ := List.exists_duplicate_iff_not_nodup.mpr hnd
      obtain ⟨l1, l2, l3, heq⟩ := pair_sublist_decomp a p (List.duplicate_iff_sublist.mp ha)
      subst heq
      obtain ⟨⟨hne, hchain⟩, hhead, hlast⟩ := hw
      rcases List.chain'_append.mp hchain with ⟨c1, c2, link1⟩
      rw [show (a :: (l2 ++ a :: l3)) = ((a :: l2) ++ (a :: l3)) from by simp] at c2
      rcases List.chain'_append.mp c2 with ⟨c3, c4, link2⟩
      have hchain' : List.Chain' (fun a b => hasEdge g a b = true) (l1 ++ a :: l3) := by
        refine List.chain'_append.mpr ⟨c1, c4, ?_⟩
        intro x hx y hy
        have hy' : a = y := by simpa using hy
        subst hy'
        exact link1 x hx a (by simp)
      have hwq : WalkFrom g s v (l1 ++ a :: l3) := by
        refine ⟨⟨by simp, hchain'⟩, ?_, ?_⟩
        · rw [List.head?_append] at hhead ⊢
          simp only [List.head?_cons] at hhead ⊢
          exact hhead
        · rw [getLast?_append_cons] at hlast
          rw [show (a :: (l2 ++ a :: l3)) = ((a :: l2) ++ (a :: l3)) from by simp] at hlast
          rw [getLast?_append_cons] at hlast
          rw [getLast?_append_cons]
          exact hlast
      have hw1 : walkWeight g (l1 ++ a :: (l2 ++ a :: l3)) =
          walkWeight g (l1 ++ [a]) + walkWeight g (a :: (l2 ++ a :: l3)) :=
        walkWeight_split g l1 a (l2 ++ a :: l3)
      have hw2 : walkWeight g (a :: (l2 ++ a :: l3)) =
          walkWeight g (a :: (l2 ++ [a])) + walkWeight g (a :: l3) := by
        have hsp := walkWeight_split g (a :: l2) a l3
        simpa using hsp
      have hcyc : 0 ≤ walkWeight g (a :: (l2 ++ [a])) := by
        apply walkWeight_nonneg
        have hch : List.Chain' (fun a b => hasEdge g a b = true) ((a :: l2) ++ [a]) := by
          refine List.chain'_append.mpr ⟨c3, List.chain'_singleton a, ?_⟩
          intro x hx y hy
          have hy' : a = y := by simpa using hy
          subst hy'
          exact link2 x hx a (by simp)
        simpa using hch
      have hw3 : walkWeight g (l1 ++ a :: l3) =
          walkWeight g (l1 ++ [a]) + walkWeight g (a :: l3) := walkWeight_split g l1 a l3
      have hlen2 : (l1 ++ a :: l3).length ≤ n := by
        simp only [List.length_append, List.length_cons] at hlen ⊢
        omega
      obtain ⟨q, hq, hle⟩ := ih (l1 ++ a :: l3) s v hlen2 hwq
      refine ⟨q, hq, hle.trans ?_⟩
      rw [hw1, hw2, hw3]
      omega

theorem visited_closed_walk (g : Graph) (S : List String)
    (hclosed : ∀ x ∈ S, ∀ y, hasEdge g x y = true → y ∈ S) :
    ∀ (p : List String) (s v : String), WalkFrom g s v p → s ∈ S → v ∈ S := by
  intro p
  induction p with
  | nil => intro s v hw _; exact (hw.1.1 rfl).elim
  | cons a t ih =>
    intro s v hw hs
    obtain ⟨⟨hne, hchain⟩, hhead, hlast⟩ := hw
    have has : a = s := by simpa using hhead
    subst has
    cases t with
    | nil =>
      have hav : a = v := by simpa using hlast
      exact hav ▸ hs
    | cons b t' =>
      rcases List.chain'_cons.mp hchain with ⟨hab, hbt⟩
      exact ih b v ⟨⟨List.cons_ne_nil _ _, hbt⟩, rfl,
        by rw [List.getLast?_cons_cons] at hlast; exact hlast⟩ (hclosed a hs b hab)

/-! ### Dijkstra: the visit step -/

theorem visit_step (g : Graph) (s endV : String) (st : DState)
    (hinv : DInv g s endV st) (hendV : endV ∉ st.visited)
    (hne : st.pq ≠ []) (pq' : List HeapNode)
    (hpq' : pq'.Perm st.pq.tail) (hheap' : HeapInv pq')
    (current : String) (hcurrent : current = (st.pq.getD 0 default).1)
    (hcur : current ∉ st.visited) :
    DCore g s { st with visited := st.visited ++ [current], pq := pq' } ∧
    st.distances current ≠ ⊤ := by
  obtain ⟨hc, hrel⟩ := hinv
  obtain ⟨hd, tl, hpq⟩ : ∃ hd tl, st.pq = hd :: tl := by
    cases hpqe : st.pq with
    | nil => exact absurd hpqe hne
    | cons x t => exact ⟨x, t, rfl⟩
  have hroot_mem : st.pq.getD 0 default ∈ st.pq := by
    rw [hpq]; exact List.mem_cons_self _ _
  have hrm : ∀ nd ∈ st.pq, prioAt st.pq 0 ≤ nd.2 := fun nd hnd =>
    heapInv_root_min st.pq hc.heapInv nd hnd
  have hdb : st.distances current ≤ prioAt st.pq 0 := by
    rw [hcurrent]
    exact hc.pqBound _ hroot_mem
  have hfin : prioAt st.pq 0 ≠ ⊤ := hc.pqFinite _ hroot_mem
  have hdfin : st.distances current ≠ ⊤ := ne_top_of_le_ne_top hfin hdb
  have hmem' : ∀ nd ∈ pq', nd ∈ st.pq := fun nd hnd =>
    List.mem_of_mem_tail (hpq'.mem_iff.mp hnd)
  have hmin : ∀ p, WalkFrom g s current p →
      st.distances current ≤ (walkWeight g p : WithTop ℤ) := by
    intro p hw
    by_cases hsS : s ∈ st.visited
    · obtain ⟨x, y, pre, hx, hy, hedge, hwpre, hle⟩ :=
        walk_cut g st.visited p s current hw hcur hsS
      have hdx := hc.visMin x hx pre hwpre
      have hrel_xy : st.distances y ≤ st.distances x + ↑(getEdgeWeight g x y) := by
        obtain ⟨e, he, hev⟩ := hasEdge_exists g x y hedge
        have hxne : x ≠ endV := fun hxe => hendV (hxe ▸ hx)
        have hr := hrel x hx hxne e he
        rw [hev] at hr
        exact hr
      have hyfin : st.distances y ≠ ⊤ := by
        refine ne_top_of_le_ne_top ?_ hrel_xy
        exact WithTop.add_ne_top.mpr ⟨hc.visFin x hx, WithTop.coe_ne_top⟩
      have h1 : st.distances current ≤ st.distances y :=
        hdb.trans (hrm (y, st.distances y) (hc.fresh y hy hyfin))
      calc st.distances current ≤ st.distances y := h1
        _ ≤ st.distances x + ↑(getEdgeWeight g x y) := hrel_xy
        _ ≤ ↑(walkWeight g pre) + ↑(getEdgeWeight g x y) := add_le_add_right hdx _
        _ = ↑(walkWeight g pre + getEdgeWeight g x y) := by push_cast; ring
        _ ≤ ↑(walkWeight g p) := by exact_mod_cast hle
    · have hsfresh := hc.fresh s hsS (by rw [hc.distS]; simp)
      have h0 : st.distances current ≤ 0 := by
        have hb := hrm (s, st.distances s) hsfresh
        rw [hc.distS] at hb
        exact hdb.trans hb
      have hwnn : 0 ≤ walkWeight g p := walkWeight_nonneg g p hw.1.2
      refine h0.trans ?_
      exact_mod_cast hwnn
  refine ⟨?_, hdfin⟩
  refine ⟨hc.distS, hc.distNonneg, hc.reach, ?_, ?_, ?_, ?_, ?_, ?_, ?_, ?_,
    hc.prevSet, hc.prevS, ?_, hheap'⟩
  · intro v hv
    rcases List.mem_append.mp hv with hv | hv
    · exact hc.visitedSub v hv
    · rw [List.mem_singleton] at hv
      subst hv
      rw [hcurrent]
      exact hc.pqElems _ hroot_mem
  · rw [List.nodup_append]
    exact ⟨hc.visitedNodup, List.nodup_singleton _,
      fun a ha hb => hcur ((List.mem_singleton.mp hb) ▸ ha)⟩
  · exact fun nd hnd => hc.pqElems nd (hmem' nd hnd)
  · exact fun nd hnd => hc.pqBound nd (hmem' nd hnd)
  · exact fun nd hnd => hc.pqFinite nd (hmem' nd hnd)
  · intro v hv hvfin
    have hv' : v ∉ st.visited ∧ v ≠ current := by
      constructor
      · exact fun hm => hv (List.mem_append.mpr (Or.inl hm))
      · exact fun he => hv (List.mem_append.mpr (Or.inr (he ▸ List.mem_singleton_self v)))
    have hmem : (v, st.distances v) ∈ st.pq := hc.fresh v hv'.1 hvfin
    rw [hpq] at hmem
    rcases List.mem_cons.mp hmem with hmem | hmem
    · exfalso
      apply hv'.2
      have : (v, st.distances v).1 = hd.1 := by rw [hmem]
      rw [hcurrent, hpq]
      exact this
    · exact hpq'.mem_iff.mpr (by rw [hpq]; exact hmem)
  · intro u hu p hwp
    rcases List.mem_append.mp hu with hu | hu
    · exact hc.visMin u hu p hwp
    · rw [List.mem_singleton] at hu
      subst hu
      exact hmin p hwp
  · intro u hu
    rcases List.mem_append.mp hu with hu | hu
    · exact hc.visFin u hu
    · rw [List.mem_singleton] at hu
      subst hu
      exact hdfin
  · intro v u hpv
    obtain ⟨hedge, humem, himp⟩ := hc.prevSpec v u hpv
    refine ⟨hedge, List.mem_append.mpr (Or.inl humem), ?_⟩
    intro hv
    rcases List.mem_append.mp hv with hv | hv
    · rw [List.indexOf_append_of_mem humem, List.indexOf_append_of_mem hv]
      exact himp hv
    · rw [List.mem_singleton] at hv
      subst hv
      rw [List.indexOf_append_of_mem humem, List.indexOf_append_of_not_mem hcur]
      have := List.indexOf_lt_length.mpr humem
      omega

/-! ### Dijkstra: relaxation preserves the invariant -/

theorem relaxNeighbor_inv (g : Graph) (hWF : WFg g) (s endV current : String)
    (visOld : List String) (d0 : WithTop ℤ) (processed : List String) (st : DState)
    (inv : RelaxInv g s endV current visOld d0 processed st)
    (n : String) (hn : n ∈ getNeighbors g current) :
    RelaxInv g s endV current visOld d0 (processed ++ [n])
      (relaxNeighbor g current st n) := by
  have hcur_mem : current ∈ st.visited := by
    rw [inv.visEq]
    exact List.mem_append.mpr (Or.inr (List.mem_singleton_self current))
  have hedge : hasEdge g current n = true := hasEdge_of_mem_getNeighbors g hWF current n hn
  have hw0 : 0 ≤ getEdgeWeight g current n := getEdgeWeight_nonneg g current n hedge
  have hdcurfin : st.distances current ≠ ⊤ := by rw [inv.distCur]; exact inv.d0fin
  simp only [relaxNeighbor]
  by_cases hv : st.visited.contains n = true
  · rw [if_pos hv]
    have hnv : n ∈ st.visited := List.elem_iff.mp hv
    refine ⟨inv.core, inv.visEq, inv.distCur, inv.d0fin, inv.oldRelaxed, ?_⟩
    intro b hb
    rcases List.mem_append.mp hb with hb | hb
    · exact inv.newRelaxed b hb
    · rw [List.mem_singleton] at hb
      subst hb
      obtain ⟨p, hwp, hwt⟩ := inv.core.reach current hdcurfin
      obtain ⟨hwp', hweq⟩ := walkFrom_concat g s current b p hwp hedge
      have hvm := inv.core.visMin b hnv (p ++ [b]) hwp'
      rw [hweq] at hvm
      calc st.distances b
          ≤ ((walkWeight g p + getEdgeWeight g current b : ℤ) : WithTop ℤ) := hvm
        _ = (walkWeight g p : WithTop ℤ) + (getEdgeWeight g current b : WithTop ℤ) := by
            push_cast; ring
        _ = d0 + (getEdgeWeight g current b : WithTop ℤ) := by rw [hwt, inv.distCur]
  · rw [if_neg hv]
    have hnv : n ∉ st.visited := fun hm => hv (List.elem_iff.mpr hm)
    have hncur : n ≠ current := fun he => hnv (he ▸ hcur_mem)
    by_cases himp :
        st.distances current + ↑(getEdgeWeight g current n) < st.distances n
    · rw [if_pos himp]
      have hndfin : st.distances current + ↑(getEdgeWeight g current n) ≠ ⊤ :=
        WithTop.add_ne_top.mpr ⟨hdcurfin, WithTop.coe_ne_top⟩
      have hnd0 : (0 : WithTop ℤ) ≤ st.distances current + ↑(getEdgeWeight g current n) :=
        add_nonneg (inv.core.distNonneg current) (by exact_mod_cast hw0)
      have hns : n ≠ s := by
        intro he
        have hd : st.distances n = 0 := by rw [he, inv.core.distS]
        rw [hd] at himp
        exact absurd himp (not_lt.mpr hnd0)
      have hdmono : ∀ v,
          (if v = n then st.distances current + ↑(getEdgeWeight g current n)
            else st.distances v) ≤ st.distances v := by
        intro v
        split
        · next h => rw [h]; exact le_of_lt himp
        · exact le_rfl
      have hnn_vert : n ∈ g.vertices := by
        obtain ⟨hva, e, he, hev⟩ := (mem_getNeighbors_iff g current n).mp hn
        exact hev ▸ hWF current e he
      have hperm := enqueue_perm st.pq n
        (st.distances current + ↑(getEdgeWeight g current n))
      refine ⟨⟨?_, ?_, ?_, inv.core.visitedSub, inv.core.visitedNodup,
        ?_, ?_, ?_, ?_, ?_, ?_, ?_, ?_, ?_, ?_⟩, inv.visEq, ?_, inv.d0fin, ?_, ?_⟩
      · dsimp only
        rw [if_neg (fun h => hns h.symm)]
        exact inv.core.distS
      · intro v
        dsimp only
        split
        · exact hnd0
        · exact inv.core.distNonneg v
      · intro v hvfin
        dsimp only at hvfin ⊢
        by_cases hvn : v = n
        · subst hvn
          rw [if_pos rfl]
          obtain ⟨p, hwp, hwt⟩ := inv.core.reach current hdcurfin
          obtain ⟨hwp', hweq⟩ := walkFrom_concat g s current v p hwp hedge
          refine ⟨p ++ [v], hwp', ?_⟩
          rw [hweq]
          push_cast
          rw [hwt]
        · rw [if_neg hvn] at hvfin ⊢
          exact inv.core.reach v hvfin
      · intro nd hnd
        rcases List.mem_cons.mp (hperm.mem_iff.mp hnd) with h | h
        · rw [h]
          exact hnn_vert
        · exact inv.core.pqElems nd h
      · intro nd hnd
        dsimp only
        rcases List.mem_cons.mp (hperm.mem_iff.mp hnd) with h | h
        · rw [h]
          dsimp only
          rw [if_pos rfl]
        · exact (hdmono nd.1).trans (inv.core.pqBound nd h)
      · intro nd hnd
        rcases List.mem_cons.mp (hperm.mem_iff.mp hnd) with h | h
        · rw [h]
          exact hndfin
        · exact inv.core.pqFinite nd h
      · intro v hvv hvfin
        dsimp only at hvfin ⊢
        by_cases hvn : v = n
        · subst hvn
          rw [if_pos rfl] at hvfin ⊢
          exact hperm.mem_iff.mpr (List.mem_cons_self _ _)
        · rw [if_neg hvn] at hvfin ⊢
          exact hperm.mem_iff.mpr (List.mem_cons_of_mem _ (inv.core.fresh v hvv hvfin))
      · intro u hu p hwp
        dsimp only
        rw [if_neg (fun he : u = n => hnv (he ▸ hu))]
        exact inv.core.visMin u hu p hwp
      · intro u hu
        dsimp only
        rw [if_neg (fun he : u = n => hnv (he ▸ hu))]
        exact inv.core.visFin u hu
      · intro v hvfin hvs
        dsimp only at hvfin ⊢
        by_cases hvn : v = n
        · rw [if_pos hvn]
          simp
        · rw [if_neg hvn] at hvfin ⊢
          exact inv.core.prevSet v hvfin hvs
      · dsimp only
        rw [if_neg (fun h => hns h.symm)]
        exact inv.core.prevS
      · intro v u hpv
        dsimp only at hpv ⊢
        by_cases hvn : v = n
        · rw [if_pos hvn] at hpv
          have hu : current = u := by injection hpv
          subst hu
          subst hvn
          exact ⟨hedge, hcur_mem, fun hmem => absurd hmem hnv⟩
        · rw [if_neg hvn] at hpv
          exact inv.core.prevSpec v u hpv
      · exact enqueue_heapInv _ _ _ inv.core.heapInv
      · dsimp only
        rw [if_neg (fun h => hncur h.symm)]
        exact inv.distCur
      · intro u hu hune e he
        dsimp only
        have hu' : u ∈ st.visited := by
          rw [inv.visEq]
          exact List.mem_append.mpr (Or.inl hu)
        rw [if_neg (fun heq : u = n => hnv (heq ▸ hu'))]
        exact (hdmono e.vertex).trans (inv.oldRelaxed u hu hune e he)
      · intro b hb
        dsimp only
        rcases List.mem_append.mp hb with hb | hb
        · exact (hdmono b).trans (inv.newRelaxed b hb)
        · rw [List.mem_singleton] at hb
          subst hb
          rw [if_pos rfl, ← inv.distCur]
    · rw [if_neg himp]
      refine ⟨inv.core, inv.visEq, inv.distCur, inv.d0fin, inv.oldRelaxed, ?_⟩
      intro b hb
      rcases List.mem_append.mp hb with hb | hb
      · exact inv.newRelaxed b hb
      · rw [List.mem_singleton] at hb
        subst hb
        rw [← inv.distCur]
        exact not_lt.mp himp

theorem foldl_relax_inv (g : Graph) (hWF : WFg g) (s endV current : String)
    (visOld : List String) (d0 : WithTop ℤ) :
    ∀ (L : List String) (processed : List String) (st : DState),
      (∀ n ∈ L, n ∈ getNeighbors g current) →
      RelaxInv g s endV current visOld d0 processed st →
      RelaxInv g s endV current visOld d0 (processed ++ L)
        (L.foldl (relaxNeighbor g current) st) := by
  intro L
  induction L with
  | nil => intro processed st _ inv; simpa using inv
  | cons n L' ih =>
    intro processed st hsub inv
    have h1 := relaxNeighbor_inv g hWF s endV current visOld d0 processed st inv n
      (hsub n (List.mem_cons_self _ _))
    have h2 := ih (processed ++ [n]) (relaxNeighbor g current st n)
      (fun m hm => hsub m (List.mem_cons_of_mem _ hm)) h1
    simpa using h2

theorem relaxNeighbor_pq_len (g : Graph) (current : String) (st : DState) (n : String) :
    (relaxNeighbor g current st n).pq.length ≤ st.pq.length + 1 := by
  simp only [relaxNeighbor]
  split
  · exact Nat.le_succ _
  · split
    · dsimp only
      have hp := (enqueue_perm st.pq n
        (st.distances current + ↑(getEdgeWeight g current n))).length_eq
      rw [hp]
      simp
    · exact Nat.le_succ _

theorem foldl_relax_pq_len (g : Graph) (current : String) :
    ∀ (L : List String) (st : DState),
      (L.foldl (relaxNeighbor g current) st).pq.length ≤ st.pq.length + L.length := by
  intro L
  induction L with
  | nil => intro st; simp
  | cons n L' ih =>
    intro st
    have h1 := ih (relaxNeighbor g current st n)
    have h2 := relaxNeighbor_pq_len g current st n
    simp only [List.foldl_cons, List.length_cons]
    omega

theorem relaxAll_dinv (g : Graph) (hWF : WFg g) (s endV current : String)
    (visOld : List String) (st1 : DState)
    (hc1 : DCore g s st1) (hveq : st1.visited = visOld ++ [current])
    (hrel_old : RelaxedAll g endV visOld st1.distances)
    (hd : st1.distances current ≠ ⊤) :
    DInv g s endV (relaxAll g current st1) ∧
    (relaxAll g current st1).visited = st1.visited ∧
    (relaxAll g current st1).pq.length ≤ st1.pq.length + (getNeighbors g current).length := by
  have hinv0 : RelaxInv g s endV current visOld (st1.distances current) [] st1 :=
    ⟨hc1, hveq, rfl, hd, hrel_old, fun b hb => absurd hb (List.not_mem_nil b)⟩
  have hfin := foldl_relax_inv g hWF s endV current visOld (st1.distances current)
    (getNeighbors g current) [] st1 (fun n hn => hn) hinv0
  rw [List.nil_append] at hfin
  unfold relaxAll
  refine ⟨⟨hfin.core, ?_⟩, hfin.visEq.trans hveq.symm,
    foldl_relax_pq_len g current (getNeighbors g current) st1⟩
  rw [hfin.visEq]
  intro u hu hune e he
  rcases List.mem_append.mp hu with hu | hu
  · exact hfin.oldRelaxed u hu hune e he
  · rw [List.mem_singleton] at hu
    subst hu
    have hv : hasVertex g u = true := by
      apply (hasVertex_iff g u).mpr
      apply hc1.visitedSub
      rw [hveq]
      exact List.mem_append.mpr (Or.inr (List.mem_singleton_self u))
    have hmem : e.vertex ∈ getNeighbors g u := by
      unfold getNeighbors
      rw [if_pos hv]
      exact List.mem_map.mpr ⟨e, he, rfl⟩
    have hnr := hfin.newRelaxed e.vertex hmem
    rw [hfin.distCur]
    exact hnr

theorem skip_step (g : Graph) (s endV : String) (st : DState)
    (hinv : DInv g s endV st) (hne : st.pq ≠ []) (pq' : List HeapNode)
    (hpq' : pq'.Perm st.pq.tail) (hheap' : HeapInv pq')
    (hcur : (st.pq.getD 0 default).1 ∈ st.visited) :
    DInv g s endV { st with pq := pq' } := by
  obtain ⟨hc, hrel⟩ := hinv
  obtain ⟨hd, tl, hpq⟩ : ∃ hd tl, st.pq = hd :: tl := by
    cases hpqe : st.pq with
    | nil => exact absurd hpqe hne
    | cons x t => exact ⟨x, t, rfl⟩
  have hmem' : ∀ nd ∈ pq', nd ∈ st.pq := fun nd hnd =>
    List.mem_of_mem_tail (hpq'.mem_iff.mp hnd)
  refine ⟨⟨hc.distS, hc.distNonneg, hc.reach, hc.visitedSub, hc.visitedNodup,
    fun nd hnd => hc.pqElems nd (hmem' nd hnd),
    fun nd hnd => hc.pqBound nd (hmem' nd hnd),
    fun nd hnd => hc.pqFinite nd (hmem' nd hnd), ?_,
    hc.visMin, hc.visFin, hc.prevSet, hc.prevS, hc.prevSpec, hheap'⟩, hrel⟩
  intro v hv hvfin
  have hmem : (v, st.distances v) ∈ st.pq := hc.fresh v hv hvfin
  rw [hpq] at hmem
  rcases List.mem_cons.mp hmem with hmem | hmem
  · exfalso
    apply hv
    have hv1 : (v, st.distances v).1 = hd.1 := by rw [hmem]
    have hd1 : (st.pq.getD 0 default).1 = hd.1 := by rw [hpq]; rfl
    rw [← hd1] at hv1
    have hveq : v = (st.pq.getD 0 default).1 := hv1
    show v ∈ st.visited
    rw [hveq]
    exact hcur
  · exact hpq'.mem_iff.mpr (by rw [hpq]; exact hmem)

theorem mapGet_some_mem (m : List (String × List Edge)) (k : String) (v : List Edge) :
    mapGet m k = some v → ∃ p ∈ m, p.2 = v := by
  induction m with
  | nil => intro h; cases h
  | cons hd tl ih =>
    intro h
    rw [mapGet] at h
    split at h
    · exact ⟨hd, List.mem_cons_self _ _, by injection h⟩
    · obtain ⟨p, hp, hpv⟩ := ih h
      exact ⟨p, List.mem_cons_of_mem _ hp, hpv⟩

theorem getNeighbors_length_le (g : Graph) (current : String) :
    (getNeighbors g current).length ≤ totalAdjSize g := by
  unfold getNeighbors
  split
  · rw [List.length_map]
    unfold adjOf
    rcases hm : mapGet g.adjacencyList current with _ | l
    · simp
    · obtain ⟨p, hp, hpv⟩ := mapGet_some_mem g.adjacencyList current l hm
      have hmem : l.length ∈ g.adjacencyList.map (fun e => e.2.length) :=
        List.mem_map.mpr ⟨p, hp, by rw [hpv]⟩
      exact List.single_le_sum (fun x _ => Nat.zero_le x) _ hmem
  · simp

theorem unvisited_lt (g : Graph) (vis : List String) (current : String)
    (hv : current ∈ g.vertices) (hnv : current ∉ vis) :
    (g.vertices.filter (fun v => !((vis ++ [current]).contains v))).length <
    (g.vertices.filter (fun v => !(vis.contains v))).length := by
  obtain ⟨l1, l2, hsplit⟩ := List.append_of_mem hv
  rw [hsplit]
  have h1 : ((vis ++ [current]).contains current) = true :=
    List.elem_iff.mpr (List.mem_append.mpr (Or.inr (List.mem_singleton_self current)))
  have h2 : (vis.contains current) = false := by
    rw [Bool.eq_false_iff]
    intro hcc
    exact hnv (List.elem_iff.mp hcc)
  have hmono : ∀ l : List String,
      (l.filter (fun v => !((vis ++ [current]).contains v))).length ≤
      (l.filter (fun v => !(vis.contains v))).length := by
    intro l
    apply List.Sublist.length_le
    apply List.monotone_filter_right
    intro a ha
    rw [Bool.not_eq_true'] at ha ⊢
    rw [Bool.eq_false_iff] at ha ⊢
    intro hc
    exact ha (List.elem_iff.mpr (List.mem_append.mpr (Or.inl (List.elem_iff.mp hc))))
  have key1 : (List.filter (fun v => !((vis ++ [current]).contains v)) (current :: l2)).length =
      (List.filter (fun v => !((vis ++ [current]).contains v)) l2).length := by
    rw [List.filter_cons]
    simp [h1]
  have key2 : (List.filter (fun v => !(vis.contains v)) (current :: l2)).length =
      (List.filter (fun v => !(vis.contains v)) l2).length + 1 := by
    rw [List.filter_cons]
    simp [h2, hnv]
  rw [List.filter_append, List.filter_append, List.length_append, List.length_append,
    key1, key2]
  have ha := hmono l1
  have hb := hmono l2
  omega

/-! ### Dijkstra: the main loop preserves the invariant and terminates -/

theorem dijkstraLoop_spec (g : Graph) (hWF : WFg g) (s endV : String) :
    ∀ (fuel : ℕ) (st : DState), DInv g s endV st → endV ∉ st.visited →
      DInv g s endV (dijkstraLoop g endV fuel st) ∧
      (dijkstraMeasure g st < fuel →
        (dijkstraLoop g endV fuel st).pq = [] ∨
          endV ∈ (dijkstraLoop g endV fuel st).visited) := by
  intro fuel
  induction fuel with
  | zero =>
    intro st hinv hout
    simp only [dijkstraLoop]
    exact ⟨hinv, fun h => absurd h (by omega)⟩
  | succ fuel ih =>
    intro st hinv hout
    simp only [dijkstraLoop]
    by_cases hemp : st.pq.isEmpty = true
    · rw [if_pos hemp]
      exact ⟨hinv, fun _ => Or.inl (List.isEmpty_iff.mp hemp)⟩
    · rw [if_neg hemp]
      have hne : st.pq ≠ [] := fun h => hemp (by rw [h]; rfl)
      have hpqpos : 1 ≤ st.pq.length := List.length_pos.mpr hne
      obtain ⟨pq', hdq, hperm⟩ := dequeue_spec st.pq hne
      have hheap' : HeapInv pq' := by
        have hh := dequeue_heapInv st.pq hinv.1.heapInv
        rw [hdq] at hh
        exact hh
      have hlen : pq'.length = st.pq.length - 1 := by
        rw [hperm.length_eq]
        simp
      have hroot_mem : st.pq.getD 0 default ∈ st.pq := by
        cases hpqe : st.pq with
        | nil => exact absurd hpqe hne
        | cons x t => exact List.mem_cons_self _ _
      rw [hdq]
      dsimp only
      by_cases hvis : st.visited.contains (st.pq.getD 0 default).1 = true
      · rw [if_pos hvis]
        have hst' := skip_step g s endV st hinv hne pq' hperm hheap'
          (List.elem_iff.mp hvis)
        obtain ⟨ha, hb⟩ := ih { st with pq := pq' } hst' hout
        refine ⟨ha, ?_⟩
        intro hm
        apply hb
        unfold dijkstraMeasure unvisitedCount at hm ⊢
        dsimp only at hm ⊢
        omega
      · have hcur : (st.pq.getD 0 default).1 ∉ st.visited :=
          fun hm => hvis (List.elem_iff.mpr hm)
        rw [if_neg hvis]
        obtain ⟨hc1, hdfin⟩ := visit_step g s endV st hinv hout hne pq' hperm hheap'
          (st.pq.getD 0 default).1 rfl hcur
        by_cases hend : (st.pq.getD 0 default).1 = endV
        · rw [if_pos hend]
          refine ⟨⟨hc1, ?_⟩, fun _ => Or.inr ?_⟩
          · intro u hu hune e he
            rcases List.mem_append.mp hu with hu | hu
            · exact hinv.2 u hu hune e he
            · rw [List.mem_singleton] at hu
              exact absurd (hu.trans hend) hune
          · show endV ∈ st.visited ++ [(st.pq.getD 0 default).1]
            rw [← hend]
            exact List.mem_append.mpr (Or.inr (List.mem_singleton_self _))
        · rw [if_neg hend]
          set st1 : DState :=
            { st with visited := st.visited ++ [(st.pq.getD 0 default).1], pq := pq' }
            with hst1
          have hrel1 : RelaxedAll g endV st.visited st1.distances := hinv.2
          obtain ⟨hdinv2, hvis2, hpqlen2⟩ := relaxAll_dinv g hWF s endV
            (st.pq.getD 0 default).1 st.visited st1 hc1 rfl hrel1 hdfin
          have hout2 : endV ∉ (relaxAll g (st.pq.getD 0 default).1 st1).visited := by
            rw [hvis2, hst1]
            intro hm
            rcases List.mem_append.mp hm with hm | hm
            · exact hout hm
            · rw [List.mem_singleton] at hm
              exact hend hm.symm
          obtain ⟨ha, hb⟩ := ih _ hdinv2 hout2
          refine ⟨ha, ?_⟩
          intro hm
          apply hb
          have hcv : (st.pq.getD 0 default).1 ∈ g.vertices :=
            hinv.1.pqElems _ hroot_mem
          have hu_lt := unvisited_lt g st.visited (st.pq.getD 0 default).1 hcv hcur
          have hnb := getNeighbors_length_le g (st.pq.getD 0 default).1
          unfold dijkstraMeasure unvisitedCount at hm ⊢
          rw [hvis2]
          dsimp only at hm hpqlen2 ⊢
          have hmul : ((List.filter
              (fun v => !((st.visited ++ [(st.pq.getD 0 default).1]).contains v))
              g.vertices).length + 1) * (totalAdjSize g + 2) ≤
              (List.filter (fun v => !(st.visited.contains v)) g.vertices).length *
                (totalAdjSize g + 2) :=
            Nat.mul_le_mul_right _ (by omega)
          rw [Nat.succ_mul] at hmul
          omega

/-! ### Dijkstra: initial state, final state, path reconstruction -/

theorem init_dinv (g : Graph) (s endV : String) (hs : hasVertex g s = true) :
    DInv g s endV
      { distances := fun v => if v = s then (0 : WithTop ℤ) else ⊤,
        previous := fun _ => none, visited := [], pq := enqueue [] s 0 } := by
  have hpq : enqueue [] s 0 = [(s, 0)] := rfl
  constructor
  · refine ⟨?_, ?_, ?_, ?_, ?_, ?_, ?_, ?_, ?_, ?_, ?_, ?_, ?_, ?_, ?_⟩
    · dsimp only
      rw [if_pos rfl]
    · intro v
      dsimp only
      split
      · exact le_refl _
      · exact le_top
    · intro v hvfin
      dsimp only at hvfin ⊢
      by_cases hv : v = s
      · subst hv
        refine ⟨[v], walkFrom_single g v, ?_⟩
        rw [walkWeight_single, if_pos rfl]
        rfl
      · rw [if_neg hv] at hvfin
        exact absurd rfl hvfin
    · exact fun v hv => absurd hv (List.not_mem_nil v)
    · exact List.nodup_nil
    · intro nd hnd
      dsimp only at hnd
      rw [hpq, List.mem_singleton] at hnd
      subst hnd
      exact (hasVertex_iff g s).mp hs
    · intro nd hnd
      dsimp only at hnd ⊢
      rw [hpq, List.mem_singleton] at hnd
      subst hnd
      dsimp only
      rw [if_pos rfl]
    · intro nd hnd
      dsimp only at hnd
      rw [hpq, List.mem_singleton] at hnd
      subst hnd
      simp
    · intro v hv hvfin
      dsimp only at hvfin ⊢
      by_cases hvs : v = s
      · subst hvs
        rw [if_pos rfl, hpq]
        exact List.mem_singleton_self _
      · rw [if_neg hvs] at hvfin
        exact absurd rfl hvfin
    · intro u hu p hwp
      exact absurd hu (List.not_mem_nil u)
    · intro u hu
      exact absurd hu (List.not_mem_nil u)
    · intro v hvfin hvs
      dsimp only at hvfin ⊢
      rw [if_neg hvs] at hvfin
      exact absurd rfl hvfin
    · rfl
    · intro v u hpv
      exact Option.noConfusion hpv
    · show HeapInv (enqueue [] s 0)
      rw [hpq]
      intro j hj0 hjlen
      simp only [List.length_singleton] at hjlen
      omega
  · intro u hu
    exact absurd hu (List.not_mem_nil u)

theorem init_measure (g : Graph) (s : String) :
    dijkstraMeasure g
      { distances := fun v => if v = s then (0 : WithTop ℤ) else ⊤,
        previous := fun _ => none, visited := [], pq := enqueue [] s 0 } <
      dijkstraFuel g := by
  unfold dijkstraMeasure unvisitedCount dijkstraFuel
  dsimp only
  have h1 : (g.vertices.filter (fun v => !(([] : List String).contains v))).length =
      g.vertices.length := by simp
  have h2 : (enqueue [] s 0).length = 1 := rfl
  rw [h1, h2]
  have h3 : g.vertices.length * (totalAdjSize g + 2) <
      (g.vertices.length + 1) * (totalAdjSize g + 2) :=
    Nat.mul_lt_mul_of_pos_right (by omega) (by omega)
  omega

theorem final_unreachable (g : Graph) (s endV : String) (stF : DState)
    (hinv : DInv g s endV stF) (hpq : stF.pq = []) (hout : endV ∉ stF.visited) :
    stF.distances endV = ⊤ ∧ ¬ Reachable g s endV := by
  obtain ⟨hc, hrel⟩ := hinv
  have hdtop : stF.distances endV = ⊤ := by
    by_contra hne
    have hm := hc.fresh endV hout hne
    rw [hpq] at hm
    exact absurd hm (List.not_mem_nil _)
  refine ⟨hdtop, ?_⟩
  rintro ⟨p, hw⟩
  have hsS : s ∈ stF.visited := by
    by_contra hsS
    have h0 : stF.distances s ≠ ⊤ := by rw [hc.distS]; simp
    have hm := hc.fresh s hsS h0
    rw [hpq] at hm
    exact absurd hm (List.not_mem_nil _)
  have hclosed : ∀ x ∈ stF.visited, ∀ y, hasEdge g x y = true → y ∈ stF.visited := by
    intro x hx y hxy
    by_contra hy
    obtain ⟨e, he, hev⟩ := hasEdge_exists g x y hxy
    have hxne : x ≠ endV := fun hxe => hout (hxe ▸ hx)
    have hr := hrel x hx hxne e he
    rw [hev] at hr
    have hyfin : stF.distances y ≠ ⊤ :=
      ne_top_of_le_ne_top (WithTop.add_ne_top.mpr ⟨hc.visFin x hx, WithTop.coe_ne_top⟩) hr
    have hm := hc.fresh y hy hyfin
    rw [hpq] at hm
    exact absurd hm (List.not_mem_nil _)
  exact hout (visited_closed_walk g stF.visited hclosed p s endV hw hsS)

theorem reconGo_ok (g : Graph) (s : String) (st : DState) (hc : DCore g s st) :
    ∀ (fuel : ℕ) (v : String), v ∈ st.visited → st.visited.indexOf v < fuel →
      ∀ acc : List String,
        ∃ pre, reconGo st.previous fuel (some v) acc = pre ++ acc ∧ pre ≠ [] ∧
          pre.head? = some s ∧ pre.getLast? = some v ∧
          List.Chain' (fun a b => hasEdge g a b = true) pre := by
  intro fuel
  induction fuel with
  | zero =>
    intro v hv hlt acc
    exact absurd hlt (by omega)
  | succ fuel ih =>
    intro v hv hlt acc
    simp only [reconGo]
    rcases hp : st.previous v with _ | u
    · have hvs : v = s := by
        by_contra hne
        exact (hc.prevSet v (hc.visFin v hv) hne) hp
      subst hvs
      refine ⟨[v], ?_, by simp, rfl, rfl, List.chain'_singleton v⟩
      cases fuel with
      | zero => rfl
      | succ f => rfl
    · have hspec := hc.prevSpec v u hp
      have hu := hspec.2.1
      have hlt2 : st.visited.indexOf u < fuel := by
        have hlt3 := hspec.2.2 hv
        omega
      obtain ⟨pre, heq, hne, hhead, hlast, hchain⟩ := ih u hu hlt2 (v :: acc)
      refine ⟨pre ++ [v], ?_, by simp, ?_, ?_, ?_⟩
      · rw [heq]
        simp
      · rw [List.head?_append, hhead]
        rfl
      · rw [List.getLast?_append]
        rfl
      · refine List.chain'_append.mpr ⟨hchain, List.chain'_singleton v, ?_⟩
        intro x hx y hy
        rw [hlast] at hx
        have hx2 : u = x := by simpa using hx
        have hy2 : v = y := by simpa using hy
        subst hx2
        subst hy2
        exact hspec.1

theorem reconstructPath_ok (g : Graph) (s endV : String) (st : DState)
    (hc : DCore g s st) (hv : endV ∈ st.visited) (fuel : ℕ)
    (hfuel : st.visited.indexOf endV < fuel) :
    WalkFrom g s endV (reconstructPath st.previous s endV fuel) := by
  obtain ⟨pre, heq, hne, hhead, hlast, hchain⟩ := reconGo_ok g s st hc fuel endV hv hfuel []
  unfold reconstructPath
  rw [heq, List.append_nil]
  exact ⟨⟨hne, hchain⟩, hhead, hlast⟩

/-! ### Dijkstra: full specification of findShortestPath on well-formed graphs -/

theorem findShortestPath_spec (g : Graph) (hWF : WFg g) (start endV : String) :
    (findShortestPath g start endV = ([], -1) ↔
      (¬ (hasVertex g start = true ∧ hasVertex g endV = true) ∨
        ¬ Reachable g start endV)) ∧
    (hasVertex g start = true → hasVertex g endV = true → Reachable g start endV →
      WalkFrom g start endV (findShortestPath g start endV).1 ∧
      0 ≤ (findShortestPath g start endV).2 ∧
      (∃ q, SimplePathFrom g start endV q ∧
        walkWeight g q = (findShortestPath g start endV).2) ∧
      (∀ q, SimplePathFrom g start endV q →
        (findShortestPath g start endV).2 ≤ walkWeight g q)) := by
  by_cases hsv : hasVertex g start = true ∧ hasVertex g endV = true
  case neg =>
    have hres : findShortestPath g start endV = ([], -1) := by
      unfold findShortestPath
      have hc : ¬ ((hasVertex g start && hasVertex g endV) = true) := by
        rw [Bool.and_eq_true]
        exact hsv
      rw [if_neg hc]
    refine ⟨⟨fun _ => Or.inl hsv, fun _ => hres⟩, ?_⟩
    intro hs he _
    exact absurd ⟨hs, he⟩ hsv
  case pos =>
    obtain ⟨hs, he⟩ := hsv
    have hcond : (hasVertex g start && hasVertex g endV) = true := by
      rw [Bool.and_eq_true]
      exact ⟨hs, he⟩
    have hinit := init_dinv g start endV hs
    obtain ⟨hinvF, hterm⟩ := dijkstraLoop_spec g hWF start endV (dijkstraFuel g)
      { distances := fun v => if v = start then (0 : WithTop ℤ) else ⊤,
        previous := fun _ => none, visited := [], pq := enqueue [] start 0 }
      hinit (List.not_mem_nil endV)
    specialize hterm (init_measure g start)
    set stF := dijkstraLoop g endV (dijkstraFuel g)
      { distances := fun v => if v = start then (0 : WithTop ℤ) else ⊤,
        previous := fun _ => none, visited := [], pq := enqueue [] start 0 } with hstF
    by_cases hdt : stF.distances endV = ⊤
    · have hres : findShortestPath g start endV = ([], -1) := by
        unfold findShortestPath
        rw [if_pos hcond]
        dsimp only
        rw [← hstF, if_pos hdt]
      have hout : endV ∉ stF.visited := fun hm => (hinvF.1.visFin endV hm) hdt
      have hpqe : stF.pq = [] := by
        rcases hterm with h | h
        · exact h
        · exact absurd h hout
      have hunreach := (final_unreachable g start endV stF hinvF hpqe hout).2
      refine ⟨⟨fun _ => Or.inr hunreach, fun _ => hres⟩, ?_⟩
      intro _ _ hreach
      exact absurd hreach hunreach
    · have hvisited : endV ∈ stF.visited := by
        by_contra hout
        rcases hterm with h | h
        · exact hdt (final_unreachable g start endV stF hinvF h hout).1
        · exact hout h
      obtain ⟨p, hwp, hwteq⟩ := hinvF.1.reach endV hdt
      obtain ⟨q, hq, hle⟩ := walk_to_simple g p.length p start endV (le_refl _) hwp
      have hqmin : stF.distances endV ≤ ↑(walkWeight g q) :=
        hinvF.1.visMin endV hvisited q hq.1
      have hwq_eq : (walkWeight g q : WithTop ℤ) = stF.distances endV := by
        apply le_antisymm
        · rw [← hwteq]
          exact_mod_cast hle
        · exact hqmin
      have hresult : findShortestPath g start endV =
          (reconstructPath stF.previous start endV (g.vertices.length + 1),
            (stF.distances endV).untop' (-1)) := by
        unfold findShortestPath
        rw [if_pos hcond]
        dsimp only
        rw [← hstF, if_neg hdt]
      have hval : (stF.distances endV).untop' (-1) = walkWeight g q := by
        rw [← hwq_eq]
        exact WithTop.untop'_coe _ _
      have hidx : stF.visited.indexOf endV < g.vertices.length + 1 := by
        have h1 : stF.visited.indexOf endV < stF.visited.length :=
          List.indexOf_lt_length.mpr hvisited
        have h2 : stF.visited.length ≤ g.vertices.length :=
          (List.Nodup.subperm hinvF.1.visitedNodup
            (fun x hx => hinvF.1.visitedSub x hx)).length_le
        omega
      have hwalk := reconstructPath_ok g start endV stF hinvF.1 hvisited
        (g.vertices.length + 1) hidx
      have hq0 : 0 ≤ walkWeight g q := walkWeight_nonneg g q hq.1.1.2
      have hne_sent : findShortestPath g start endV ≠ ([], -1) := by
        rw [hresult]
        intro hcontra
        have h2 := congrArg Prod.snd hcontra
        dsimp only at h2
        rw [hval] at h2
        omega
      have hreach : Reachable g start endV := ⟨p, hwp⟩
      refine ⟨⟨fun hcontra => absurd hcontra hne_sent, ?_⟩, ?_⟩
      · rintro (h | h)
        · exact absurd ⟨hs, he⟩ h
        · exact absurd hreach h
      · intro _ _ _
        rw [hresult]
        dsimp only
        rw [hval]
        refine ⟨hwalk, hq0, ⟨q, hq, rfl⟩, ?_⟩
        intro q' hq'
        have hmin' := hinvF.1.visMin endV hvisited q' hq'.1
        rw [← hwq_eq] at hmin'
        exact_mod_cast hmin'

/-! ### The adjacency map: lookup lemmas and well-formedness of built graphs -/

theorem mapGet_mapSet_self (m : List (String × List Edge)) (k : String) (v : List Edge) :
    mapGet (mapSet m k v) k = some v := by
  induction m with
  | nil => simp [mapSet, mapGet]
  | cons hd tl ih =>
    obtain ⟨k1, v1⟩ := hd
    rw [mapSet]
    by_cases hk : k1 = k
    · rw [if_pos hk, mapGet, if_pos rfl]
    · rw [if_neg hk, mapGet, if_neg hk, ih]

theorem mapGet_mapSet_ne (m : List (String × List Edge)) (k k' : String) (v : List Edge)
    (h : k' ≠ k) : mapGet (mapSet m k v) k' = mapGet m k' := by
  induction m with
  | nil =>
    show mapGet [(k, v)] k' = mapGet [] k'
    simp only [mapGet]
    rw [if_neg (fun he : k = k' => h he.symm)]
  | cons hd tl ih =>
    obtain ⟨k1, v1⟩ := hd
    show mapGet (if k1 = k then (k, v) :: tl else (k1, v1) :: mapSet tl k v) k' = _
    by_cases hk : k1 = k
    · rw [if_pos hk]
      subst hk
      simp only [mapGet]
      rw [if_neg (fun he : k1 = k' => h he.symm), if_neg (fun he : k1 = k' => h he.symm)]
    · rw [if_neg hk]
      simp only [mapGet]
      by_cases hk1 : k1 = k'
      · rw [if_pos hk1, if_pos hk1]
      · rw [if_neg hk1, if_neg hk1, ih]

theorem mapGet_mapUpdate_self (m : List (String × List Edge)) (k : String)
    (f : List Edge → List Edge) : mapGet (mapUpdate m k f) k = (mapGet m k).map f := by
  induction m with
  | nil => rfl
  | cons hd tl ih =>
    obtain ⟨k1, v1⟩ := hd
    show mapGet (if k1 = k then (k1, f v1) :: tl else (k1, v1) :: mapUpdate tl k f) k = _
    by_cases hk : k1 = k
    · rw [if_pos hk]
      simp only [mapGet]
      rw [if_pos hk, if_pos hk]
      rfl
    · rw [if_neg hk]
      simp only [mapGet]
      rw [if_neg hk, if_neg hk, ih]

theorem mapGet_mapUpdate_ne (m : List (String × List Edge)) (k k' : String)
    (f : List Edge → List Edge) (h : k' ≠ k) :
    mapGet (mapUpdate m k f) k' = mapGet m k' := by
  induction m with
  | nil => rfl
  | cons hd tl ih =>
    obtain ⟨k1, v1⟩ := hd
    show mapGet (if k1 = k then (k1, f v1) :: tl else (k1, v1) :: mapUpdate tl k f) k' = _
    by_cases hk : k1 = k
    · rw [if_pos hk]
      simp only [mapGet]
      have hne : ¬ (k1 = k') := fun he => h (he.symm.trans hk)
      rw [if_neg hne, if_neg hne]
    · rw [if_neg hk]
      simp only [mapGet]
      by_cases hk1 : k1 = k'
      · rw [if_pos hk1, if_pos hk1]
      · rw [if_neg hk1, if_neg hk1, ih]

theorem mem_adjOf_mapUpdate (m : List (String × List Edge)) (vs : List String)
    (k x : String) (ed : Edge) (e : Edge)
    (he : e ∈ adjOf ⟨mapUpdate m k (fun l => l ++ [ed]), vs⟩ x) :
    e ∈ adjOf ⟨m, vs⟩ x ∨ e = ed := by
  unfold adjOf at he ⊢
  dsimp only at he ⊢
  by_cases hxk : x = k
  · subst hxk
    rw [mapGet_mapUpdate_self] at he
    rcases hm : mapGet m x with _ | l
    · rw [hm] at he
      simp at he
    · rw [hm] at he
      simp only [Option.map_some', Option.getD_some, List.mem_append,
        List.mem_singleton] at he
      rcases he with he | he
      · left
        exact he
      · right
        exact he
  · rw [mapGet_mapUpdate_ne _ _ _ _ hxk] at he
    exact Or.inl he

theorem WFg_addVertex (g : Graph) (v : String) (h : WFg g) : WFg (addVertex g v) := by
  intro a e he
  unfold addVertex at he ⊢
  by_cases hc : g.vertices.contains v = true
  · rw [if_pos hc] at he ⊢
    exact h a e he
  · rw [if_neg hc] at he ⊢
    unfold adjOf at he
    dsimp only at he ⊢
    by_cases hav : a = v
    · subst hav
      rw [mapGet_mapSet_self] at he
      simp at he
    · rw [mapGet_mapSet_ne _ _ _ _ hav] at he
      exact List.mem_append_left _ (h a e he)

theorem mem_vertices_addVertex (g : Graph) (v : String) : v ∈ (addVertex g v).vertices := by
  unfold addVertex
  by_cases hc : g.vertices.contains v = true
  · rw [if_pos hc]
    exact List.elem_iff.mp hc
  · rw [if_neg hc]
    exact List.mem_append_right _ (List.mem_singleton_self v)

theorem mem_vertices_addVertex_mono (g : Graph) (v x : String) (h : x ∈ g.vertices) :
    x ∈ (addVertex g v).vertices := by
  unfold addVertex
  by_cases hc : g.vertices.contains v = true
  · rw [if_pos hc]
    exact h
  · rw [if_neg hc]
    exact List.mem_append_left _ h

theorem WFg_addEdge (g : Graph) (a b : String) (w : ℕ) (h : WFg g) :
    WFg (addEdge g a b w) := by
  have h1 : WFg (addVertex (addVertex g a) b) := WFg_addVertex _ b (WFg_addVertex g a h)
  have hbv : b ∈ (addVertex (addVertex g a) b).vertices := mem_vertices_addVertex _ b
  have hav : a ∈ (addVertex (addVertex g a) b).vertices :=
    mem_vertices_addVertex_mono _ b a (mem_vertices_addVertex g a)
  simp only [addEdge]
  rcases hf : (adjOf (addVertex (addVertex g a) b) a).find?
      (fun edge => edge.vertex == b) with _ | e0
  · rw [hf]
    intro x e he
    dsimp only at he ⊢
    have step1 := mem_adjOf_mapUpdate
      (mapUpdate (addVertex (addVertex g a) b).adjacencyList a (fun l => l ++ [⟨b, w⟩]))
      (addVertex (addVertex g a) b).vertices b x ⟨a, w⟩ e he
    rcases step1 with h2 | h2
    · have step2 := mem_adjOf_mapUpdate (addVertex (addVertex g a) b).adjacencyList
        (addVertex (addVertex g a) b).vertices a x ⟨b, w⟩ e h2
      rcases step2 with h3 | h3
      · exact h1 x e h3
      · rw [h3]
        exact hbv
    · rw [h2]
      exact hav
  · rw [hf]
    exact h1

theorem WFg_empty : WFg emptyGraph := by
  intro a e he
  simp [adjOf, emptyGraph, mapGet] at he

theorem WFg_applyOps_adds :
    ∀ (ops : List GOp) (g : Graph), WFg g → (∀ op ∈ ops, op.isAdd = true) →
      WFg (ops.foldl applyOp g) := by
  intro ops
  induction ops with
  | nil => intro g hg _; exact hg
  | cons op rest ih =>
    intro g hg hadd
    apply ih
    · cases op with
      | addVertexOp v => exact WFg_addVertex g v hg
      | addEdgeOp a b w => exact WFg_addEdge g a b w hg
      | removeVertexOp v =>
        exact absurd (hadd _ (List.mem_cons_self _ _)) (by simp [GOp.isAdd])
      | removeEdgeOp a b =>
        exact absurd (hadd _ (List.mem_cons_self _ _)) (by simp [GOp.isAdd])
    · exact fun op2 h2 => hadd op2 (List.mem_cons_of_mem _ h2)

theorem buildAdds_WF (ops : List GOp) (hadd : ∀ op ∈ ops, op.isAdd = true) :
    WFg (applyOps ops) :=
  WFg_applyOps_adds ops emptyGraph WFg_empty hadd

/-- C3: on every graph built by `addVertex`/`addEdge` operations, for vertices
`s` and `e` present in the graph with `e` reachable from `s`, the distance
returned by `findShortestPath s e` equals the minimum over all simple paths
from `s` to `e` of the summed edge weights: some simple path attains the
returned distance, and no simple path has a smaller weight. -/
theorem C3_shortest_path_minimal (ops : List GOp)
    (hadd : ∀ op ∈ ops, op.isAdd = true) (s e : String)
    (hs : hasVertex (applyOps ops) s = true) (he : hasVertex (applyOps ops) e = true)
    (hreach : Reachable (applyOps ops) s e) :
    (∃ q, SimplePathFrom (applyOps ops) s e q ∧
      walkWeight (applyOps ops) q = (findShortestPath (applyOps ops) s e).2) ∧
    (∀ q, SimplePathFrom (applyOps ops) s e q →
      (findShortestPath (applyOps ops) s e).2 ≤ walkWeight (applyOps ops) q) := by
  have hspec := findShortestPath_spec (applyOps ops) (buildAdds_WF ops hadd) s e
  obtain ⟨hw, h0, hex, hmin⟩ := hspec.2 hs he hreach
  exact ⟨hex, hmin⟩

/-- Witness for `C3_shortest_path_minimal`: the sample graph with s = "A",
e = "E" (reachability witnessed by the walk A-C-E). -/
theorem C3_shortest_path_minimal_witness :
    (∀ op ∈ sampleOps, op.isAdd = true) ∧
    hasVertex (applyOps sampleOps) "A" = true ∧
    hasVertex (applyOps sampleOps) "E" = true ∧
    Reachable (applyOps sampleOps) "A" "E" ∧
    ((∃ q, SimplePathFrom (applyOps sampleOps) "A" "E" q ∧
      walkWeight (applyOps sampleOps) q =
        (findShortestPath (applyOps sampleOps) "A" "E").2) ∧
    (∀ q, SimplePathFrom (applyOps sampleOps) "A" "E" q →
      (findShortestPath (applyOps sampleOps) "A" "E").2 ≤
        walkWeight (applyOps sampleOps) q)) :=
  ⟨by decide, by decide, by decide,
    ⟨["A", "C", "E"], ⟨⟨by decide, List.chain'_cons.mpr ⟨by decide,
      List.chain'_cons.mpr ⟨by decide, List.chain'_singleton _⟩⟩⟩, rfl, rfl⟩⟩,
    C3_shortest_path_minimal sampleOps (by decide) "A" "E" (by decide) (by decide)
      ⟨["A", "C", "E"], ⟨⟨by decide, List.chain'_cons.mpr ⟨by decide,
        List.chain'_cons.mpr ⟨by decide, List.chain'_singleton _⟩⟩⟩, rfl, rfl⟩⟩⟩

/-! ### `splice`/`eraseFirstP` toolkit -/

theorem removeAt_zero (x : Edge) (l : List Edge) : removeAt (x :: l) 0 = l := rfl

theorem removeAt_succ (x : Edge) (l : List Edge) (i : ℕ) :
    removeAt (x :: l) (i + 1) = x :: removeAt l i := rfl

theorem eraseFirstP_cons (x : Edge) (l : List Edge) (p : Edge → Bool) :
    eraseFirstP (x :: l) p = if p x then l else x :: eraseFirstP l p := by
  unfold eraseFirstP
  rw [show (x :: l).findIdx? p = if p x then some 0 else (l.findIdx? p).map (· + 1) from by
    simp [List.findIdx?_cons]]
  by_cases hp : p x = true
  · rw [if_pos hp, if_pos hp]
    rfl
  · rw [if_neg hp, if_neg hp]
    rcases hf : l.findIdx? p with _ | i
    · rfl
    · rfl

theorem eraseFirstP_no_match (l : List Edge) (p : Edge → Bool)
    (h : ∀ e ∈ l, p e = false) : eraseFirstP l p = l := by
  unfold eraseFirstP
  rw [List.findIdx?_eq_none_iff.mpr h]

theorem eraseFirstP_append_no_match (l1 l2 : List Edge) (p : Edge → Bool)
    (h : ∀ e ∈ l1, p e = false) :
    eraseFirstP (l1 ++ l2) p = l1 ++ eraseFirstP l2 p := by
  induction l1 with
  | nil => rfl
  | cons x t ih =>
    have hx := h x (List.mem_cons_self x t)
    rw [List.cons_append, eraseFirstP_cons, hx]
    rw [if_neg (by simp : ¬ (false = true))]
    rw [ih (fun e he => h e (List.mem_cons_of_mem x he))]
    rfl

theorem eraseFirstP_sublist (l : List Edge) (p : Edge → Bool) :
    (eraseFirstP l p).Sublist l := by
  induction l with
  | nil => exact List.Sublist.refl _
  | cons x t ih =>
    rw [eraseFirstP_cons]
    by_cases hp : p x = true
    · rw [if_pos hp]
      exact List.sublist_cons_self x t
    · rw [if_neg hp]
      exact ih.cons₂ x

theorem eraseFirstP_eq (l : List Edge) (p : Edge → Bool) :
    (eraseFirstP l p = l ∧ ∀ e ∈ l, p e = false) ∨
    ∃ l1 x l2, l = l1 ++ x :: l2 ∧ p x = true ∧ (∀ e ∈ l1, p e = false) ∧
      eraseFirstP l p = l1 ++ l2 := by
  induction l with
  | nil => exact Or.inl ⟨rfl, fun e he => absurd he (List.not_mem_nil e)⟩
  | cons x t ih =>
    by_cases hp : p x = true
    · refine Or.inr ⟨[], x, t, rfl, hp, fun e he => absurd he (List.not_mem_nil e), ?_⟩
      rw [eraseFirstP_cons, if_pos hp]
      rfl
    · rcases ih with ⟨heq, hall⟩ | ⟨l1, y, l2, heq, hpy, hno, herase⟩
      · refine Or.inl ⟨?_, ?_⟩
        · rw [eraseFirstP_cons, if_neg hp, heq]
        · intro e he
          rcases List.mem_cons.mp he with he | he
          · subst he
            exact Bool.eq_false_iff.mpr hp
          · exact hall e he
      · refine Or.inr ⟨x :: l1, y, l2, by rw [heq]; rfl, hpy, ?_, ?_⟩
        · intro e he
          rcases List.mem_cons.mp he with he | he
          · subst he
            exact Bool.eq_false_iff.mpr hp
          · exact hno e he
        · rw [eraseFirstP_cons, if_neg hp, herase]
          rfl

theorem filter_eraseFirstP (l : List Edge) (p q : Edge → Bool)
    (hdisj : ∀ e, p e = true → q e = false) :
    (eraseFirstP l p).filter q = l.filter q := by
  induction l with
  | nil => rfl
  | cons x t ih =>
    rw [eraseFirstP_cons]
    by_cases hp : p x = true
    · rw [if_pos hp, List.filter_cons, hdisj x hp]
      rw [if_neg (by simp : ¬ (false = true))]
    · rw [if_neg hp, List.filter_cons, List.filter_cons, ih]

theorem eraseFirstP_block (p1 : List Edge) (s : Edge) (p2 : List Edge) (p : Edge → Bool)
    (hs : p s = false) :
    eraseFirstP (p1 ++ s :: s :: p2) p = (eraseFirstP p1 p) ++ s :: s :: p2 ∨
    eraseFirstP (p1 ++ s :: s :: p2) p = p1 ++ s :: s :: (eraseFirstP p2 p) := by
  induction p1 with
  | nil =>
    right
    show eraseFirstP (s :: s :: p2) p = s :: s :: eraseFirstP p2 p
    rw [eraseFirstP_cons, hs, if_neg (by simp : ¬ (false = true)),
      eraseFirstP_cons, hs, if_neg (by simp : ¬ (false = true))]
  | cons x t ih =>
    rw [List.cons_append, eraseFirstP_cons]
    by_cases hp : p x = true
    · left
      rw [if_pos hp, eraseFirstP_cons, if_pos hp]
    · rw [if_neg hp]
      rcases ih with h | h
      · left
        rw [h, eraseFirstP_cons, if_neg hp, List.cons_append]
      · right
        rw [h]
        rfl

theorem findIdx?_append_match (l1 : List Edge) (x : Edge) (r : List Edge)
    (p : Edge → Bool) (h1 : ∀ e ∈ l1, p e = false) (hx : p x = true) :
    (l1 ++ x :: r).findIdx? p = some l1.length := by
  induction l1 with
  | nil =>
    show (x :: r).findIdx? p = some 0
    rw [show (x :: r).findIdx? p = if p x then some 0 else (r.findIdx? p).map (· + 1)
      from by simp [List.findIdx?_cons]]
    rw [if_pos hx]
  | cons y t ih =>
    have hy := h1 y (List.mem_cons_self y t)
    rw [List.cons_append]
    rw [show (y :: (t ++ x :: r)).findIdx? p =
        if p y then some 0 else ((t ++ x :: r).findIdx? p).map (· + 1)
      from by simp [List.findIdx?_cons]]
    rw [hy, if_neg (by simp : ¬ (false = true)),
      ih (fun e he => h1 e (List.mem_cons_of_mem y he))]
    rfl

theorem removeAt_append_length (l1 : List Edge) (x : Edge) (r : List Edge) :
    removeAt (l1 ++ x :: r) l1.length = l1 ++ r := by
  induction l1 with
  | nil => rfl
  | cons y t ih =>
    show removeAt (y :: (t ++ x :: r)) (t.length + 1) = y :: (t ++ r)
    rw [removeAt_succ, ih]

theorem removeAt_findIdx (l : List Edge) (p : Edge → Bool) (i : ℕ)
    (hf : l.findIdx? p = some i) : removeAt l i = eraseFirstP l p := by
  unfold eraseFirstP
  rw [hf]

/-! ### Counting adjacency entries -/

theorem countE_append (l1 l2 : List Edge) (b : String) (w : ℕ) :
    countE (l1 ++ l2) b w = countE l1 b w + countE l2 b w := by
  simp [countE, List.filter_append]

theorem countV_append (l1 l2 : List Edge) (b : String) :
    countV (l1 ++ l2) b = countV l1 b + countV l2 b := by
  simp [countV, List.filter_append]

theorem countE_cons (e : Edge) (t : List Edge) (b : String) (w : ℕ) :
    countE (e :: t) b w = (if e.vertex = b ∧ e.weight = w then 1 else 0) + countE t b w := by
  unfold countE
  rw [List.filter_cons]
  by_cases h : e.vertex = b ∧ e.weight = w
  · rw [if_pos h]
    rw [if_pos (by simp [h.1, h.2])]
    simp [Nat.add_comm]
  · rw [if_neg h]
    rw [if_neg (by
      intro hc
      simp only [Bool.and_eq_true, beq_iff_eq] at hc
      exact h hc)]
    simp

theorem countV_cons (e : Edge) (t : List Edge) (b : String) :
    countV (e :: t) b = (if e.vertex = b then 1 else 0) + countV t b := by
  unfold countV
  rw [List.filter_cons]
  by_cases h : e.vertex = b
  · rw [if_pos h, if_pos (by simp [h])]
    simp [Nat.add_comm]
  · rw [if_neg h, if_neg (by
      intro hc
      simp only [beq_iff_eq] at hc
      exact h hc)]
    simp

theorem countE_pos_iff (l : List Edge) (b : String) (w : ℕ) :
    0 < countE l b w ↔ (⟨b, w⟩ : Edge) ∈ l := by
  constructor
  · intro h
    obtain ⟨e, he⟩ := List.exists_mem_of_length_pos h
    obtain ⟨hel, hp⟩ := List.mem_filter.mp he
    obtain ⟨v', w'⟩ := e
    simp only [Bool.and_eq_true, beq_iff_eq] at hp
    obtain ⟨h1, h2⟩ := hp
    subst h1
    subst h2
    exact hel
  · intro h
    have hm : (⟨b, w⟩ : Edge) ∈ l.filter (fun e => e.vertex == b && e.weight == w) :=
      List.mem_filter.mpr ⟨h, by simp⟩
    exact List.length_pos.mpr (List.ne_nil_of_mem hm)

theorem countV_pos_iff (l : List Edge) (b : String) :
    0 < countV l b ↔ ∃ w, (⟨b, w⟩ : Edge) ∈ l := by
  constructor
  · intro h
    obtain ⟨e, he⟩ := List.exists_mem_of_length_pos h
    obtain ⟨hel, hp⟩ := List.mem_filter.mp he
    obtain ⟨v', w'⟩ := e
    simp only [beq_iff_eq] at hp
    subst hp
    exact ⟨w', hel⟩
  · rintro ⟨w, h⟩
    have hm : (⟨b, w⟩ : Edge) ∈ l.filter (fun e => e.vertex == b) :=
      List.mem_filter.mpr ⟨h, by simp⟩
    exact List.length_pos.mpr (List.ne_nil_of_mem hm)

theorem countE_le_countV (l : List Edge) (b : String) (w : ℕ) :
    countE l b w ≤ countV l b := by
  apply List.Sublist.length_le
  apply List.monotone_filter_right
  intro e he
  simp only [Bool.and_eq_true] at he
  exact he.1

theorem countE_erase_ne (l : List Edge) (v b : String) (w : ℕ) (h : b ≠ v) :
    countE (eraseFirstP l (fun e => e.vertex == v)) b w = countE l b w := by
  unfold countE
  rw [filter_eraseFirstP]
  intro e hp
  simp only [beq_iff_eq] at hp
  simp [hp, Ne.symm h]

theorem countV_erase_ne (l : List Edge) (v b : String) (h : b ≠ v) :
    countV (eraseFirstP l (fun e => e.vertex == v)) b = countV l b := by
  unfold countV
  rw [filter_eraseFirstP]
  intro e hp
  simp only [beq_iff_eq] at hp
  simp [hp, Ne.symm h]

theorem nodup_map_vertex_of_counts (L : List Edge) (h : ∀ u, countV L u ≤ 1) :
    (L.map (fun e => e.vertex)).Nodup := by
  induction L with
  | nil => exact List.nodup_nil
  | cons e t ih =>
    rw [List.map_cons]
    refine List.nodup_cons.mpr ⟨?_, ih ?_⟩
    · intro hmem
      obtain ⟨e2, he2, hv2⟩ := List.mem_map.mp hmem
      have h1 : 0 < countV t e.vertex := by
        rw [countV_pos_iff]
        obtain ⟨v2, w2⟩ := e2
        have hv2a : v2 = e.vertex := hv2
        subst hv2a
        exact ⟨w2, he2⟩
      have h2 := h e.vertex
      rw [countV_cons, if_pos rfl] at h2
      omega
    · intro u
      have h2 := h u
      rw [countV_cons] at h2
      omega

/-! ### Association-list lemmas for keys, deletion, and totals -/

theorem keys_mapUpdate (m : List (String × List Edge)) (k : String)
    (f : List Edge → List Edge) :
    (mapUpdate m k f).map (fun p => p.1) = m.map (fun p => p.1) := by
  induction m with
  | nil => rfl
  | cons hd tl ih =>
    obtain ⟨k1, v1⟩ := hd
    show ((if k1 = k then (k1, f v1) :: tl else (k1, v1) :: mapUpdate tl k f).map
      (fun p => p.1)) = _
    by_cases hk : k1 = k
    · rw [if_pos hk]
      rw [List.map_cons, List.map_cons]
    · rw [if_neg hk, List.map_cons, List.map_cons, ih]

theorem mapGet_none_iff (m : List (String × List Edge)) (k : String) :
    mapGet m k = none ↔ k ∉ m.map (fun p => p.1) := by
  induction m with
  | nil => simp [mapGet]
  | cons hd tl ih =>
    obtain ⟨k1, v1⟩ := hd
    simp only [mapGet, List.map_cons, List.mem_cons]
    by_cases hk : k1 = k
    · rw [if_pos hk]
      simp [hk]
    · rw [if_neg hk]
      rw [ih]
      constructor
      · intro h hmem
        rcases hmem with hmem | hmem
        · exact hk hmem.symm
        · exact h hmem
      · intro h hmem
        exact h (Or.inr hmem)

theorem mapSet_absent (m : List (String × List Edge)) (k : String) (v : List Edge)
    (h : mapGet m k = none) : mapSet m k v = m ++ [(k, v)] := by
  induction m with
  | nil => rfl
  | cons hd tl ih =>
    obtain ⟨k1, v1⟩ := hd
    simp only [mapGet] at h
    show (if k1 = k then (k, v) :: tl else (k1, v1) :: mapSet tl k v) = _
    by_cases hk : k1 = k
    · rw [if_pos hk] at h
      exact absurd h (by simp)
    · rw [if_neg hk] at h
      rw [if_neg hk, ih h]
      rfl

theorem mapGet_mapDelete_ne (m : List (String × List Edge)) (k u : String)
    (h : u ≠ k) : mapGet (mapDelete m k) u = mapGet m u := by
  induction m with
  | nil => rfl
  | cons hd tl ih =>
    obtain ⟨k1, v1⟩ := hd
    show mapGet (if k1 = k then tl else (k1, v1) :: mapDelete tl k) u = _
    by_cases hk : k1 = k
    · rw [if_pos hk]
      simp only [mapGet]
      rw [if_neg (fun he : k1 = u => h (he.symm.trans hk))]
    · rw [if_neg hk]
      simp only [mapGet]
      by_cases hk1 : k1 = u
      · rw [if_pos hk1, if_pos hk1]
      · rw [if_neg hk1, if_neg hk1, ih]

theorem keys_mapDelete (m : List (String × List Edge)) (k : String) :
    (mapDelete m k).map (fun p => p.1) = (m.map (fun p => p.1)).erase k := by
  induction m with
  | nil => rfl
  | cons hd tl ih =>
    obtain ⟨k1, v1⟩ := hd
    show (if k1 = k then tl else (k1, v1) :: mapDelete tl k).map (fun p => p.1) = _
    rw [List.map_cons, List.erase_cons]
    by_cases hk : k1 = k
    · rw [if_pos hk, if_pos (by simp [hk])]
    · rw [if_neg hk, if_neg (by simp [hk]), List.map_cons, ih]

theorem mapGet_mapDelete_self (m : List (String × List Edge)) (k : String)
    (hnd : (m.map (fun p => p.1)).Nodup) : mapGet (mapDelete m k) k = none := by
  induction m with
  | nil => rfl
  | cons hd tl ih =>
    obtain ⟨k1, v1⟩ := hd
    rw [List.map_cons, List.nodup_cons] at hnd
    show mapGet (if k1 = k then tl else (k1, v1) :: mapDelete tl k) k = none
    by_cases hk : k1 = k
    · rw [if_pos hk]
      rw [mapGet_none_iff]
      rw [← hk]
      exact hnd.1
    · rw [if_neg hk]
      simp only [mapGet]
      rw [if_neg hk, ih hnd.2]

theorem total_cons (k1 : String) (v1 : List Edge) (m : List (String × List Edge))
    (vs : List String) :
    totalAdjSize ⟨(k1, v1) :: m, vs⟩ = v1.length + totalAdjSize ⟨m, vs⟩ := by
  simp [totalAdjSize]

theorem total_append_entry (m : List (String × List Edge)) (vs : List String)
    (k : String) (v : List Edge) :
    totalAdjSize ⟨m ++ [(k, v)], vs⟩ = totalAdjSize ⟨m, vs⟩ + v.length := by
  simp [totalAdjSize]

theorem total_mapUpdate (m : List (String × List Edge)) (vs : List String)
    (k : String) (f : List Edge → List Edge) (l : List Edge)
    (h : mapGet m k = some l) :
    totalAdjSize ⟨mapUpdate m k f, vs⟩ + l.length =
      totalAdjSize ⟨m, vs⟩ + (f l).length := by
  induction m with
  | nil => cases h
  | cons hd tl ih =>
    obtain ⟨k1, v1⟩ := hd
    simp only [mapGet] at h
    show totalAdjSize ⟨if k1 = k then (k1, f v1) :: tl else (k1, v1) :: mapUpdate tl k f,
      vs⟩ + l.length = _
    by_cases hk : k1 = k
    · rw [if_pos hk] at h ⊢
      have hv : v1 = l := by injection h
      subst hv
      rw [total_cons, total_cons]
      omega
    · rw [if_neg hk] at h ⊢
      have := ih h
      rw [total_cons, total_cons]
      omega

theorem total_mapDelete (m : List (String × List Edge)) (vs : List String)
    (k : String) (l : List Edge) (h : mapGet m k = some l) :
    totalAdjSize ⟨mapDelete m k, vs⟩ + l.length = totalAdjSize ⟨m, vs⟩ := by
  induction m with
  | nil => cases h
  | cons hd tl ih =>
    obtain ⟨k1, v1⟩ := hd
    simp only [mapGet] at h
    show totalAdjSize ⟨if k1 = k then tl else (k1, v1) :: mapDelete tl k, vs⟩ +
      l.length = _
    by_cases hk : k1 = k
    · rw [if_pos hk] at h ⊢
      have hv : v1 = l := by injection h
      subst hv
      rw [total_cons]
      omega
    · rw [if_neg hk] at h ⊢
      have := ih h
      rw [total_cons, total_cons]
      omega

theorem adjOf_pair (m : List (String × List Edge)) (vs : List String) (u : String) :
    adjOf ⟨m, vs⟩ u = (mapGet m u).getD [] := rfl

theorem adjOf_update_present (m : List (String × List Edge)) (vs : List String)
    (k : String) (f : List Edge → List Edge) (l : List Edge)
    (h : mapGet m k = some l) : adjOf ⟨mapUpdate m k f, vs⟩ k = f l := by
  rw [adjOf_pair, mapGet_mapUpdate_self, h]
  rfl

theorem adjOf_update_ne (m : List (String × List Edge)) (vs : List String)
    (k u : String) (f : List Edge → List Edge) (h : u ≠ k) :
    adjOf ⟨mapUpdate m k f, vs⟩ u = adjOf ⟨m, vs⟩ u := by
  rw [adjOf_pair, mapGet_mapUpdate_ne _ _ _ _ h, adjOf_pair]

/-! ### The graph invariant: addVertex -/

theorem GInv_addVertex (g : Graph) (v : String) (hg : GInv g) : GInv (addVertex g v) := by
  unfold addVertex
  by_cases hc : g.vertices.contains v = true
  · rw [if_pos hc]
    exact hg
  · rw [if_neg hc]
    have hvmem : v ∉ g.vertices := fun hm => hc (List.elem_iff.mpr hm)
    have hkeys : v ∉ g.adjacencyList.map (fun p => p.1) := fun hm =>
      hvmem ((hg.keysIff v).mp hm)
    have hnone : mapGet g.adjacencyList v = none := (mapGet_none_iff _ v).mpr hkeys
    have hset : mapSet g.adjacencyList v [] = g.adjacencyList ++ [(v, [])] :=
      mapSet_absent _ v [] hnone
    have hadjv : adjOf ⟨mapSet g.adjacencyList v [], g.vertices ++ [v]⟩ v = [] := by
      rw [adjOf_pair, mapGet_mapSet_self]
      rfl
    have hadju : ∀ u, u ≠ v →
        adjOf ⟨mapSet g.adjacencyList v [], g.vertices ++ [v]⟩ u = adjOf g u := by
      intro u hu
      rw [adjOf_pair, mapGet_mapSet_ne _ _ _ _ hu]
      rfl
    have hnotarget : ∀ b, countE (adjOf g b) v 0 = 0 ∨ True := fun b => Or.inr trivial
    refine ⟨?_, ?_, ?_, ?_, ?_, ?_, ?_, ?_⟩
    · intro k
      show k ∈ (mapSet g.adjacencyList v []).map (fun p => p.1) ↔ k ∈ g.vertices ++ [v]
      rw [hset, List.map_append]
      simp only [List.mem_append]
      constructor
      · rintro (h | h)
        · exact Or.inl ((hg.keysIff k).mp h)
        · right
          simpa using h
      · rintro (h | h)
        · exact Or.inl ((hg.keysIff k).mpr h)
        · right
          simpa using h
    · show ((mapSet g.adjacencyList v []).map (fun p => p.1)).Nodup
      rw [hset, List.map_append, List.nodup_append]
      refine ⟨hg.keysNodup, by simp, ?_⟩
      intro a ha hb
      simp only [List.map_cons, List.map_nil, List.mem_singleton] at hb
      exact hkeys (hb ▸ ha)
    · show (g.vertices ++ [v]).Nodup
      rw [List.nodup_append]
      exact ⟨hg.vertsNodup, List.nodup_singleton _,
        fun a ha hb => hvmem ((List.mem_singleton.mp hb) ▸ ha)⟩
    · intro a e he
      by_cases hav : a = v
      · subst hav
        rw [hadjv] at he
        exact absurd he (List.not_mem_nil e)
      · rw [hadju a hav] at he
        exact List.mem_append_left _ (hg.targets a e he)
    · intro a b hab w
      have hzero : ∀ c, countE (adjOf g c) v w = 0 := by
        intro c
        by_contra hne
        have hpos : 0 < countE (adjOf g c) v w := Nat.pos_of_ne_zero hne
        have hmem := (countE_pos_iff _ _ _).mp hpos
        exact hvmem (hg.targets c _ hmem)
      by_cases hav : a = v
      · subst hav
        rw [hadjv, hadju b (Ne.symm hab), hzero b]
        simp [countE]
      · by_cases hbv : b = v
        · subst hbv
          rw [hadjv, hadju a hab, hzero a]
          simp [countE]
        · rw [hadju a hav, hadju b hbv]
          exact hg.symCount a b hab w
    · intro a b hab
      by_cases hav : a = v
      · subst hav
        rw [hadjv]
        simp [countV]
      · rw [hadju a hav]
        exact hg.simple a b hab
    · intro a
      by_cases hav : a = v
      · subst hav
        rw [hadjv]
        exact Or.inl (fun e he => absurd he (List.not_mem_nil e))
      · rw [hadju a hav]
        exact hg.selfOK a
    · show Even (totalAdjSize ⟨mapSet g.adjacencyList v [], g.vertices ++ [v]⟩)
      rw [hset, total_append_entry]
      simpa using hg.evenTotal

theorem countE_zero_of_no_vertex (l : List Edge) (b : String) (w : ℕ)
    (h : ∀ e ∈ l, e.vertex ≠ b) : countE l b w = 0 := by
  by_contra hne
  have hpos : 0 < countE l b w := Nat.pos_of_ne_zero hne
  have hmem := (countE_pos_iff _ _ _).mp hpos
  exact h _ hmem rfl

theorem countV_zero_of_no_vertex (l : List Edge) (b : String)
    (h : ∀ e ∈ l, e.vertex ≠ b) : countV l b = 0 := by
  by_contra hne
  have hpos : 0 < countV l b := Nat.pos_of_ne_zero hne
  obtain ⟨w, hmem⟩ := (countV_pos_iff _ _).mp hpos
  exact h _ hmem rfl

theorem countE_singleton_other (b c : String) (wE w2 : ℕ) (h : b ≠ c) :
    countE [⟨b, wE⟩] c w2 = 0 :=
  countE_zero_of_no_vertex _ _ _ (fun e he => by
    rw [List.mem_singleton] at he
    subst he
    exact h)

theorem countV_singleton_other (b c : String) (wE : ℕ) (h : b ≠ c) :
    countV [⟨b, wE⟩] c = 0 :=
  countV_zero_of_no_vertex _ _ (fun e he => by
    rw [List.mem_singleton] at he
    subst he
    exact h)

theorem countV_singleton_self (b : String) (wE : ℕ) : countV [⟨b, wE⟩] b = 1 := by
  simp [countV]

theorem selfOK_append (l : List Edge) (a : String) (e : Edge) (he : e.vertex ≠ a)
    (h : SelfOK l a) : SelfOK (l ++ [e]) a := by
  rcases h with h | ⟨p1, w, p2, heq, hp1, hp2⟩
  · left
    intro x hx
    rcases List.mem_append.mp hx with hx | hx
    · exact h x hx
    · rw [List.mem_singleton] at hx
      subst hx
      exact he
  · right
    refine ⟨p1, w, p2 ++ [e], ?_, hp1, ?_⟩
    · rw [heq]
      simp
    · intro x hx
      rcases List.mem_append.mp hx with hx | hx
      · exact hp2 x hx
      · rw [List.mem_singleton] at hx
        subst hx
        exact he

/-! ### The graph invariant: addEdge -/

theorem GInv_addEdge (g : Graph) (a b : String) (w : ℕ) (hg : GInv g) :
    GInv (addEdge g a b w) := by
  have hg1 : GInv (addVertex (addVertex g a) b) := GInv_addVertex _ b (GInv_addVertex g a hg)
  have hav : a ∈ (addVertex (addVertex g a) b).vertices :=
    mem_vertices_addVertex_mono _ b a (mem_vertices_addVertex g a)
  have hbv : b ∈ (addVertex (addVertex g a) b).vertices := mem_vertices_addVertex _ b
  simp only [addEdge]
  set g1 := addVertex (addVertex g a) b with hg1def
  rcases hf : (adjOf g1 a).find? (fun edge => edge.vertex == b) with _ | e0
  case some => rw [hf]; exact hg1
  rw [hf]
  show GInv ⟨mapUpdate (mapUpdate g1.adjacencyList a (fun l => l ++ [⟨b, w⟩])) b
    (fun l => l ++ [⟨a, w⟩]), g1.vertices⟩
  have hnobv : ∀ e ∈ adjOf g1 a, e.vertex ≠ b := by
    intro e he heq
    have hn := List.find?_eq_none.mp hf e he
    rw [heq] at hn
    simp at hn
  obtain ⟨la, hla⟩ : ∃ la, mapGet g1.adjacencyList a = some la := by
    have hmem : a ∈ g1.adjacencyList.map (fun p => p.1) := (hg1.keysIff a).mpr hav
    rcases hm : mapGet g1.adjacencyList a with _ | l
    · exact absurd hmem ((mapGet_none_iff _ a).mp hm)
    · exact ⟨l, rfl⟩
  obtain ⟨lb, hlb⟩ : ∃ lb, mapGet g1.adjacencyList b = some lb := by
    have hmem : b ∈ g1.adjacencyList.map (fun p => p.1) := (hg1.keysIff b).mpr hbv
    rcases hm : mapGet g1.adjacencyList b with _ | l
    · exact absurd hmem ((mapGet_none_iff _ b).mp hm)
    · exact ⟨l, rfl⟩
  have hadja : adjOf g1 a = la := by
    show (mapGet g1.adjacencyList a).getD [] = la
    rw [hla]
    rfl
  have h0a : ∀ w2, countE (adjOf g1 a) b w2 = 0 := fun w2 =>
    countE_zero_of_no_vertex _ _ _ hnobv
  have hv0a : countV (adjOf g1 a) b = 0 := countV_zero_of_no_vertex _ _ hnobv
  by_cases hab : a = b
  · subst hab
    have hAa : adjOf ⟨mapUpdate (mapUpdate g1.adjacencyList a (fun l => l ++ [⟨a, w⟩])) a
        (fun l => l ++ [⟨a, w⟩]), g1.vertices⟩ a =
        (adjOf g1 a ++ [⟨a, w⟩]) ++ [⟨a, w⟩] := by
      rw [adjOf_pair, mapGet_mapUpdate_self, mapGet_mapUpdate_self, hla, hadja]
      rfl
    have hU : ∀ u, u ≠ a →
        adjOf ⟨mapUpdate (mapUpdate g1.adjacencyList a (fun l => l ++ [⟨a, w⟩])) a
          (fun l => l ++ [⟨a, w⟩]), g1.vertices⟩ u = adjOf g1 u := by
      intro u hu
      rw [adjOf_pair, mapGet_mapUpdate_ne _ _ _ _ hu, mapGet_mapUpdate_ne _ _ _ _ hu]
      rfl
    refine ⟨?_, ?_, hg1.vertsNodup, ?_, ?_, ?_, ?_, ?_⟩
    · intro k
      show k ∈ (mapUpdate (mapUpdate g1.adjacencyList a (fun l => l ++ [⟨a, w⟩])) a
        (fun l => l ++ [⟨a, w⟩])).map (fun p => p.1) ↔ k ∈ g1.vertices
      rw [keys_mapUpdate, keys_mapUpdate]
      exact hg1.keysIff k
    · show ((mapUpdate (mapUpdate g1.adjacencyList a (fun l => l ++ [⟨a, w⟩])) a
        (fun l => l ++ [⟨a, w⟩])).map (fun p => p.1)).Nodup
      rw [keys_mapUpdate, keys_mapUpdate]
      exact hg1.keysNodup
    · intro x e he
      by_cases hxa : x = a
      · subst hxa
        rw [hAa] at he
        rcases List.mem_append.mp he with he | he
        · rcases List.mem_append.mp he with he | he
          · exact hg1.targets x e he
          · rw [List.mem_singleton] at he
            subst he
            exact hav
        · rw [List.mem_singleton] at he
          subst he
          exact hav
      · rw [hU x hxa] at he
        exact hg1.targets x e he
    · intro x y hxy w2
      by_cases hxa : x = a
      · subst hxa
        have hya : y ≠ x := Ne.symm hxy
        rw [hAa, hU y hya, countE_append, countE_append,
          countE_singleton_other x y w w2 hxy]
        simpa using hg1.symCount x y hxy w2
      · by_cases hya : y = a
        · subst hya
          rw [hAa, hU x hxa, countE_append, countE_append,
            countE_singleton_other y x w w2 (Ne.symm hxy)]
          simpa using hg1.symCount x y hxy w2
        · rw [hU x hxa, hU y hya]
          exact hg1.symCount x y hxy w2
    · intro x y hxy
      by_cases hxa : x = a
      · subst hxa
        rw [hAa, countV_append, countV_append,
          countV_singleton_other x y w hxy]
        simpa using hg1.simple x y hxy
      · rw [hU x hxa]
        exact hg1.simple x y hxy
    · intro x
      by_cases hxa : x = a
      · subst hxa
        rw [hAa]
        right
        refine ⟨adjOf g1 x, w, [], by simp, hnobv, ?_⟩
        intro e he
        exact absurd he (List.not_mem_nil e)
      · rw [hU x hxa]
        exact hg1.selfOK x
    · have hm1 : mapGet (mapUpdate g1.adjacencyList a (fun l => l ++ [⟨a, w⟩])) a =
          some (la ++ [⟨a, w⟩]) := by
        rw [mapGet_mapUpdate_self, hla]
        rfl
      have ht1 := total_mapUpdate g1.adjacencyList g1.vertices a
        (fun l => l ++ [⟨a, w⟩]) la hla
      have ht2 := total_mapUpdate (mapUpdate g1.adjacencyList a (fun l => l ++ [⟨a, w⟩]))
        g1.vertices a (fun l => l ++ [⟨a, w⟩]) (la ++ [⟨a, w⟩]) hm1
      simp only [List.length_append, List.length_singleton] at ht1 ht2
      obtain ⟨n, hn⟩ := hg1.evenTotal
      have hsame : totalAdjSize ⟨g1.adjacencyList, g1.vertices⟩ = totalAdjSize g1 := rfl
      refine ⟨n + 1, ?_⟩
      rw [hsame] at ht1
      omega
  · have hAa : adjOf ⟨mapUpdate (mapUpdate g1.adjacencyList a (fun l => l ++ [⟨b, w⟩])) b
        (fun l => l ++ [⟨a, w⟩]), g1.vertices⟩ a = adjOf g1 a ++ [⟨b, w⟩] := by
      rw [adjOf_pair, mapGet_mapUpdate_ne _ _ _ _ hab, mapGet_mapUpdate_self, hla, hadja]
      rfl
    have hAb : adjOf ⟨mapUpdate (mapUpdate g1.adjacencyList a (fun l => l ++ [⟨b, w⟩])) b
        (fun l => l ++ [⟨a, w⟩]), g1.vertices⟩ b = adjOf g1 b ++ [⟨a, w⟩] := by
      have hadjb : adjOf g1 b = lb := by
        show (mapGet g1.adjacencyList b).getD [] = lb
        rw [hlb]
        rfl
      rw [adjOf_pair, mapGet_mapUpdate_self, mapGet_mapUpdate_ne _ _ _ _ (Ne.symm hab),
        hlb, hadjb]
      rfl
    have hU : ∀ u, u ≠ a → u ≠ b →
        adjOf ⟨mapUpdate (mapUpdate g1.adjacencyList a (fun l => l ++ [⟨b, w⟩])) b
          (fun l => l ++ [⟨a, w⟩]), g1.vertices⟩ u = adjOf g1 u := by
      intro u hua hub
      rw [adjOf_pair, mapGet_mapUpdate_ne _ _ _ _ hub, mapGet_mapUpdate_ne _ _ _ _ hua]
      rfl
    have h0b : ∀ w2, countE (adjOf g1 b) a w2 = 0 := fun w2 =>
      (hg1.symCount b a (Ne.symm hab) w2).trans (h0a w2)
    have hv0b : countV (adjOf g1 b) a = 0 := by
      by_contra hne
      have hpos : 0 < countV (adjOf g1 b) a := Nat.pos_of_ne_zero hne
      obtain ⟨w2, hm⟩ := (countV_pos_iff _ _).mp hpos
      have hp := (countE_pos_iff _ _ _).mpr hm
      rw [h0b w2] at hp
      exact absurd hp (lt_irrefl 0)
    refine ⟨?_, ?_, hg1.vertsNodup, ?_, ?_, ?_, ?_, ?_⟩
    · intro k
      show k ∈ (mapUpdate (mapUpdate g1.adjacencyList a (fun l => l ++ [⟨b, w⟩])) b
        (fun l => l ++ [⟨a, w⟩])).map (fun p => p.1) ↔ k ∈ g1.vertices
      rw [keys_mapUpdate, keys_mapUpdate]
      exact hg1.keysIff k
    · show ((mapUpdate (mapUpdate g1.adjacencyList a (fun l => l ++ [⟨b, w⟩])) b
        (fun l => l ++ [⟨a, w⟩])).map (fun p => p.1)).Nodup
      rw [keys_mapUpdate, keys_mapUpdate]
      exact hg1.keysNodup
    · intro x e he
      by_cases hxa : x = a
      · subst hxa
        rw [hAa] at he
        rcases List.mem_append.mp he with he | he
        · exact hg1.targets x e he
        · rw [List.mem_singleton] at he
          subst he
          exact hbv
      · by_cases hxb : x = b
        · subst hxb
          rw [hAb] at he
          rcases List.mem_append.mp he with he | he
          · exact hg1.targets x e he
          · rw [List.mem_singleton] at he
            subst he
            exact hav
        · rw [hU x hxa hxb] at he
          exact hg1.targets x e he
    · intro x y hxy w2
      by_cases hxa : x = a
      · subst hxa
        by_cases hyb : y = b
        · subst hyb
          rw [hAa, hAb, countE_append, countE_append, h0a w2, h0b w2]
          by_cases hww : w = w2 <;> simp [countE, hww]
        · rw [hAa, hU y (Ne.symm hxy) hyb, countE_append,
            countE_singleton_other b y w w2 (Ne.symm hyb), Nat.add_zero]
          exact hg1.symCount x y hxy w2
      · by_cases hxb : x = b
        · subst hxb
          by_cases hya : y = a
          · subst hya
            rw [hAb, hAa, countE_append, countE_append, h0b w2, h0a w2]
            by_cases hww : w = w2 <;> simp [countE, hww]
          · rw [hAb, hU y hya (Ne.symm hxy), countE_append,
              countE_singleton_other a y w w2 (Ne.symm hya), Nat.add_zero]
            exact hg1.symCount x y hxy w2
        · by_cases hya : y = a
          · subst hya
            rw [hU x hxa hxb, hAa, countE_append,
              countE_singleton_other b x w w2 (Ne.symm hxb), Nat.add_zero]
            exact hg1.symCount x y hxy w2
          · by_cases hyb : y = b
            · subst hyb
              rw [hU x hxa hxb, hAb, countE_append,
                countE_singleton_other a x w w2 (Ne.symm hxa), Nat.add_zero]
              exact hg1.symCount x y hxy w2
            · rw [hU x hxa hxb, hU y hya hyb]
              exact hg1.symCount x y hxy w2
    · intro x y hxy
      by_cases hxa : x = a
      · subst hxa
        by_cases hyb : y = b
        · subst hyb
          rw [hAa, countV_append, hv0a, countV_singleton_self]
        · rw [hAa, countV_append, countV_singleton_other b y w (Ne.symm hyb), Nat.add_zero]
          exact hg1.simple x y hxy
      · by_cases hxb : x = b
        · subst hxb
          by_cases hya : y = a
          · subst hya
            rw [hAb, countV_append, hv0b, countV_singleton_self]
          · rw [hAb, countV_append, countV_singleton_other a y w (Ne.symm hya), Nat.add_zero]
            exact hg1.simple x y hxy
        · rw [hU x hxa hxb]
          exact hg1.simple x y hxy
    · intro x
      by_cases hxa : x = a
      · subst hxa
        rw [hAa]
        exact selfOK_append _ _ _ (Ne.symm hab) (hg1.selfOK x)
      · by_cases hxb : x = b
        · subst hxb
          rw [hAb]
          exact selfOK_append _ _ _ hab (hg1.selfOK x)
        · rw [hU x hxa hxb]
          exact hg1.selfOK x
    · have hm1 : mapGet (mapUpdate g1.adjacencyList a (fun l => l ++ [⟨b, w⟩])) b =
          some lb := by
        rw [mapGet_mapUpdate_ne _ _ _ _ (Ne.symm hab), hlb]
      have ht1 := total_mapUpdate g1.adjacencyList g1.vertices a
        (fun l => l ++ [⟨b, w⟩]) la hla
      have ht2 := total_mapUpdate (mapUpdate g1.adjacencyList a (fun l => l ++ [⟨b, w⟩]))
        g1.vertices b (fun l => l ++ [⟨a, w⟩]) lb hm1
      simp only [List.length_append, List.length_singleton] at ht1 ht2
      obtain ⟨n, hn⟩ := hg1.evenTotal
      have hsame : totalAdjSize ⟨g1.adjacencyList, g1.vertices⟩ = totalAdjSize g1 := rfl
      refine ⟨n + 1, ?_⟩
      rw [hsame] at ht1
      omega

theorem selfOK_erase (l : List Edge) (a : String) (p : Edge → Bool)
    (hp : ∀ e, e.vertex = a → p e = false) (h : SelfOK l a) :
    SelfOK (eraseFirstP l p) a := by
  rcases h with h | ⟨p1, w, p2, heq, hp1, hp2⟩
  · left
    intro e he
    exact h e ((eraseFirstP_sublist l p).subset he)
  · subst heq
    rcases eraseFirstP_block p1 ⟨a, w⟩ p2 p (hp _ rfl) with h2 | h2
    · rw [h2]
      right
      exact ⟨eraseFirstP p1 p, w, p2, rfl,
        fun e he => hp1 e ((eraseFirstP_sublist p1 p).subset he), hp2⟩
    · rw [h2]
      right
      exact ⟨p1, w, eraseFirstP p2 p, rfl, hp1,
        fun e he => hp2 e ((eraseFirstP_sublist p2 p).subset he)⟩

theorem countE_middle (p1 p2 : List Edge) (s : Edge) (y : String) (w2 : ℕ)
    (hs : s.vertex ≠ y) :
    countE (p1 ++ s :: s :: p2) y w2 = countE (p1 ++ p2) y w2 := by
  rw [countE_append, countE_append, countE_cons, countE_cons,
    if_neg (fun hc : s.vertex = y ∧ s.weight = w2 => hs hc.1)]
  omega

theorem countV_middle (p1 p2 : List Edge) (s : Edge) (y : String)
    (hs : s.vertex ≠ y) :
    countV (p1 ++ s :: s :: p2) y = countV (p1 ++ p2) y := by
  rw [countV_append, countV_append, countV_cons, countV_cons, if_neg hs]
  omega

/-! ### The graph invariant: removeEdge -/

theorem GInv_removeEdge (g : Graph) (a b : String) (hg : GInv g) :
    GInv (removeEdge g a b) := by
  by_cases hhe : hasEdge g a b = true
  case neg =>
    unfold removeEdge
    rw [if_neg hhe]
    exact hg
  simp only [removeEdge]
  rw [if_pos hhe]
  have hva : a ∈ g.vertices := (hasVertex_iff g a).mp (hasEdge_hasVertex_left g a b hhe)
  have hvb : b ∈ g.vertices := (hasVertex_iff g b).mp (hasEdge_hasVertex_right g a b hhe)
  obtain ⟨la, hla⟩ : ∃ la, mapGet g.adjacencyList a = some la := by
    have hmem : a ∈ g.adjacencyList.map (fun p => p.1) := (hg.keysIff a).mpr hva
    rcases hm : mapGet g.adjacencyList a with _ | l
    · exact absurd hmem ((mapGet_none_iff _ a).mp hm)
    · exact ⟨l, rfl⟩
  have hadja : adjOf g a = la := by
    show (mapGet g.adjacencyList a).getD [] = la
    rw [hla]
    rfl
  obtain ⟨e1, he1, hev1⟩ := hasEdge_exists g a b hhe
  obtain ⟨v1, w0⟩ := e1
  have hv1 : b = v1 := hev1.symm
  subst hv1
  by_cases hab : a = b
  · subst hab
    rcases hg.selfOK a with hno | ⟨p1, w1, p2, heq, hp1, hp2⟩
    · exact absurd rfl (hno _ he1)
    have hfi : (adjOf g a).findIdx? (fun edge => edge.vertex == a) = some p1.length := by
      rw [heq]
      exact findIdx?_append_match p1 ⟨a, w1⟩ (⟨a, w1⟩ :: p2) _
        (fun e he => by
          rw [Bool.eq_false_iff]
          intro hc
          exact hp1 e he (by simpa using hc)) (by simp)
    rw [hfi]
    show GInv ⟨mapUpdate (mapUpdate g.adjacencyList a (fun l => removeAt l p1.length)) a
      (fun l => removeAt l p1.length), g.vertices⟩
    have hla2 : la = p1 ++ ⟨a, w1⟩ :: ⟨a, w1⟩ :: p2 := by
      rw [← hadja]
      exact heq
    have hrem1 : removeAt la p1.length = p1 ++ ⟨a, w1⟩ :: p2 := by
      rw [hla2]
      exact removeAt_append_length p1 _ _
    have hm1 : mapGet (mapUpdate g.adjacencyList a (fun l => removeAt l p1.length)) a =
        some (p1 ++ ⟨a, w1⟩ :: p2) := by
      rw [mapGet_mapUpdate_self, hla]
      simp only [Option.map_some']
      rw [hrem1]
    have hA : adjOf ⟨mapUpdate (mapUpdate g.adjacencyList a
        (fun l => removeAt l p1.length)) a (fun l => removeAt l p1.length),
        g.vertices⟩ a = p1 ++ p2 := by
      rw [adjOf_pair, mapGet_mapUpdate_self, hm1]
      simp only [Option.map_some', Option.getD_some]
      exact removeAt_append_length p1 _ _
    have hU : ∀ u, u ≠ a → adjOf ⟨mapUpdate (mapUpdate g.adjacencyList a
        (fun l => removeAt l p1.length)) a (fun l => removeAt l p1.length),
        g.vertices⟩ u = adjOf g u := by
      intro u hu
      rw [adjOf_pair, mapGet_mapUpdate_ne _ _ _ _ hu, mapGet_mapUpdate_ne _ _ _ _ hu]
      rfl
    have hsub : p1 ++ p2 ⊆ adjOf g a := by
      rw [heq]
      intro e he
      rcases List.mem_append.mp he with he | he
      · exact List.mem_append_left _ he
      · exact List.mem_append_right _ (List.mem_cons_of_mem _ (List.mem_cons_of_mem _ he))
    refine ⟨?_, ?_, hg.vertsNodup, ?_, ?_, ?_, ?_, ?_⟩
    · intro k
      show k ∈ (mapUpdate (mapUpdate g.adjacencyList a (fun l => removeAt l p1.length)) a
        (fun l => removeAt l p1.length)).map (fun p => p.1) ↔ k ∈ g.vertices
      rw [keys_mapUpdate, keys_mapUpdate]
      exact hg.keysIff k
    · show ((mapUpdate (mapUpdate g.adjacencyList a (fun l => removeAt l p1.length)) a
        (fun l => removeAt l p1.length)).map (fun p => p.1)).Nodup
      rw [keys_mapUpdate, keys_mapUpdate]
      exact hg.keysNodup
    · intro x e he
      by_cases hxa : x = a
      · subst hxa
        rw [hA] at he
        exact hg.targets x e (hsub he)
      · rw [hU x hxa] at he
        exact hg.targets x e he
    · intro x y hxy w2
      by_cases hxa : x = a
      · subst hxa
        rw [hA, hU y (Ne.symm hxy)]
        have hmid : countE (adjOf g x) y w2 = countE (p1 ++ p2) y w2 := by
          rw [heq]
          exact countE_middle p1 p2 ⟨x, w1⟩ y w2 hxy
        rw [← hmid]
        exact hg.symCount x y hxy w2
      · by_cases hya : y = a
        · subst hya
          rw [hU x hxa, hA]
          have hmid : countE (adjOf g y) x w2 = countE (p1 ++ p2) x w2 := by
            rw [heq]
            exact countE_middle p1 p2 ⟨y, w1⟩ x w2 (Ne.symm hxy)
          rw [← hmid]
          exact hg.symCount x y hxy w2
        · rw [hU x hxa, hU y hya]
          exact hg.symCount x y hxy w2
    · intro x y hxy
      by_cases hxa : x = a
      · subst hxa
        rw [hA]
        have hmid : countV (adjOf g x) y = countV (p1 ++ p2) y := by
          rw [heq]
          exact countV_middle p1 p2 ⟨x, w1⟩ y hxy
        rw [← hmid]
        exact hg.simple x y hxy
      · rw [hU x hxa]
        exact hg.simple x y hxy
    · intro x
      by_cases hxa : x = a
      · subst hxa
        rw [hA]
        left
        intro e he
        rcases List.mem_append.mp he with he | he
        · exact hp1 e he
        · exact hp2 e he
      · rw [hU x hxa]
        exact hg.selfOK x
    · have ht1 := total_mapUpdate g.adjacencyList g.vertices a
        (fun l => removeAt l p1.length) la hla
      have ht2 := total_mapUpdate (mapUpdate g.adjacencyList a
        (fun l => removeAt l p1.length)) g.vertices a
        (fun l => removeAt l p1.length) (p1 ++ ⟨a, w1⟩ :: p2) hm1
      have hlen1 : (removeAt la p1.length).length = p1.length + 1 + p2.length := by
        rw [hrem1]
        simp only [List.length_append, List.length_cons]
        omega
      have hlen0 : la.length = p1.length + 2 + p2.length := by
        rw [hla2]
        simp
        omega
      have hlen2 : (removeAt (p1 ++ ⟨a, w1⟩ :: p2) p1.length).length =
          p1.length + p2.length := by
        rw [removeAt_append_length p1 _ _]
        simp
      rw [hlen1, hlen0] at ht1
      rw [hlen2] at ht2
      simp only [List.length_append, List.length_cons] at ht2
      obtain ⟨n, hn⟩ := hg.evenTotal
      have hsame : totalAdjSize ⟨g.adjacencyList, g.vertices⟩ = totalAdjSize g := rfl
      rw [hsame] at ht1
      refine ⟨n - 1, ?_⟩
      omega
  · obtain ⟨lb, hlb⟩ : ∃ lb, mapGet g.adjacencyList b = some lb := by
      have hmem : b ∈ g.adjacencyList.map (fun p => p.1) := (hg.keysIff b).mpr hvb
      rcases hm : mapGet g.adjacencyList b with _ | l
      · exact absurd hmem ((mapGet_none_iff _ b).mp hm)
      · exact ⟨l, rfl⟩
    have hadjb : adjOf g b = lb := by
      show (mapGet g.adjacencyList b).getD [] = lb
      rw [hlb]
      rfl
    rw [hadja] at he1
    rcases eraseFirstP_eq la (fun e => e.vertex == b) with ⟨_, hall⟩ |
      ⟨q1, x, q2, hleq, hpx, hq1, herasea⟩
    · have := hall _ he1
      simp at this
    obtain ⟨xv, wx⟩ := x
    have hxv0 : xv = b := by simpa using hpx
    rw [hxv0] at hleq
    have hq2 : countV q1 b = 0 ∧ countV q2 b = 0 := by
      have hs := hg.simple a b hab
      rw [hadja, hleq, countV_append, countV_cons, if_pos rfl] at hs
      omega
    have hcla : ∀ w2, countE la b w2 = (if wx = w2 then 1 else 0) := by
      intro w2
      rw [hleq, countE_append, countE_cons]
      have hc1 : countE q1 b w2 = 0 :=
        Nat.le_zero.mp (hq2.1 ▸ countE_le_countV q1 b w2)
      have hc2 : countE q2 b w2 = 0 :=
        Nat.le_zero.mp (hq2.2 ▸ countE_le_countV q2 b w2)
      rw [hc1, hc2]
      by_cases hww : wx = w2
      · rw [if_pos ⟨rfl, hww⟩, if_pos hww]
      · rw [if_neg (fun hc => hww hc.2), if_neg hww]
    rcases eraseFirstP_eq lb (fun e => e.vertex == a) with ⟨_, hallb⟩ |
      ⟨r1, y, r2, hreq, hpy, hr1, heraseb⟩
    · exfalso
      have hpos : 0 < countE la b wx := by
        rw [hcla wx, if_pos rfl]
        omega
      have hpos2 : 0 < countE lb a wx := by
        have hsym := hg.symCount a b hab wx
        rw [hadja, hadjb] at hsym
        omega
      have hmem := (countE_pos_iff _ _ _).mp hpos2
      have := hallb _ hmem
      simp at this
    obtain ⟨yv, wy⟩ := y
    have hyv0 : yv = a := by simpa using hpy
    rw [hyv0] at hreq
    have hr2 : countV r1 a = 0 ∧ countV r2 a = 0 := by
      have hs := hg.simple b a (Ne.symm hab)
      rw [hadjb, hreq, countV_append, countV_cons, if_pos rfl] at hs
      omega
    have hclb : ∀ w2, countE lb a w2 = (if wy = w2 then 1 else 0) := by
      intro w2
      rw [hreq, countE_append, countE_cons]
      have hc1 : countE r1 a w2 = 0 :=
        Nat.le_zero.mp (hr2.1 ▸ countE_le_countV r1 a w2)
      have hc2 : countE r2 a w2 = 0 :=
        Nat.le_zero.mp (hr2.2 ▸ countE_le_countV r2 a w2)
      rw [hc1, hc2]
      by_cases hww : wy = w2
      · rw [if_pos ⟨rfl, hww⟩, if_pos hww]
      · rw [if_neg (fun hc => hww hc.2), if_neg hww]
    have hwyx : wy = wx := by
      have hsym := hg.symCount a b hab wx
      rw [hadja, hadjb, hcla wx, hclb wx, if_pos rfl] at hsym
      by_cases hc : wy = wx
      · exact hc
      · rw [if_neg hc] at hsym
        omega
    subst hwyx
    rcases hfi1 : (adjOf g a).findIdx? (fun edge => edge.vertex == b) with _ | i1
    · exfalso
      rw [hadja] at hfi1
      have := List.findIdx?_eq_none_iff.mp hfi1 _ he1
      simp at this
    rcases hfi2 : (adjOf g b).findIdx? (fun edge => edge.vertex == a) with _ | i2
    · exfalso
      rw [hadjb] at hfi2
      have hmem : (⟨a, wy⟩ : Edge) ∈ lb := by
        rw [hreq]
        exact List.mem_append_right _ (List.mem_cons_self _ _)
      have := List.findIdx?_eq_none_iff.mp hfi2 _ hmem
      simp at this
    rw [hfi1, hfi2]
    show GInv ⟨mapUpdate (mapUpdate g.adjacencyList a (fun l => removeAt l i1)) b
      (fun l => removeAt l i2), g.vertices⟩
    rw [hadja] at hfi1
    rw [hadjb] at hfi2
    have her1 : removeAt la i1 = q1 ++ q2 := by
      rw [removeAt_findIdx la _ i1 hfi1]
      exact herasea
    have her2 : removeAt lb i2 = r1 ++ r2 := by
      rw [removeAt_findIdx lb _ i2 hfi2]
      exact heraseb
    have hm1 : mapGet (mapUpdate g.adjacencyList a (fun l => removeAt l i1)) b =
        some lb := by
      rw [mapGet_mapUpdate_ne _ _ _ _ (Ne.symm hab), hlb]
    have hA : adjOf ⟨mapUpdate (mapUpdate g.adjacencyList a (fun l => removeAt l i1)) b
        (fun l => removeAt l i2), g.vertices⟩ a = q1 ++ q2 := by
      rw [adjOf_pair, mapGet_mapUpdate_ne _ _ _ _ hab, mapGet_mapUpdate_self, hla]
      simp only [Option.map_some', Option.getD_some]
      exact her1
    have hB : adjOf ⟨mapUpdate (mapUpdate g.adjacencyList a (fun l => removeAt l i1)) b
        (fun l => removeAt l i2), g.vertices⟩ b = r1 ++ r2 := by
      rw [adjOf_pair, mapGet_mapUpdate_self, hm1]
      simp only [Option.map_some', Option.getD_some]
      exact her2
    have hU : ∀ u, u ≠ a → u ≠ b →
        adjOf ⟨mapUpdate (mapUpdate g.adjacencyList a (fun l => removeAt l i1)) b
          (fun l => removeAt l i2), g.vertices⟩ u = adjOf g u := by
      intro u hua hub
      rw [adjOf_pair, mapGet_mapUpdate_ne _ _ _ _ hub, mapGet_mapUpdate_ne _ _ _ _ hua]
      rfl
    have herq : q1 ++ q2 = eraseFirstP la (fun e => e.vertex == b) := herasea.symm
    have herr : r1 ++ r2 = eraseFirstP lb (fun e => e.vertex == a) := heraseb.symm
    have hsubq : q1 ++ q2 ⊆ la := by
      rw [herq]
      exact (eraseFirstP_sublist _ _).subset
    have hsubr : r1 ++ r2 ⊆ lb := by
      rw [herr]
      exact (eraseFirstP_sublist _ _).subset
    have hq0 : ∀ w2, countE (q1 ++ q2) b w2 = 0 := by
      intro w2
      rw [countE_append]
      have hc1 : countE q1 b w2 = 0 :=
        Nat.le_zero.mp (hq2.1 ▸ countE_le_countV q1 b w2)
      have hc2 : countE q2 b w2 = 0 :=
        Nat.le_zero.mp (hq2.2 ▸ countE_le_countV q2 b w2)
      omega
    have hr0 : ∀ w2, countE (r1 ++ r2) a w2 = 0 := by
      intro w2
      rw [countE_append]
      have hc1 : countE r1 a w2 = 0 :=
        Nat.le_zero.mp (hr2.1 ▸ countE_le_countV r1 a w2)
      have hc2 : countE r2 a w2 = 0 :=
        Nat.le_zero.mp (hr2.2 ▸ countE_le_countV r2 a w2)
      omega
    refine ⟨?_, ?_, hg.vertsNodup, ?_, ?_, ?_, ?_, ?_⟩
    · intro k
      show k ∈ (mapUpdate (mapUpdate g.adjacencyList a (fun l => removeAt l i1)) b
        (fun l => removeAt l i2)).map (fun p => p.1) ↔ k ∈ g.vertices
      rw [keys_mapUpdate, keys_mapUpdate]
      exact hg.keysIff k
    · show ((mapUpdate (mapUpdate g.adjacencyList a (fun l => removeAt l i1)) b
        (fun l => removeAt l i2)).map (fun p => p.1)).Nodup
      rw [keys_mapUpdate, keys_mapUpdate]
      exact hg.keysNodup
    · intro x e he
      by_cases hxa : x = a
      · subst hxa
        rw [hA] at he
        exact hg.targets x e (hadja ▸ hsubq he)
      · by_cases hxb : x = b
        · subst hxb
          rw [hB] at he
          exact hg.targets x e (hadjb ▸ hsubr he)
        · rw [hU x hxa hxb] at he
          exact hg.targets x e he
    · intro x y hxy w2
      by_cases hxa : x = a
      · subst hxa
        by_cases hyb : y = b
        · subst hyb
          rw [hA, hB, hq0 w2, hr0 w2]
        · rw [hA, hU y (Ne.symm hxy) hyb, herq, countE_erase_ne la b y w2 hyb, ← hadja]
          exact hg.symCount x y hxy w2
      · by_cases hxb : x = b
        · subst hxb
          by_cases hya : y = a
          · subst hya
            rw [hB, hA, hr0 w2, hq0 w2]
          · rw [hB, hU y hya (Ne.symm hxy), herr, countE_erase_ne lb a y w2 hya, ← hadjb]
            exact hg.symCount x y hxy w2
        · by_cases hya : y = a
          · subst hya
            rw [hU x hxa hxb, hA, herq, countE_erase_ne la b x w2 hxb, ← hadja]
            exact hg.symCount x y hxy w2
          · by_cases hyb : y = b
            · subst hyb
              rw [hU x hxa hxb, hB, herr, countE_erase_ne lb a x w2 hxa, ← hadjb]
              exact hg.symCount x y hxy w2
            · rw [hU x hxa hxb, hU y hya hyb]
              exact hg.symCount x y hxy w2
    · intro x y hxy
      by_cases hxa : x = a
      · subst hxa
        by_cases hyb : y = b
        · subst hyb
          rw [hA]
          rw [countV_append]
          omega
        · rw [hA, herq, countV_erase_ne la b y hyb, ← hadja]
          exact hg.simple x y hxy
      · by_cases hxb : x = b
        · subst hxb
          by_cases hya : y = a
          · subst hya
            rw [hB, countV_append]
            omega
          · rw [hB, herr, countV_erase_ne lb a y hya, ← hadjb]
            exact hg.simple x y hxy
        · rw [hU x hxa hxb]
          exact hg.simple x y hxy
    · intro x
      by_cases hxa : x = a
      · subst hxa
        rw [hA, herq]
        refine selfOK_erase la x _ ?_ ?_
        · intro e hev
          rw [hev]
          rw [Bool.eq_false_iff]
          intro hc
          exact hab (by simpa using hc)
        · rw [← hadja]
          exact hg.selfOK x
      · by_cases hxb : x = b
        · subst hxb
          rw [hB, herr]
          refine selfOK_erase lb x _ ?_ ?_
          · intro e hev
            rw [hev]
            rw [Bool.eq_false_iff]
            intro hc
            have hba : x = a := by simpa using hc
            exact hab hba.symm
          · rw [← hadjb]
            exact hg.selfOK x
        · rw [hU x hxa hxb]
          exact hg.selfOK x
    · have ht1 := total_mapUpdate g.adjacencyList g.vertices a
        (fun l => removeAt l i1) la hla
      have ht2 := total_mapUpdate (mapUpdate g.adjacencyList a (fun l => removeAt l i1))
        g.vertices b (fun l => removeAt l i2) lb hm1
      simp only [her1, her2] at ht1 ht2
      have hlen1 : la.length = q1.length + 1 + q2.length := by
        rw [hleq]
        simp only [List.length_append, List.length_cons]
        omega
      have hlen2 : lb.length = r1.length + 1 + r2.length := by
        rw [hreq]
        simp only [List.length_append, List.length_cons]
        omega
      simp only [List.length_append] at ht1 ht2
      rw [hlen1] at ht1
      rw [hlen2] at ht2
      obtain ⟨n, hn⟩ := hg.evenTotal
      have hsame : totalAdjSize ⟨g.adjacencyList, g.vertices⟩ = totalAdjSize g := rfl
      rw [hsame] at ht1
      refine ⟨n - 1, ?_⟩
      omega

/-! ### The removeVertex neighbor loop -/

theorem getD_append_length (l1 : List Edge) (x : Edge) (r : List Edge) (d : Edge) :
    (l1 ++ x :: r).getD l1.length d = x := by
  induction l1 with
  | nil => rfl
  | cons y t ih => exact ih

theorem drop_append_succ (l1 : List Edge) (x : Edge) (r : List Edge) :
    (l1 ++ x :: r).drop (l1.length + 1) = r := by
  induction l1 with
  | nil => rfl
  | cons y t ih => exact ih

theorem removeVertexLoop_noSelf (v : String) :
    ∀ (n k : ℕ) (adj : List (String × List Edge)) (M : List Edge),
      (mapGet adj v).getD [] = M →
      (∀ e ∈ M.drop k, e.vertex ≠ v) →
      M.length ≤ n + k →
      removeVertexLoop v n k adj =
        (M.drop k).foldl (fun adj e => mapUpdate adj e.vertex
          (fun l => eraseFirstP l (fun x => x.vertex == v))) adj := by
  intro n
  induction n with
  | zero =>
    intro k adj M hM hns hlen
    rw [List.drop_eq_nil_of_le (by omega)]
    rfl
  | succ n ih =>
    intro k adj M hM hns hlen
    simp only [removeVertexLoop]
    rw [hM]
    by_cases hk : k < M.length
    · rw [if_pos hk]
      have hgd : M.getD k ⟨v, 0⟩ = M[k] := List.getD_eq_getElem _ _ hk
      have hdrop : M.drop k = M[k] :: M.drop (k + 1) := List.drop_eq_getElem_cons hk
      have hmem : M.getD k ⟨v, 0⟩ ∈ M.drop k := by
        rw [hdrop, hgd]
        exact List.mem_cons_self _ _
      have hnv : (M.getD k ⟨v, 0⟩).vertex ≠ v := hns _ hmem
      have hM2 : (mapGet (mapUpdate adj (M.getD k ⟨v, 0⟩).vertex
          (fun l => eraseFirstP l (fun x => x.vertex == v))) v).getD [] = M := by
        rw [mapGet_mapUpdate_ne _ _ _ _ (Ne.symm hnv)]
        exact hM
      rw [ih (k + 1) _ M hM2
        (fun e he => hns e (by rw [hdrop]; exact List.mem_cons_of_mem _ he))
        (by omega)]
      rw [hdrop, List.foldl_cons, hgd]
    · rw [if_neg hk]
      rw [ih (k + 1) adj M hM
        (fun e he => absurd ((List.drop_eq_nil_of_le (by omega : M.length ≤ k + 1)) ▸ he)
          (List.not_mem_nil e))
        (by omega)]
      rw [List.drop_eq_nil_of_le (by omega : M.length ≤ k),
        List.drop_eq_nil_of_le (by omega : M.length ≤ k + 1)]

theorem removeVertexLoop_self (v : String) :
    ∀ (n k : ℕ) (adj : List (String × List Edge)) (l1 : List Edge) (w : ℕ)
      (l2 : List Edge),
      (mapGet adj v).getD [] = l1 ++ ⟨v, w⟩ :: ⟨v, w⟩ :: l2 →
      (∀ e ∈ l1, e.vertex ≠ v) → (∀ e ∈ l2, e.vertex ≠ v) →
      k ≤ l1.length → l1.length + l2.length + 2 ≤ n + k →
      removeVertexLoop v n k adj =
        l2.foldl (fun adj e => mapUpdate adj e.vertex
            (fun l => eraseFirstP l (fun x => x.vertex == v)))
          (mapUpdate ((l1.drop k).foldl (fun adj e => mapUpdate adj e.vertex
              (fun l => eraseFirstP l (fun x => x.vertex == v))) adj) v
            (fun l => eraseFirstP l (fun x => x.vertex == v))) := by
  intro n
  induction n with
  | zero =>
    intro k adj l1 w l2 hM hl1 hl2 hk hlen
    omega
  | succ n ih =>
    intro k adj l1 w l2 hM hl1 hl2 hk hlen
    simp only [removeVertexLoop]
    rw [hM]
    have hklen : k < (l1 ++ ⟨v, w⟩ :: ⟨v, w⟩ :: l2).length := by
      simp only [List.length_append, List.length_cons]
      omega
    rw [if_pos hklen]
    by_cases hkl : k < l1.length
    · have hgd : (l1 ++ ⟨v, w⟩ :: ⟨v, w⟩ :: l2).getD k ⟨v, 0⟩ = l1.getD k ⟨v, 0⟩ := by
        rw [List.getD_eq_getElem _ _ hklen, List.getD_eq_getElem _ _ hkl,
          List.getElem_append_left hkl]
      have hmem : l1.getD k ⟨v, 0⟩ ∈ l1 := by
        rw [List.getD_eq_getElem _ _ hkl]
        exact List.getElem_mem hkl
      have hnv : (l1.getD k ⟨v, 0⟩).vertex ≠ v := hl1 _ hmem
      rw [hgd]
      have hM2 : (mapGet (mapUpdate adj (l1.getD k ⟨v, 0⟩).vertex
          (fun l => eraseFirstP l (fun x => x.vertex == v))) v).getD [] =
          l1 ++ ⟨v, w⟩ :: ⟨v, w⟩ :: l2 := by
        rw [mapGet_mapUpdate_ne _ _ _ _ (Ne.symm hnv)]
        exact hM
      rw [ih (k + 1) _ l1 w l2 hM2 hl1 hl2 (by omega) (by omega)]
      have hdrop : l1.drop k = l1.getD k ⟨v, 0⟩ :: l1.drop (k + 1) := by
        rw [List.getD_eq_getElem _ _ hkl]
        exact List.drop_eq_getElem_cons hkl
      rw [hdrop, List.foldl_cons]
    · have hkeq : k = l1.length := by omega
      subst hkeq
      have hgd : (l1 ++ ⟨v, w⟩ :: ⟨v, w⟩ :: l2).getD l1.length ⟨v, 0⟩ = ⟨v, w⟩ :=
        getD_append_length l1 _ _ _
      rw [hgd]
      obtain ⟨M0, hM0⟩ : ∃ M0, mapGet adj v = some M0 := by
        rcases hmg : mapGet adj v with _ | M0
        · rw [hmg] at hM
          exact absurd hM.symm (by simp)
        · exact ⟨M0, rfl⟩
      have hM0v : M0 = l1 ++ ⟨v, w⟩ :: ⟨v, w⟩ :: l2 := by
        rw [hM0] at hM
        exact hM
      have herase : eraseFirstP (l1 ++ ⟨v, w⟩ :: ⟨v, w⟩ :: l2)
          (fun x => x.vertex == v) = l1 ++ ⟨v, w⟩ :: l2 := by
        rw [eraseFirstP_append_no_match _ _ _
          (fun e he => by
            rw [Bool.eq_false_iff]
            intro hc
            exact hl1 e he (by simpa using hc))]
        rw [eraseFirstP_cons, if_pos (by simp)]
      have hM2 : (mapGet (mapUpdate adj v
          (fun l => eraseFirstP l (fun x => x.vertex == v))) v).getD [] =
          l1 ++ ⟨v, w⟩ :: l2 := by
        rw [mapGet_mapUpdate_self, hM0, hM0v]
        simp only [Option.map_some', Option.getD_some]
        exact herase
      have hrest := removeVertexLoop_noSelf v n (l1.length + 1)
        (mapUpdate adj v (fun l => eraseFirstP l (fun x => x.vertex == v)))
        (l1 ++ ⟨v, w⟩ :: l2) hM2
        (fun e he => by
          rw [drop_append_succ] at he
          exact hl2 e he)
        (by simp only [List.length_append, List.length_cons]; omega)
      rw [hrest, drop_append_succ]
      rw [List.drop_eq_nil_of_le (le_refl l1.length)]
      rfl

theorem foldl_step_get_ne (v : String) :
    ∀ (L : List Edge) (adj : List (String × List Edge)) (u : String),
      (∀ e ∈ L, e.vertex ≠ u) →
      mapGet (L.foldl (fun adj e => mapUpdate adj e.vertex
        (fun l => eraseFirstP l (fun x => x.vertex == v))) adj) u = mapGet adj u := by
  intro L
  induction L with
  | nil => intro adj u _; rfl
  | cons e t ih =>
    intro adj u h
    rw [List.foldl_cons, ih _ u (fun e2 he2 => h e2 (List.mem_cons_of_mem _ he2)),
      mapGet_mapUpdate_ne _ _ _ _ (Ne.symm (h e (List.mem_cons_self _ _)))]

theorem foldl_step_get_mem (v : String) (A : List Edge) (e0 : Edge) (B : List Edge)
    (adj : List (String × List Edge)) (u : String) (he0 : e0.vertex = u)
    (hA : ∀ e ∈ A, e.vertex ≠ u) (hB : ∀ e ∈ B, e.vertex ≠ u) :
    mapGet ((A ++ e0 :: B).foldl (fun adj e => mapUpdate adj e.vertex
      (fun l => eraseFirstP l (fun x => x.vertex == v))) adj) u =
    (mapGet adj u).map (fun l => eraseFirstP l (fun x => x.vertex == v)) := by
  rw [List.foldl_append, List.foldl_cons]
  rw [foldl_step_get_ne v B _ u hB, he0, mapGet_mapUpdate_self,
    foldl_step_get_ne v A adj u hA]

theorem foldl_step_keys (v : String) :
    ∀ (L : List Edge) (adj : List (String × List Edge)),
      (L.foldl (fun adj e => mapUpdate adj e.vertex
        (fun l => eraseFirstP l (fun x => x.vertex == v))) adj).map (fun p => p.1) =
      adj.map (fun p => p.1) := by
  intro L
  induction L with
  | nil => intro adj; rfl
  | cons e t ih =>
    intro adj
    rw [List.foldl_cons, ih, keys_mapUpdate]

theorem foldl_step_total (v : String) (vs : List String) :
    ∀ (L : List Edge) (adj : List (String × List Edge)),
      (L.map (fun e => e.vertex)).Nodup →
      (∀ e ∈ L, ∃ le, mapGet adj e.vertex = some le ∧ ∃ w2, (⟨v, w2⟩ : Edge) ∈ le) →
      totalAdjSize ⟨L.foldl (fun adj e => mapUpdate adj e.vertex
        (fun l => eraseFirstP l (fun x => x.vertex == v))) adj, vs⟩ + L.length =
      totalAdjSize ⟨adj, vs⟩ := by
  intro L
  induction L with
  | nil => intro adj _ _; rfl
  | cons e t ih =>
    intro adj hnd hcond
    obtain ⟨le, hle, w2, hw2⟩ := hcond e (List.mem_cons_self _ _)
    have hlen : (eraseFirstP le (fun x => x.vertex == v)).length + 1 = le.length := by
      rcases eraseFirstP_eq le (fun x => x.vertex == v) with ⟨heq, hall⟩ |
        ⟨l1, x, l2, hleq, hpx, hno, her⟩
      · exfalso
        have := hall _ hw2
        simp at this
      · rw [her, hleq]
        simp only [List.length_append, List.length_cons]
        omega
    have ht : totalAdjSize ⟨mapUpdate adj e.vertex
        (fun l => eraseFirstP l (fun x => x.vertex == v)), vs⟩ + le.length =
        totalAdjSize ⟨adj, vs⟩ + (eraseFirstP le (fun x => x.vertex == v)).length :=
      total_mapUpdate adj vs e.vertex
        (fun l => eraseFirstP l (fun x => x.vertex == v)) le hle
    rw [List.map_cons, List.nodup_cons] at hnd
    have hcond2 : ∀ e2 ∈ t, ∃ le2, mapGet (mapUpdate adj e.vertex
        (fun l => eraseFirstP l (fun x => x.vertex == v))) e2.vertex = some le2 ∧
        ∃ w3, (⟨v, w3⟩ : Edge) ∈ le2 := by
      intro e2 he2
      obtain ⟨le2, hle2, w3, hw3⟩ := hcond e2 (List.mem_cons_of_mem _ he2)
      have hne : e2.vertex ≠ e.vertex := by
        intro hc
        exact hnd.1 (hc ▸ List.mem_map.mpr ⟨e2, he2, rfl⟩)
      exact ⟨le2, by rw [mapGet_mapUpdate_ne _ _ _ _ hne]; exact hle2, w3, hw3⟩
    have hih := ih (mapUpdate adj e.vertex
      (fun l => eraseFirstP l (fun x => x.vertex == v))) hnd.2 hcond2
    rw [List.foldl_cons, List.length_cons]
    omega

theorem no_vertex_of_countV_zero (l : List Edge) (u : String) (h : countV l u = 0) :
    ∀ e ∈ l, e.vertex ≠ u := by
  intro e he hc
  obtain ⟨ev, ew⟩ := e
  have hev : ev = u := hc
  subst hev
  have := (countV_pos_iff l ev).mpr ⟨ew, he⟩
  omega

theorem foldl_step_congr_off (v : String) :
    ∀ (L : List Edge) (adj1 adj2 : List (String × List Edge)),
      (∀ k, k ≠ v → mapGet adj1 k = mapGet adj2 k) →
      ∀ u, u ≠ v →
        mapGet (L.foldl (fun adj e => mapUpdate adj e.vertex
          (fun l => eraseFirstP l (fun x => x.vertex == v))) adj1) u =
        mapGet (L.foldl (fun adj e => mapUpdate adj e.vertex
          (fun l => eraseFirstP l (fun x => x.vertex == v))) adj2) u := by
  intro L
  induction L with
  | nil => intro adj1 adj2 h u hu; exact h u hu
  | cons e t ih =>
    intro adj1 adj2 h u hu
    rw [List.foldl_cons, List.foldl_cons]
    refine ih _ _ ?_ u hu
    intro k hk
    by_cases hke : k = e.vertex
    · subst hke
      rw [mapGet_mapUpdate_self, mapGet_mapUpdate_self, h _ hk]
    · rw [mapGet_mapUpdate_ne _ _ _ _ hke, mapGet_mapUpdate_ne _ _ _ _ hke, h k hk]

theorem fold_get_characterize (g : Graph) (v : String) (hg : GInv g)
    (L2 : List Edge)
    (hsub : ∀ (w2 : ℕ) (u : String), u ≠ v →
      ((⟨u, w2⟩ : Edge) ∈ L2 ↔ (⟨u, w2⟩ : Edge) ∈ adjOf g v))
    (hcount : ∀ u, u ≠ v → countV L2 u ≤ 1) :
    ∀ u, u ≠ v →
      mapGet (L2.foldl (fun adj e => mapUpdate adj e.vertex
        (fun l => eraseFirstP l (fun x => x.vertex == v))) g.adjacencyList) u =
      (mapGet g.adjacencyList u).map (fun l => eraseFirstP l (fun x => x.vertex == v)) := by
  intro u hu
  by_cases h0 : countV L2 u = 0
  · rw [foldl_step_get_ne v L2 _ u (no_vertex_of_countV_zero L2 u h0)]
    rcases hmg : mapGet g.adjacencyList u with _ | l
    · rfl
    · simp only [Option.map_some']
      congr 1
      refine (eraseFirstP_no_match l _ ?_).symm
      intro e he
      rw [Bool.eq_false_iff]
      intro hcq
      obtain ⟨ev, ew⟩ := e
      have hev : ev = v := by simpa using hcq
      subst hev
      have hadj : adjOf g u = l := by
        show (mapGet g.adjacencyList u).getD [] = l
        rw [hmg]
        rfl
      have hmemv : (⟨ev, ew⟩ : Edge) ∈ adjOf g u := by
        rw [hadj]
        exact he
      have hc1 : 0 < countE (adjOf g u) ev ew := (countE_pos_iff _ _ _).mpr hmemv
      have hc2 := hg.symCount u ev hu ew
      have hc3 : 0 < countE (adjOf g ev) u ew := by omega
      have hmemu := (countE_pos_iff _ _ _).mp hc3
      have hmemL := (hsub ew u hu).mpr hmemu
      have hp := (countV_pos_iff L2 u).mpr ⟨ew, hmemL⟩
      omega
  · rcases eraseFirstP_eq L2 (fun x => x.vertex == u) with ⟨heq, hall⟩ |
      ⟨A, x, B, hLeq, hpx, hA, her⟩
    · exfalso
      apply h0
      apply countV_zero_of_no_vertex
      intro e he hc
      have := hall e he
      rw [hc] at this
      simp at this
    · obtain ⟨xv, xw⟩ := x
      have hxv : xv = u := by simpa using hpx
      rw [hxv] at hLeq
      have hcB : countV B u = 0 := by
        have hc := hcount u hu
        rw [hLeq, countV_append, countV_cons, if_pos rfl] at hc
        omega
      rw [hLeq]
      rw [foldl_step_get_mem v A ⟨u, xw⟩ B g.adjacencyList u rfl
        (fun e he hc => by
          have := hA e he
          rw [hc] at this
          simp at this)
        (no_vertex_of_countV_zero B u hcB)]

theorem GInv_removeVertex_common (g : Graph) (v : String) (hg : GInv g)
    (adj2 : List (String × List Edge))
    (hkeys : adj2.map (fun p => p.1) = g.adjacencyList.map (fun p => p.1))
    (hget : ∀ u, u ≠ v → mapGet adj2 u =
      (mapGet g.adjacencyList u).map (fun l => eraseFirstP l (fun x => x.vertex == v)))
    (heven : Even (totalAdjSize ⟨mapDelete adj2 v, g.vertices.erase v⟩)) :
    GInv ⟨mapDelete adj2 v, g.vertices.erase v⟩ := by
  have hnd2 : (adj2.map (fun p => p.1)).Nodup := by
    rw [hkeys]
    exact hg.keysNodup
  have hadjU : ∀ u, u ≠ v → adjOf ⟨mapDelete adj2 v, g.vertices.erase v⟩ u =
      eraseFirstP (adjOf g u) (fun x => x.vertex == v) := by
    intro u hu
    rw [adjOf_pair, mapGet_mapDelete_ne _ _ _ hu, hget u hu]
    rcases hmg : mapGet g.adjacencyList u with _ | l
    · have hadj : adjOf g u = [] := by
        show (mapGet g.adjacencyList u).getD [] = []
        rw [hmg]
        rfl
      rw [hadj]
      rfl
    · have hadj : adjOf g u = l := by
        show (mapGet g.adjacencyList u).getD [] = l
        rw [hmg]
        rfl
      rw [hadj]
      rfl
  have hadjV : adjOf ⟨mapDelete adj2 v, g.vertices.erase v⟩ v = [] := by
    rw [adjOf_pair, mapGet_mapDelete_self adj2 v hnd2]
    rfl
  have hcv : ∀ u, u ≠ v →
      countV (eraseFirstP (adjOf g u) (fun x => x.vertex == v)) v = 0 := by
    intro u hu
    rcases eraseFirstP_eq (adjOf g u) (fun x => x.vertex == v) with ⟨heq, hall⟩ |
      ⟨A, x, B, hLeq, hpx, hA, her⟩
    · rw [heq]
      apply countV_zero_of_no_vertex
      intro e he hc
      have := hall e he
      rw [hc] at this
      simp at this
    · rw [her]
      have hs := hg.simple u v hu
      obtain ⟨xv, xw⟩ := x
      have hxv : xv = v := by simpa using hpx
      rw [hxv] at hLeq
      rw [hLeq, countV_append, countV_cons, if_pos rfl] at hs
      rw [countV_append]
      omega
  refine ⟨?_, ?_, hg.vertsNodup.erase v, ?_, ?_, ?_, ?_, heven⟩
  · intro k
    show k ∈ (mapDelete adj2 v).map (fun p => p.1) ↔ k ∈ g.vertices.erase v
    rw [keys_mapDelete, hkeys]
    rw [List.Nodup.mem_erase_iff hg.keysNodup, List.Nodup.mem_erase_iff hg.vertsNodup]
    constructor
    · rintro ⟨h1, h2⟩
      exact ⟨h1, (hg.keysIff k).mp h2⟩
    · rintro ⟨h1, h2⟩
      exact ⟨h1, (hg.keysIff k).mpr h2⟩
  · show ((mapDelete adj2 v).map (fun p => p.1)).Nodup
    rw [keys_mapDelete, hkeys]
    exact hg.keysNodup.erase v
  · intro u e he
    by_cases hu : u = v
    · subst hu
      rw [hadjV] at he
      exact absurd he (List.not_mem_nil e)
    · rw [hadjU u hu] at he
      have hmem : e ∈ adjOf g u := (eraseFirstP_sublist _ _).subset he
      have hev : e.vertex ≠ v := by
        intro hc
        obtain ⟨ev, ew⟩ := e
        have hev2 : ev = v := hc
        subst hev2
        have := (countV_pos_iff _ ev).mpr ⟨ew, he⟩
        have h0 := hcv u hu
        omega
      rw [List.mem_erase_of_ne hev]
      exact hg.targets u e hmem
  · intro x y hxy w2
    by_cases hxv : x = v
    · subst hxv
      rw [hadjV, hadjU y (Ne.symm hxy)]
      have h1 : countE (eraseFirstP (adjOf g y) (fun x2 => x2.vertex == x)) x w2 = 0 := by
        have hle := countE_le_countV
          (eraseFirstP (adjOf g y) (fun x2 => x2.vertex == x)) x w2
        have h0 := hcv y (Ne.symm hxy)
        omega
      rw [h1]
      simp [countE]
    · by_cases hyv : y = v
      · subst hyv
        rw [hadjV, hadjU x hxv]
        have h1 : countE (eraseFirstP (adjOf g x) (fun x2 => x2.vertex == y)) y w2 = 0 := by
          have hle := countE_le_countV
            (eraseFirstP (adjOf g x) (fun x2 => x2.vertex == y)) y w2
          have h0 := hcv x hxv
          omega
        rw [h1]
        simp [countE]
      · rw [hadjU x hxv, hadjU y hyv, countE_erase_ne (adjOf g x) v y w2 hyv,
          countE_erase_ne (adjOf g y) v x w2 hxv]
        exact hg.symCount x y hxy w2
  · intro x y hxy
    by_cases hxv : x = v
    · subst hxv
      rw [hadjV]
      simp [countV]
    · by_cases hyv : y = v
      · subst hyv
        rw [hadjU x hxv]
        rw [hcv x hxv]
        omega
      · rw [hadjU x hxv, countV_erase_ne (adjOf g x) v y hyv]
        exact hg.simple x y hxy
  · intro x
    by_cases hxv : x = v
    · subst hxv
      rw [hadjV]
      exact Or.inl (fun e he => absurd he (List.not_mem_nil e))
    · rw [hadjU x hxv]
      refine selfOK_erase (adjOf g x) x _ ?_ (hg.selfOK x)
      intro e hev
      rw [hev, Bool.eq_false_iff]
      intro hc
      exact hxv (by simpa using hc)

theorem mapGet_of_key_mem (m : List (String × List Edge)) (k : String)
    (h : k ∈ m.map (fun p => p.1)) : ∃ l, mapGet m k = some l := by
  induction m with
  | nil => exact absurd h (List.not_mem_nil k)
  | cons hd tl ih =>
    obtain ⟨k1, v1⟩ := hd
    show ∃ l, (if k1 = k then some v1 else mapGet tl k) = some l
    by_cases hk : k1 = k
    · exact ⟨v1, if_pos hk⟩
    · rw [if_neg hk]
      simp only [List.map_cons, List.mem_cons] at h
      rcases h with h | h
      · exact absurd h.symm hk
      · exact ih h

theorem adjOf_entry (g : Graph) (hg : GInv g) (u : String) (hu : u ∈ g.vertices) :
    mapGet g.adjacencyList u = some (adjOf g u) := by
  obtain ⟨l, hl⟩ := mapGet_of_key_mem g.adjacencyList u ((hg.keysIff u).mpr hu)
  have hadj : adjOf g u = l := by
    show (mapGet g.adjacencyList u).getD [] = l
    rw [hl]
    rfl
  rw [hl, hadj]

theorem nodup_vertices_of_countV_le_one (l : List Edge)
    (h : ∀ u, countV l u ≤ 1) : (l.map (fun e => e.vertex)).Nodup := by
  induction l with
  | nil => exact List.nodup_nil
  | cons e t ih =>
    rw [List.map_cons, List.nodup_cons]
    refine ⟨?_, ih ?_⟩
    · intro hc
      obtain ⟨e2, he2, hev⟩ := List.mem_map.mp hc
      have h1 : 0 < countV t e.vertex := by
        obtain ⟨v2, w2⟩ := e2
        have hv : v2 = e.vertex := hev
        subst hv
        exact (countV_pos_iff t e.vertex).mpr ⟨w2, he2⟩
      have h2 := h e.vertex
      rw [countV_cons, if_pos rfl] at h2
      omega
    · intro u
      have h2 := h u
      rw [countV_cons] at h2
      split_ifs at h2 <;> omega

theorem back_edge_cond (g : Graph) (v : String) (hg : GInv g) (e : Edge)
    (he : e ∈ adjOf g v) (hev : e.vertex ≠ v) :
    ∃ le, mapGet g.adjacencyList e.vertex = some le ∧
      ∃ w2, (⟨v, w2⟩ : Edge) ∈ le := by
  have hmem : e.vertex ∈ g.vertices := hg.targets v e he
  refine ⟨adjOf g e.vertex, adjOf_entry g hg e.vertex hmem, e.weight, ?_⟩
  have h1 : 0 < countE (adjOf g v) e.vertex e.weight :=
    (countE_pos_iff _ _ _).mpr he
  have h2 := hg.symCount v e.vertex (Ne.symm hev) e.weight
  have h3 : 0 < countE (adjOf g e.vertex) v e.weight := by omega
  exact (countE_pos_iff _ _ _).mp h3

theorem GInv_removeVertex (g : Graph) (v : String) (hg : GInv g) :
    GInv (removeVertex g v) := by
  simp only [removeVertex]
  by_cases hc : g.vertices.contains v = true
  case neg =>
    rw [if_neg hc]
    exact hg
  rw [if_pos hc]
  have hvm : v ∈ g.vertices := (hasVertex_iff g v).mp hc
  have hLsome : mapGet g.adjacencyList v = some (adjOf g v) := adjOf_entry g hg v hvm
  obtain ⟨nE, hnE⟩ := hg.evenTotal
  rcases hg.selfOK v with hA | ⟨p1, w, p2, hLeq, hp1, hp2⟩
  · have hloop := removeVertexLoop_noSelf v (adjOf g v).length 0 g.adjacencyList
      (adjOf g v) rfl (by rw [List.drop_zero]; exact hA) (by omega)
    rw [List.drop_zero] at hloop
    rw [hloop]
    have hgetA : ∀ u, u ≠ v →
        mapGet ((adjOf g v).foldl (fun adj e => mapUpdate adj e.vertex
          (fun l => eraseFirstP l (fun x => x.vertex == v))) g.adjacencyList) u =
        (mapGet g.adjacencyList u).map
          (fun l => eraseFirstP l (fun x => x.vertex == v)) :=
      fold_get_characterize g v hg (adjOf g v) (fun _ _ _ => Iff.rfl)
        (fun u hu => hg.simple v u (Ne.symm hu))
    have hnodup : ((adjOf g v).map (fun e => e.vertex)).Nodup := by
      apply nodup_vertices_of_countV_le_one
      intro u
      by_cases hu : u = v
      · subst hu
        have h0 := countV_zero_of_no_vertex (adjOf g u) u hA
        omega
      · exact hg.simple v u (Ne.symm hu)
    have hcond : ∀ e ∈ adjOf g v, ∃ le, mapGet g.adjacencyList e.vertex = some le ∧
        ∃ w2, (⟨v, w2⟩ : Edge) ∈ le :=
      fun e he => back_edge_cond g v hg e he (hA e he)
    have ht1 := foldl_step_total v (g.vertices.erase v) (adjOf g v)
      g.adjacencyList hnodup hcond
    have hget2 : mapGet ((adjOf g v).foldl (fun adj e => mapUpdate adj e.vertex
        (fun l => eraseFirstP l (fun x => x.vertex == v))) g.adjacencyList) v =
        some (adjOf g v) := by
      rw [foldl_step_get_ne v (adjOf g v) g.adjacencyList v hA, hLsome]
    have ht2 := total_mapDelete _ (g.vertices.erase v) v (adjOf g v) hget2
    have htg : totalAdjSize ⟨g.adjacencyList, g.vertices.erase v⟩ = totalAdjSize g := rfl
    rw [htg] at ht1
    exact GInv_removeVertex_common g v hg _
      (foldl_step_keys v (adjOf g v) g.adjacencyList) hgetA
      ⟨nE - (adjOf g v).length, by omega⟩
  · have hlen : (adjOf g v).length = p1.length + p2.length + 2 := by
      rw [hLeq]
      simp only [List.length_append, List.length_cons]
      omega
    have hloop := removeVertexLoop_self v (adjOf g v).length 0 g.adjacencyList
      p1 w p2 hLeq hp1 hp2 (by omega) (by omega)
    rw [List.drop_zero] at hloop
    rw [hloop]
    have hcountL : ∀ u, u ≠ v → countV (adjOf g v) u ≤ 1 :=
      fun u hu => hg.simple v u (Ne.symm hu)
    have hcp1 : ∀ u, countV p1 u ≤ 1 := by
      intro u
      by_cases hu : u = v
      · subst hu
        have h0 := countV_zero_of_no_vertex p1 u hp1
        omega
      · have h1 := hcountL u hu
        rw [hLeq, countV_append] at h1
        omega
    have hcp2 : ∀ u, countV p2 u ≤ 1 := by
      intro u
      by_cases hu : u = v
      · subst hu
        have h0 := countV_zero_of_no_vertex p2 u hp2
        omega
      · have h1 := hcountL u hu
        rw [hLeq, countV_append, countV_cons, countV_cons] at h1
        split_ifs at h1 <;> omega
    have hdisj : ∀ u, 0 < countV p2 u → countV p1 u = 0 := by
      intro u hpos
      by_cases hu : u = v
      · subst hu
        exact countV_zero_of_no_vertex p1 u hp1
      · have h1 := hcountL u hu
        rw [hLeq, countV_append, countV_cons, countV_cons] at h1
        split_ifs at h1 <;> omega
    have hgetB : ∀ u, u ≠ v →
        mapGet (p2.foldl (fun adj e => mapUpdate adj e.vertex
            (fun l => eraseFirstP l (fun x => x.vertex == v)))
          (mapUpdate (p1.foldl (fun adj e => mapUpdate adj e.vertex
              (fun l => eraseFirstP l (fun x => x.vertex == v))) g.adjacencyList) v
            (fun l => eraseFirstP l (fun x => x.vertex == v)))) u =
        (mapGet g.adjacencyList u).map
          (fun l => eraseFirstP l (fun x => x.vertex == v)) := by
      intro u hu
      have h1 := foldl_step_congr_off v p2
        (mapUpdate (p1.foldl (fun adj e => mapUpdate adj e.vertex
            (fun l => eraseFirstP l (fun x => x.vertex == v))) g.adjacencyList) v
          (fun l => eraseFirstP l (fun x => x.vertex == v)))
        (p1.foldl (fun adj e => mapUpdate adj e.vertex
          (fun l => eraseFirstP l (fun x => x.vertex == v))) g.adjacencyList)
        (fun k hk => mapGet_mapUpdate_ne _ _ _ _ hk) u hu
      rw [h1, ← List.foldl_append]
      refine fold_get_characterize g v hg (p1 ++ p2) ?_ ?_ u hu
      · intro w2 u2 hu2
        constructor
        · intro hmem
          rw [hLeq, List.mem_append, List.mem_cons, List.mem_cons]
          rcases List.mem_append.mp hmem with h | h
          · exact Or.inl h
          · exact Or.inr (Or.inr (Or.inr h))
        · intro hmem
          rw [hLeq] at hmem
          rw [List.mem_append]
          rcases List.mem_append.mp hmem with h | h
          · exact Or.inl h
          · rcases List.mem_cons.mp h with h2 | h2
            · simp only [Edge.mk.injEq] at h2
              exact absurd h2.1 hu2
            · rcases List.mem_cons.mp h2 with h3 | h3
              · simp only [Edge.mk.injEq] at h3
                exact absurd h3.1 hu2
              · exact Or.inr h3
      · intro u2 hu2
        have h2 := hcountL u2 hu2
        rw [hLeq] at h2
        rw [← countV_middle p1 p2 ⟨v, w⟩ u2 (Ne.symm hu2)]
        exact h2
    have hnd1 : (p1.map (fun e => e.vertex)).Nodup :=
      nodup_vertices_of_countV_le_one p1 hcp1
    have hnd2p : (p2.map (fun e => e.vertex)).Nodup :=
      nodup_vertices_of_countV_le_one p2 hcp2
    have hcond1 : ∀ e ∈ p1, ∃ le, mapGet g.adjacencyList e.vertex = some le ∧
        ∃ w2, (⟨v, w2⟩ : Edge) ∈ le := by
      intro e he
      exact back_edge_cond g v hg e
        (by rw [hLeq]; exact List.mem_append_left _ he) (hp1 e he)
    have ht1 := foldl_step_total v (g.vertices.erase v) p1 g.adjacencyList hnd1 hcond1
    have hgetF1v : mapGet (p1.foldl (fun adj e => mapUpdate adj e.vertex
        (fun l => eraseFirstP l (fun x => x.vertex == v))) g.adjacencyList) v =
        mapGet g.adjacencyList v :=
      foldl_step_get_ne v p1 g.adjacencyList v hp1
    have herase : eraseFirstP (adjOf g v) (fun x => x.vertex == v) =
        p1 ++ ⟨v, w⟩ :: p2 := by
      rw [hLeq, eraseFirstP_append_no_match _ _ _
        (fun e he => beq_eq_false_iff_ne.mpr (hp1 e he))]
      rw [eraseFirstP_cons, if_pos (by simp)]
    have ht2 : totalAdjSize ⟨mapUpdate (p1.foldl (fun adj e => mapUpdate adj e.vertex
          (fun l => eraseFirstP l (fun x => x.vertex == v))) g.adjacencyList) v
          (fun l => eraseFirstP l (fun x => x.vertex == v)), g.vertices.erase v⟩ +
        (adjOf g v).length =
        totalAdjSize ⟨p1.foldl (fun adj e => mapUpdate adj e.vertex
          (fun l => eraseFirstP l (fun x => x.vertex == v))) g.adjacencyList,
          g.vertices.erase v⟩ +
        (eraseFirstP (adjOf g v) (fun x => x.vertex == v)).length :=
      total_mapUpdate _ _ _ _ _ (by rw [hgetF1v]; exact hLsome)
    rw [herase] at ht2
    have hcond2 : ∀ e ∈ p2, ∃ le, mapGet
        (mapUpdate (p1.foldl (fun adj e => mapUpdate adj e.vertex
            (fun l => eraseFirstP l (fun x => x.vertex == v))) g.adjacencyList) v
          (fun l => eraseFirstP l (fun x => x.vertex == v))) e.vertex = some le ∧
        ∃ w2, (⟨v, w2⟩ : Edge) ∈ le := by
      intro e he
      have hev : e.vertex ≠ v := hp2 e he
      have hememL : e ∈ adjOf g v := by
        rw [hLeq]
        exact List.mem_append_right _
          (List.mem_cons_of_mem _ (List.mem_cons_of_mem _ he))
      obtain ⟨le, hle, w2, hw2⟩ := back_edge_cond g v hg e hememL hev
      have hnop1 : ∀ e2 ∈ p1, e2.vertex ≠ e.vertex := by
        have hpos2 : 0 < countV p2 e.vertex := by
          obtain ⟨ev, ew⟩ := e
          exact (countV_pos_iff p2 ev).mpr ⟨ew, he⟩
        exact no_vertex_of_countV_zero p1 e.vertex (hdisj e.vertex hpos2)
      refine ⟨le, ?_, w2, hw2⟩
      rw [mapGet_mapUpdate_ne _ _ _ _ hev,
        foldl_step_get_ne v p1 g.adjacencyList e.vertex hnop1]
      exact hle
    have ht3 := foldl_step_total v (g.vertices.erase v) p2
      (mapUpdate (p1.foldl (fun adj e => mapUpdate adj e.vertex
          (fun l => eraseFirstP l (fun x => x.vertex == v))) g.adjacencyList) v
        (fun l => eraseFirstP l (fun x => x.vertex == v))) hnd2p hcond2
    have hadj2v : mapGet (p2.foldl (fun adj e => mapUpdate adj e.vertex
          (fun l => eraseFirstP l (fun x => x.vertex == v)))
        (mapUpdate (p1.foldl (fun adj e => mapUpdate adj e.vertex
            (fun l => eraseFirstP l (fun x => x.vertex == v))) g.adjacencyList) v
          (fun l => eraseFirstP l (fun x => x.vertex == v)))) v =
        some (p1 ++ ⟨v, w⟩ :: p2) := by
      rw [foldl_step_get_ne v p2 _ v hp2, mapGet_mapUpdate_self, hgetF1v, hLsome]
      rw [Option.map_some', herase]
    have ht4 := total_mapDelete _ (g.vertices.erase v) v _ hadj2v
    have hlen2 : (p1 ++ (⟨v, w⟩ : Edge) :: p2).length = p1.length + p2.length + 1 := by
      simp only [List.length_append, List.length_cons]
      omega
    have htg : totalAdjSize ⟨g.adjacencyList, g.vertices.erase v⟩ = totalAdjSize g := rfl
    rw [htg] at ht1
    rw [hlen2] at ht2 ht4
    exact GInv_removeVertex_common g v hg _
      (by rw [foldl_step_keys, keys_mapUpdate, foldl_step_keys]) hgetB
      ⟨nE - (p1.length + p2.length + 1), by omega⟩

theorem GInv_empty : GInv emptyGraph := by
  refine ⟨?_, ?_, ?_, ?_, ?_, ?_, ?_, ?_⟩
  · intro k
    exact Iff.rfl
  · exact List.nodup_nil
  · exact List.nodup_nil
  · intro a e he
    exact absurd he (List.not_mem_nil e)
  · intro a b _ w
    rfl
  · intro a b _
    exact Nat.zero_le 1
  · intro a
    exact Or.inl (fun e he => absurd he (List.not_mem_nil e))
  · exact ⟨0, rfl⟩

theorem GInv_applyOp (g : Graph) (op : GOp) (hg : GInv g) : GInv (applyOp g op) := by
  cases op with
  | addVertexOp v => exact GInv_addVertex g v hg
  | addEdgeOp a b w => exact GInv_addEdge g a b w hg
  | removeVertexOp v => exact GInv_removeVertex g v hg
  | removeEdgeOp a b => exact GInv_removeEdge g a b hg

theorem GInv_applyOps (ops : List GOp) : GInv (applyOps ops) := by
  suffices h : ∀ (l : List GOp) (g : Graph), GInv g → GInv (l.foldl applyOp g) by
    exact h ops emptyGraph GInv_empty
  intro l
  induction l with
  | nil => intro g hg; exact hg
  | cons op t ih =>
    intro g hg
    rw [List.foldl_cons]
    exact ih _ (GInv_applyOp g op hg)

/-- C10: after any sequence of addVertex, addEdge, removeVertex and removeEdge
operations starting from the empty graph, the adjacency structure is symmetric
(an edge entry for `b` with weight `w` sits in `a`'s list exactly when one for
`a` with weight `w` sits in `b`'s list), the summed adjacency-list lengths are
even, and `getEdgeCount` is an integer. -/
theorem C10_adjacency_symmetric (ops : List GOp) :
    (∀ a b w, (⟨b, w⟩ : Edge) ∈ adjOf (applyOps ops) a ↔
      (⟨a, w⟩ : Edge) ∈ adjOf (applyOps ops) b) ∧
    Even (totalAdjSize (applyOps ops)) ∧
    (∃ n : ℕ, getEdgeCount (applyOps ops) = n) := by
  have hg := GInv_applyOps ops
  refine ⟨?_, hg.evenTotal, ?_⟩
  · intro a b w
    by_cases hab : a = b
    · subst hab
      exact Iff.rfl
    · rw [← countE_pos_iff, ← countE_pos_iff, hg.symCount a b hab w]
  · obtain ⟨n, hn⟩ := hg.evenTotal
    refine ⟨n, ?_⟩
    unfold getEdgeCount
    rw [hn]
    push_cast
    ring

/-- C8: on any graph built by a sequence of operations, `findShortestPath`
returns the sentinel `([], -1)` (and never throws) exactly when `start` or
`endV` is absent from the graph or `endV` is unreachable from `start`; in every
other case the returned path is non-empty, leads from `start` to `endV`, and
the returned distance is non-negative. -/
theorem C8_sentinel_iff (ops : List GOp) (start endV : String) :
    (findShortestPath (applyOps ops) start endV = ([], -1) ↔
      ¬ (hasVertex (applyOps ops) start = true ∧
          hasVertex (applyOps ops) endV = true) ∨
        ¬ Reachable (applyOps ops) start endV) ∧
    (findShortestPath (applyOps ops) start endV ≠ ([], -1) →
      (findShortestPath (applyOps ops) start endV).1 ≠ [] ∧
      (findShortestPath (applyOps ops) start endV).1.head? = some start ∧
      (findShortestPath (applyOps ops) start endV).1.getLast? = some endV ∧
      0 ≤ (findShortestPath (applyOps ops) start endV).2) := by
  have hWF : WFg (applyOps ops) := (GInv_applyOps ops).targets
  have hspec := findShortestPath_spec (applyOps ops) hWF start endV
  refine ⟨hspec.1, ?_⟩
  intro hne
  have hnot : ¬ (¬ (hasVertex (applyOps ops) start = true ∧
      hasVertex (applyOps ops) endV = true) ∨
      ¬ Reachable (applyOps ops) start endV) :=
    fun hcon => hne (hspec.1.mpr hcon)
  push_neg at hnot
  obtain ⟨hs, he⟩ := hnot.1
  have hr := hnot.2
  obtain ⟨⟨hw, hhead, hlast⟩, hd0, _⟩ := hspec.2 hs he hr
  refine ⟨?_, hhead, hlast, hd0⟩
  intro hnil
  rw [hnil] at hhead
  exact absurd hhead (by simp)

theorem C8_sentinel_iff_witness :
    (findShortestPath (applyOps sampleOps) "A" "E").1.head? = some "A" ∧
    0 ≤ (findShortestPath (applyOps sampleOps) "A" "E").2 :=
  ⟨((C8_sentinel_iff sampleOps "A" "E").2 (by decide)).2.1,
   ((C8_sentinel_iff sampleOps "A" "E").2 (by decide)).2.2.2⟩

end RouteAnalyzer
